import Mathlib

/-!
Shallow embedding, in Lean 4, of the core data-structure engine of the
repository (src/struct/dict.c and src/struct/t_zset.c): the incrementally
rehashed chained hash table, the span-carrying skip list, the contiguous
packed-list ("ziplist") encoding and the dual-representation ordered set,
together with proofs about the properties claimed for them.

Machine integers are modelled as `Nat`/`Int` with explicit `% 2^w` where
overflow matters.  C `double` values are modelled exactly: NaN and the two
infinities are explicit constructors and finite values are rationals, so
every comparison and the NaN-producing addition of opposite infinities
behave as in IEEE 754 (finite + finite is modelled exactly; overflow of a
finite sum to an infinity cannot produce a NaN, so it does not affect the
NaN-related statements proved below).
-/

/-- Model of a C `double` as used by the sorted-set code: NaN, the two
infinities, and exact finite values. -/
inductive DDouble where
  | nan : DDouble
  | negInf : DDouble
  | fin : ℚ → DDouble
  | posInf : DDouble
deriving DecidableEq

/-- `isnan` from `<math.h>` on the `DDouble` model. -/
def DDouble.isnan : DDouble → Bool
  | .nan => true
  | _ => false

/-- IEEE-754 addition on the `DDouble` model: NaN is absorbing, the sum of
opposite infinities is NaN, an infinity plus a finite value keeps the
infinity, and finite values add exactly. -/
def DDouble.add : DDouble → DDouble → DDouble
  | .nan, _ => .nan
  | _, .nan => .nan
  | .posInf, .negInf => .nan
  | .negInf, .posInf => .nan
  | .posInf, _ => .posInf
  | _, .posInf => .posInf
  | .negInf, _ => .negInf
  | _, .negInf => .negInf
  | .fin a, .fin b => .fin (a + b)

/-- IEEE-754 `<` on the `DDouble` model: any comparison with NaN is false. -/
def DDouble.lt : DDouble → DDouble → Bool
  | .nan, _ => false
  | _, .nan => false
  | .negInf, .negInf => false
  | .negInf, _ => true
  | _, .negInf => false
  | .posInf, _ => false
  | .fin _, .posInf => true
  | .fin a, .fin b => decide (a < b)

/-- `REDIS_AGGR_SUM` (t_zset.c). -/
def REDIS_AGGR_SUM : ℕ := 1

/-- `REDIS_AGGR_MIN` (t_zset.c). -/
def REDIS_AGGR_MIN : ℕ := 2

/-- `REDIS_AGGR_MAX` (t_zset.c). -/
def REDIS_AGGR_MAX : ℕ := 3

/-- `zunionInterAggregate` (t_zset.c): combine the accumulated score
`target` with the incoming weighted score `val` under the given aggregate
mode.  For `sum`, a NaN result (only produced by adding opposite
infinities) is replaced by `0.0`.  The `redisPanic` default branch is
modelled as returning `target`; it is unreachable for the three aggregate
constants actually used. -/
def zunionInterAggregate (target val : DDouble) (aggregate : ℕ) : DDouble :=
  if aggregate = REDIS_AGGR_SUM then
    let t := target.add val
    if t.isnan then .fin 0 else t
  else if aggregate = REDIS_AGGR_MIN then
    if val.lt target then val else target
  else if aggregate = REDIS_AGGR_MAX then
    if target.lt val then val else target
  else target

/-! ### Packed-list byte encodings (dict.c) -/

/-- `ZIP_STR_MASK` (dict.c). -/
def ZIP_STR_MASK : ℕ := 0xc0

/-- `ZIP_STR_06B` (dict.c). -/
def ZIP_STR_06B : ℕ := 0

/-- `ZIP_STR_14B` (dict.c). -/
def ZIP_STR_14B : ℕ := 0x40

/-- `ZIP_STR_32B` (dict.c). -/
def ZIP_STR_32B : ℕ := 0x80

/-- `ZIP_INT_16B` (dict.c). -/
def ZIP_INT_16B : ℕ := 0xc0

/-- `ZIP_INT_32B` (dict.c). -/
def ZIP_INT_32B : ℕ := 0xd0

/-- `ZIP_INT_64B` (dict.c). -/
def ZIP_INT_64B : ℕ := 0xe0

/-- `ZIP_INT_24B` (dict.c). -/
def ZIP_INT_24B : ℕ := 0xf0

/-- `ZIP_INT_8B` (dict.c). -/
def ZIP_INT_8B : ℕ := 0xfe

/-- `ZIP_INT_IMM_MIN` (dict.c). -/
def ZIP_INT_IMM_MIN : ℕ := 0xf1

/-- `ZIP_INT_IMM_MAX` (dict.c). -/
def ZIP_INT_IMM_MAX : ℕ := 0xfd

/-- `ZIP_IS_STR` (dict.c): an encoding byte denotes a string when its top
two bits are not both set. -/
def ZIP_IS_STR (enc : ℕ) : Bool := enc % 256 / 64 < 3

/-- `zipIntSize` (dict.c): payload bytes used by each integer encoding. -/
def zipIntSize (encoding : ℕ) : ℕ :=
  if encoding = ZIP_INT_8B then 1
  else if encoding = ZIP_INT_16B then 2
  else if encoding = ZIP_INT_24B then 3
  else if encoding = ZIP_INT_32B then 4
  else if encoding = ZIP_INT_64B then 8
  else 0

/-- Little-endian bytes of the `w`-byte two's-complement representation of
the integer `v` (the image of a C `memcpy` from a `w`-byte integer on the
little-endian host this code targets). -/
def toLEBytes (w : ℕ) (v : ℤ) : List ℕ :=
  (List.range w).map (fun k => (v % (2 ^ (8 * w))).toNat / 2 ^ (8 * k) % 256)

/-- The unsigned value of a little-endian byte list. -/
def fromLEBytes (bs : List ℕ) : ℕ :=
  bs.foldr (fun b acc => b + 256 * acc) 0

/-- The unsigned value of a big-endian byte list. -/
def fromBEBytes (bs : List ℕ) : ℕ :=
  bs.foldl (fun acc b => acc * 256 + b) 0

/-- Two's-complement reinterpretation of a `w`-byte unsigned value as a
signed integer. -/
def asSigned (w : ℕ) (n : ℕ) : ℤ :=
  if n < 2 ^ (8 * w - 1) then (n : ℤ) else (n : ℤ) - 2 ^ (8 * w)

/-- `zipEncodeLength` (dict.c): the header bytes written for an entry whose
payload has raw length `rawlen`; `encoding` is the chosen integer encoding
byte, and any byte with `ZIP_IS_STR` (callers pass 0) selects the string
forms, picked by `rawlen` alone.  Strings of length up to 63 use one byte,
up to 16383 two bytes, and larger strings a `ZIP_STR_32B` byte followed by
the four length bytes most-significant first. -/
def zipEncodeLength (encoding : ℕ) (rawlen : ℕ) : List ℕ :=
  if ZIP_IS_STR encoding then
    if rawlen ≤ 0x3f then [ZIP_STR_06B + rawlen]
    else if rawlen ≤ 0x3fff then
      [ZIP_STR_14B + (rawlen / 2 ^ 8 % 64), rawlen % 256]
    else
      [ZIP_STR_32B, rawlen / 2 ^ 24 % 256, rawlen / 2 ^ 16 % 256,
       rawlen / 2 ^ 8 % 256, rawlen % 256]
  else [encoding]

/-- `zipSaveInteger` (dict.c): the payload bytes stored for integer `value`
under the given encoding, on a little-endian host (`memrev*ifbe` are
no-ops there).  The 24-bit form stores bytes 1..3 of the little-endian
image of the 32-bit word `value << 8`. -/
def zipSaveInteger (value : ℤ) (encoding : ℕ) : List ℕ :=
  if encoding = ZIP_INT_8B then toLEBytes 1 value
  else if encoding = ZIP_INT_16B then toLEBytes 2 value
  else if encoding = ZIP_INT_24B then (toLEBytes 4 (value * 2 ^ 8)).drop 1
  else if encoding = ZIP_INT_32B then toLEBytes 4 value
  else if encoding = ZIP_INT_64B then toLEBytes 8 value
  else []

/-- `zipLoadInteger` (dict.c): read back the integer stored at `p` under
the given encoding.  The 24-bit form rebuilds the 32-bit word with a zero
low byte and applies an arithmetic right shift by 8 (the word is a
multiple of 256, so every integer-division convention agrees). -/
def zipLoadInteger (p : List ℕ) (encoding : ℕ) : ℤ :=
  if encoding = ZIP_INT_8B then asSigned 1 (fromLEBytes (p.take 1))
  else if encoding = ZIP_INT_16B then asSigned 2 (fromLEBytes (p.take 2))
  else if encoding = ZIP_INT_32B then asSigned 4 (fromLEBytes (p.take 4))
  else if encoding = ZIP_INT_24B then asSigned 4 (fromLEBytes (0 :: p.take 3)) / 2 ^ 8
  else if encoding = ZIP_INT_64B then asSigned 8 (fromLEBytes (p.take 8))
  else if ZIP_INT_IMM_MIN ≤ encoding ∧ encoding ≤ ZIP_INT_IMM_MAX then
    (encoding % 16 : ℤ) - 1
  else 0

/-- `INT24_MAX` (dict.c). -/
def INT24_MAX : ℤ := 0x7fffff

/-- `INT24_MIN` (dict.c). -/
def INT24_MIN : ℤ := -0x7fffff - 1

/-! ### Byte strings and non-NaN doubles (skip-list keys) -/

/-- `memcmp`-style comparison of two byte strings followed by the length
tie-break, as performed by `compareStringObjects` (object.c, reproduced in
`zzlCompareElements` in t_zset.c): compare the common prefix bytewise and
return the first byte difference, else the length difference.  Modelled
from the spec: `compareStringObjects` itself is not under src/; the spec
specifies "a byte-lexicographic comparison of the element payload", and
glibc `memcmp` returns the difference of the first differing bytes. -/
def compareBytes : List ℕ → List ℕ → ℤ
  | [], [] => 0
  | [], _ :: bs => -(1 + (bs.length : ℤ))
  | _ :: as, [] => 1 + (as.length : ℤ)
  | a :: as, b :: bs => if a = b then compareBytes as bs else (a : ℤ) - (b : ℤ)

/-- A non-NaN `double`: `zslInsert` asserts `!isnan(score)`, so skip-list
scores live in this type. -/
inductive NNDouble where
  | negInf : NNDouble
  | fin : ℚ → NNDouble
  | posInf : NNDouble
deriving DecidableEq

/-- IEEE-754 `<` restricted to non-NaN doubles. -/
def NNDouble.slt : NNDouble → NNDouble → Bool
  | .negInf, .negInf => false
  | .negInf, _ => true
  | _, .negInf => false
  | .posInf, _ => false
  | .fin _, .posInf => true
  | .fin a, .fin b => decide (a < b)

/-- The strict key order used throughout t_zset.c:
`score < score' || (score == score' && compareStringObjects(obj,obj') < 0)`. -/
def zslKeyLt (s1 : NNDouble) (o1 : List ℕ) (s2 : NNDouble) (o2 : List ℕ) : Bool :=
  s1.slt s2 || (s1 == s2 && decide (compareBytes o1 o2 < 0))

/-- The non-strict variant used by `zslGetRank`:
`score < score' || (score == score' && compareStringObjects(obj,obj') <= 0)`. -/
def zslKeyLe (s1 : NNDouble) (o1 : List ℕ) (s2 : NNDouble) (o2 : List ℕ) : Bool :=
  s1.slt s2 || (s1 == s2 && decide (compareBytes o1 o2 ≤ 0))

/-! ### Lexicographic range endpoints (t_zset.c) -/

/-- An endpoint of a ZRANGEBYLEX range: either the `shared.minstring` /
`shared.maxstring` sentinel object (parsed from `-` / `+`) or an ordinary
string object. -/
inductive LexItem where
  | minStr : LexItem
  | str : List ℕ → LexItem
  | maxStr : LexItem
deriving DecidableEq

/-- The byte contents of the shared sentinel objects
(`createStringObject("minstring",9)` / `("maxstring",9)`), read when plain
`compareStringObjects` is applied to a sentinel.  Modelled from the spec:
the shared-object table is not under src/; only the fact that the two
sentinels hold distinct ordinary bytes matters here. -/
def LexItem.bytes : LexItem → List ℕ
  | .minStr => [109, 105, 110, 115, 116, 114, 105, 110, 103]
  | .str s => s
  | .maxStr => [109, 97, 120, 115, 116, 114, 105, 110, 103]

/-- `compareStringObjectsForLexRange` (t_zset.c): pointer-equal operands
(the two shared sentinels) compare equal; `minstring` is below and
`maxstring` above everything else; otherwise plain byte comparison. -/
def compareStringObjectsForLexRange (a b : LexItem) : ℤ :=
  if a = b then 0
  else if a = LexItem.minStr ∨ b = LexItem.maxStr then -1
  else if a = LexItem.maxStr ∨ b = LexItem.minStr then 1
  else compareBytes a.bytes b.bytes

/-- A parsed lexicographic range (`zlexrangespec`). -/
structure ZLexRange where
  min : LexItem
  max : LexItem
  minex : Bool
  maxex : Bool

/-- `zslLexValueGteMin` (t_zset.c). -/
def zslLexValueGteMin (value : List ℕ) (spec : ZLexRange) : Bool :=
  if spec.minex then
    decide (0 < compareStringObjectsForLexRange (LexItem.str value) spec.min)
  else
    decide (0 ≤ compareStringObjectsForLexRange (LexItem.str value) spec.min)

/-- `zslLexValueLteMax` (t_zset.c). -/
def zslLexValueLteMax (value : List ℕ) (spec : ZLexRange) : Bool :=
  if spec.maxex then
    decide (compareStringObjectsForLexRange (LexItem.str value) spec.max < 0)
  else
    decide (compareStringObjectsForLexRange (LexItem.str value) spec.max ≤ 0)

/-! ### Skip list (t_zset.c)

The skip list is embedded by its level-0 chain: a node records its score,
its element and its number of levels (the length of the C node's `level[]`
array).  A position `p` is 0 for the header sentinel and `p ∈ [1, n]` for
the `p`-th node of the level-0 chain.  The C structure's per-level forward
pointers and spans are derived data: at level `i` the forward pointer from
`p` is the next position whose node has more than `i` levels, and the span
stored alongside it is exactly the number of level-0 steps it crosses, so
`span = forward - p`.  The search loops below walk these derived pointers
exactly as the C loops walk the stored ones; rank accumulators add the
derived spans.  Loops carry explicit fuel (`ns.length` bounds every walk)
so that all recursions are structural. -/

/-- `ZSKIPLIST_MAXLEVEL` (redis.h). -/
def ZSKIPLIST_MAXLEVEL : ℕ := 32

/-- A skip-list node: score, element, and number of levels. -/
structure ZslNode where
  score : NNDouble
  obj : List ℕ
  height : ℕ
deriving DecidableEq

/-- A skip list: the level-0 chain plus the current max level. -/
structure ZSkipList where
  nodes : List ZslNode
  level : ℕ
deriving DecidableEq

/-- The number of levels of the node at position `q` (0 outside `[1,n]`;
the header at position 0 is handled separately since it has all levels). -/
def heightAt (ns : List ZslNode) (q : ℕ) : ℕ :=
  match ns.get? (q - 1) with
  | some nd => nd.height
  | none => 0

/-- The element stored at position `q` (`x->obj`); `none` for the header
(position 0), whose `obj` is NULL. -/
def objAt (ns : List ZslNode) (q : ℕ) : Option (List ℕ) :=
  if q = 0 then none else (ns.get? (q - 1)).map (·.obj)

/-- Scan for the first position in `[q, q+cnt)` whose node has more than
`i` levels. -/
def scanFwd (ns : List ZslNode) (i : ℕ) : ℕ → ℕ → Option ℕ
  | _, 0 => none
  | q, cnt + 1 => if i < heightAt ns q then some q else scanFwd ns i (q + 1) cnt

/-- Derived forward pointer `x->level[i].forward` from position `p`: the
first later position whose node participates in level `i`. -/
def fwdPos (ns : List ZslNode) (i p : ℕ) : Option ℕ :=
  scanFwd ns i (p + 1) (ns.length - p)

/-- One level of the C search loop:
`while (x->level[i].forward && pred(x->level[i].forward)) x = x->level[i].forward`.
Returns the final position; `fuel ≥ ns.length - p` makes the recursion
structural without changing the result. -/
def walkLevel (ns : List ZslNode) (pred : ℕ → Bool) (i : ℕ) : ℕ → ℕ → ℕ
  | p, 0 => p
  | p, fuel + 1 =>
    match fwdPos ns i p with
    | none => p
    | some q => if pred q then walkLevel ns pred i q fuel else p

/-- The advance condition of `zslInsert` / `zslDelete` /
`zslDeleteRangeByLex`-style walks that use the strict key order. -/
def zslKeyLtAt (ns : List ZslNode) (score : NNDouble) (obj : List ℕ) (q : ℕ) : Bool :=
  match ns.get? (q - 1) with
  | some nd => zslKeyLt nd.score nd.obj score obj
  | none => false

/-- The advance condition of the `zslGetRank` walk (non-strict tie-break). -/
def zslKeyLeAt (ns : List ZslNode) (score : NNDouble) (obj : List ℕ) (q : ℕ) : Bool :=
  match ns.get? (q - 1) with
  | some nd => zslKeyLe nd.score nd.obj score obj
  | none => false

/-- The top-to-bottom descent shared by `zslInsert` and `zslDelete`: walk
each level from `lvl-1` down to 0 with the same advance predicate,
starting at the header.  The C code additionally records the landing
position of every level in `update[]`; only the level-0 landing (the
return value here) determines the mutation of the level-0 chain. -/
def walkDescent (ns : List ZslNode) (pred : ℕ → Bool) : ℕ → ℕ → ℕ
  | 0, p => p
  | i + 1, p => walkDescent ns pred i (walkLevel ns pred i p ns.length)

/-- `zslRandomLevel` (t_zset.c): starting from 1, one more level per draw
with `(random() & 0xFFFF) < (ZSKIPLIST_P * 0xFFFF)` (with `ZSKIPLIST_P =
0.25` this is `r % 65536 < 16384`), then cap at `ZSKIPLIST_MAXLEVEL`.
`draws` is the finite stream of `random()` values consumed by one
terminating execution of the C `while` loop. -/
def zslRandomLevelAux : List ℕ → ℕ → ℕ
  | [], level => level
  | r :: rest, level =>
    if r % 65536 < 16384 then zslRandomLevelAux rest (level + 1) else level

/-- `zslRandomLevel` including the final cap. -/
def zslRandomLevel (draws : List ℕ) : ℕ :=
  let level := zslRandomLevelAux draws 1
  if level < ZSKIPLIST_MAXLEVEL then level else ZSKIPLIST_MAXLEVEL

/-- The largest index into the `update[]` / `rank[]` arrays (both declared
with `ZSKIPLIST_MAXLEVEL` slots) that `zslInsert` touches: the descent
loop runs `i = zsl->level-1 .. 0`, the splice loop `i = 0 .. level-1`, and
the untouched-span loop `i = level .. zsl->level-1`. -/
def zslInsertMaxIndex (zslLevel newLevel : ℕ) : ℕ :=
  max zslLevel newLevel - 1

/-- `zslInsert` (t_zset.c): find the splice position with the strict-order
descent, then insert the new node (with `zslRandomLevel(draws)` levels) in
the level-0 chain and raise `zsl->level` if the new node is taller.  The
per-level span surgery of the C code is derived data here (spans are
recomputed from positions). -/
def zslInsert (zsl : ZSkipList) (score : NNDouble) (obj : List ℕ)
    (draws : List ℕ) : ZSkipList :=
  let p := walkDescent zsl.nodes (zslKeyLtAt zsl.nodes score obj) zsl.level 0
  let lvl := zslRandomLevel draws
  { nodes := zsl.nodes.insertIdx p ⟨score, obj, lvl⟩,
    level := max zsl.level lvl }

/-- The level-shrinking loop at the end of `zslDeleteNode`:
`while (zsl->level > 1 && zsl->header->level[zsl->level-1].forward == NULL)
zsl->level--;` — the header's forward pointer at level `l-1` is null
exactly when no node has at least `l` levels. -/
def zslShrinkLevel (ns : List ZslNode) : ℕ → ℕ
  | 0 => 0
  | l + 1 =>
    if 1 < l + 1 ∧ ns.all (fun nd => nd.height < l + 1) then zslShrinkLevel ns l
    else l + 1

/-- `zslDeleteNode` (t_zset.c) on the derived representation: remove the
node at 0-based index `idx` from the level-0 chain (the span/backward
surgery is derived) and shrink the level. -/
def zslDeleteNode (zsl : ZSkipList) (idx : ℕ) : ZSkipList :=
  let ns := zsl.nodes.eraseIdx idx
  { nodes := ns, level := zslShrinkLevel ns zsl.level }

/-- `zslDelete` (t_zset.c): descend with the strict key order, look at the
following node (`x = x->level[0].forward`), and delete it only when both
score and object match.  Returns the new list and whether a node was
removed. -/
def zslDelete (zsl : ZSkipList) (score : NNDouble) (obj : List ℕ) :
    ZSkipList × Bool :=
  let p := walkDescent zsl.nodes (zslKeyLtAt zsl.nodes score obj) zsl.level 0
  match zsl.nodes.get? p with
  | some nd =>
    if nd.score = score ∧ nd.obj = obj then (zslDeleteNode zsl p, true)
    else (zsl, false)
  | none => (zsl, false)

/-- `zslGetRank` (t_zset.c), one `for` iteration per level from `lvl-1`
down to 0: advance while the next node's key is `≤` the target under the
non-strict tie-break, accumulate the crossed spans (the derived span of a
jump from `p` to `q` is `q - p`, so the level's contribution is the
position difference), then return the rank if the landing node's element
equals `o` (`x->obj && equalStringObjects(x->obj,o)`; the header's `obj`
is NULL).  Falls through to 0 when no level matches. -/
def zslGetRankLoop (ns : List ZslNode) (score : NNDouble) (obj : List ℕ) :
    ℕ → ℕ → ℕ → ℕ
  | 0, _, _ => 0
  | i + 1, p, rank =>
    let p' := walkLevel ns (zslKeyLeAt ns score obj) i p ns.length
    let rank' := rank + (p' - p)
    if objAt ns p' = some obj then rank'
    else zslGetRankLoop ns score obj i p' rank'

/-- `zslGetRank` (t_zset.c). -/
def zslGetRank (zsl : ZSkipList) (score : NNDouble) (obj : List ℕ) : ℕ :=
  zslGetRankLoop zsl.nodes score obj zsl.level 0 0

/-- `zslGetElementByRank` (t_zset.c): advance while
`traversed + span ≤ rank`; since the accumulated `traversed` always equals
the current position (spans telescope from the header), the advance
condition for a jump from the level's entry position `p` to `q` is
`traversed + (q - p) ≤ rank`.  Returns the position `x` stands on when
`traversed == rank` (0 is the header, which the C function can return for
rank 0), `none` for NULL. -/
def zslGetElementByRankLoop (ns : List ZslNode) (rank : ℕ) :
    ℕ → ℕ → ℕ → Option ℕ
  | 0, _, _ => none
  | i + 1, p, traversed =>
    let p' := walkLevel ns (fun q => decide (traversed + (q - p) ≤ rank)) i p ns.length
    let traversed' := traversed + (p' - p)
    if traversed' = rank then some p'
    else zslGetElementByRankLoop ns rank i p' traversed'

/-- `zslGetElementByRank` (t_zset.c); the returned position identifies the
node (`zsl.nodes.get? (pos - 1)` for positions ≥ 1). -/
def zslGetElementByRank (zsl : ZSkipList) (rank : ℕ) : Option ℕ :=
  zslGetElementByRankLoop zsl.nodes rank zsl.level 0 0

/-- The advance condition of the `zslFirstInLexRange` /
`zslDeleteRangeByLex` walks: go forward while the next node is *out* of
range (`!zslLexValueGteMin(forward->obj, range)`). -/
def lexGteMinAt (ns : List ZslNode) (range : ZLexRange) (q : ℕ) : Bool :=
  match ns.get? (q - 1) with
  | some nd => zslLexValueGteMin nd.obj range
  | none => false

/-- `zslIsInLexRange` (t_zset.c).  Note the repository's empty-range test
compares `compareStringObjectsForLexRange(min,max) > 1` (not `> 0`), and
the equality test uses plain `compareStringObjects` on the endpoint
objects (reading the sentinel objects' own bytes). -/
def zslIsInLexRange (zsl : ZSkipList) (range : ZLexRange) : Bool :=
  if 1 < compareStringObjectsForLexRange range.min range.max ∨
      (compareBytes range.min.bytes range.max.bytes = 0 ∧
        (range.minex ∨ range.maxex)) then false
  else
    match zsl.nodes.getLast? with
    | none => false
    | some tailNd =>
      if ¬ zslLexValueGteMin tailNd.obj range then false
      else
        match zsl.nodes.head? with
        | none => false
        | some headNd => zslLexValueLteMax headNd.obj range

/-- `zslFirstInLexRange` (t_zset.c): after the early range check, descend
while out of range, step to the level-0 successor (`x = x->level[0].forward`;
the C code asserts it is non-NULL, which holds whenever the early check
passed — proved below), and keep it only if it is `≤ max`. -/
def zslFirstInLexRange (zsl : ZSkipList) (range : ZLexRange) : Option ZslNode :=
  if ¬ zslIsInLexRange zsl range then none
  else
    let p := walkDescent zsl.nodes (fun q => ! lexGteMinAt zsl.nodes range q)
      zsl.level 0
    match zsl.nodes.get? p with
    | none => none
    | some nd => if zslLexValueLteMax nd.obj range then some nd else none

/-- The landing position of the `zslFirstInLexRange` walk (the value of
`x` before `x = x->level[0].forward`), used to state that the C assertion
`redisAssert(x != NULL)` cannot fire. -/
def zslFirstInLexRangePos (zsl : ZSkipList) (range : ZLexRange) : ℕ :=
  walkDescent zsl.nodes (fun q => ! lexGteMinAt zsl.nodes range q) zsl.level 0

/-- A parsed score range (`zrangespec`). -/
structure ZRangeSpec where
  min : NNDouble
  max : NNDouble
  minex : Bool
  maxex : Bool

/-! ### Hash table (dict.c)

The chained hash table: a bucket is the list of entries linked through
`next`, a table is its bucket array, and a dictionary owns two tables plus
the rehash cursor.  `size`, `sizemask` and `used` are kept derived
(`table.length`, `size - 1`, total chain length); the C code keeps them in
lockstep with exactly these values.  The hash function and the
`dict_can_resize` toggle are parameters (the type descriptor and the
process-wide flag).  Keys are byte strings compared by content
(`dictCompareKeys`). -/

/-- A hash-table entry (key, value); the `next` pointer is the bucket-list
structure. -/
structure DictEntry (V : Type) where
  key : List ℕ
  val : V
deriving DecidableEq

/-- One hash table (`dictht`): the bucket array. -/
structure DictHt (V : Type) where
  table : List (List (DictEntry V))
deriving DecidableEq

/-- `ht->size`. -/
def DictHt.size {V : Type} (ht : DictHt V) : ℕ := ht.table.length

/-- `ht->sizemask = size - 1`. -/
def DictHt.sizemask {V : Type} (ht : DictHt V) : ℕ := ht.size - 1

/-- `ht->used`: the number of stored entries. -/
def DictHt.used {V : Type} (ht : DictHt V) : ℕ := (ht.table.map List.length).sum

/-- Read bucket `i` (`ht->table[i]`). -/
def DictHt.bucket {V : Type} (ht : DictHt V) (i : ℕ) : List (DictEntry V) :=
  ht.table.getD i []

/-- Overwrite bucket `i`. -/
def DictHt.setBucket {V : Type} (ht : DictHt V) (i : ℕ)
    (b : List (DictEntry V)) : DictHt V :=
  ⟨ht.table.set i b⟩

/-- `_dictReset`: a table with no bucket array (`table == NULL, size 0`). -/
def DictHt.reset {V : Type} : DictHt V := ⟨[]⟩

/-- `dict`: two tables, the rehash cursor (−1 when not rehashing) and the
safe-iterator count. -/
structure Dict (V : Type) where
  ht0 : DictHt V
  ht1 : DictHt V
  rehashidx : ℤ
  iterators : ℕ
deriving DecidableEq

/-- `dictIsRehashing`. -/
def dictIsRehashing {V : Type} (d : Dict V) : Bool := d.rehashidx ≠ -1

/-- `DICT_HT_INITIAL_SIZE` (dict.c). -/
def DICT_HT_INITIAL_SIZE : ℕ := 4

/-- `dict_force_resize_ratio` (dict.c). -/
def dict_force_resize_ratio : ℕ := 5

/-- `dictCreate` / `_dictInit`. -/
def dictCreate (V : Type) : Dict V := ⟨DictHt.reset, DictHt.reset, -1, 0⟩

/-- The doubling loop of `_dictNextPower`; fuel `size` always suffices
since `4 * 2 ^ size ≥ size`. -/
def _dictNextPowerLoop (size : ℕ) : ℕ → ℕ → ℕ
  | i, 0 => i
  | i, fuel + 1 => if size ≤ i then i else _dictNextPowerLoop size (i * 2) fuel

/-- `_dictNextPower` (dict.c): the first power of two `≥ size`, starting
from `DICT_HT_INITIAL_SIZE`. -/
def _dictNextPower (size : ℕ) : ℕ :=
  _dictNextPowerLoop size DICT_HT_INITIAL_SIZE size

/-- `dictExpand` (dict.c): refuse while rehashing or when the requested
size is below `ht[0].used`; otherwise install a fresh bucket array either
as `ht[0]` (first initialization) or as `ht[1]`, with `rehashidx = 0`.
The Bool result is `DICT_OK`. -/
def dictExpand {V : Type} (d : Dict V) (size : ℕ) : Dict V × Bool :=
  let realsize := _dictNextPower size
  if dictIsRehashing d ∨ size < d.ht0.used then (d, false)
  else
    let n : DictHt V := ⟨List.replicate realsize []⟩
    if d.ht0.table.isEmpty then ({ d with ht0 := n }, true)
    else ({ d with ht1 := n, rehashidx := 0 }, true)

/-- The inner relink loop of `dictRehash`: every entry of the bucket is
prepended to its `ht[1]` bucket (`de->next = ht[1].table[h]; ...`). -/
def moveBucket {V : Type} (hash : List ℕ → ℕ) (ht1 : DictHt V) :
    List (DictEntry V) → DictHt V
  | [] => ht1
  | de :: rest =>
    let h := hash de.key &&& ht1.sizemask
    moveBucket hash (ht1.setBucket h (de :: ht1.bucket h)) rest

/-- The first non-empty `ht[0]` bucket at index `≥ r`
(`while(ht[0].table[rehashidx] == NULL) rehashidx++`). -/
def findNonEmptyFrom {V : Type} (ht : DictHt V) (r : ℕ) : Option ℕ :=
  (List.range' r (ht.size - r)).find? (fun j => !(ht.bucket j).isEmpty)

/-- The `while(n--)` body of `dictRehash`: either finish (swap the tables
in when `ht[0]` is drained, Bool result 0/false) or migrate the next
non-empty bucket.  The `none` branch of the scan corresponds to the C
`assert(ht[0].size > rehashidx)` walking off the array; it is unreachable
for well-formed dictionaries. -/
def dictRehashLoop {V : Type} (hash : List ℕ → ℕ) : ℕ → Dict V → Dict V × Bool
  | 0, d => (d, true)
  | n + 1, d =>
    if d.ht0.used = 0 then
      (⟨d.ht1, DictHt.reset, -1, d.iterators⟩, false)
    else
      match findNonEmptyFrom d.ht0 d.rehashidx.toNat with
      | none => (d, true)
      | some ridx =>
        let ht1' := moveBucket hash d.ht1 (d.ht0.bucket ridx)
        dictRehashLoop hash n
          { d with ht0 := d.ht0.setBucket ridx [], ht1 := ht1',
                   rehashidx := (ridx : ℤ) + 1 }

/-- `dictRehash` (dict.c). -/
def dictRehash {V : Type} (hash : List ℕ → ℕ) (d : Dict V) (n : ℕ) :
    Dict V × Bool :=
  if ¬ dictIsRehashing d then (d, false) else dictRehashLoop hash n d

/-- `_dictRehashStep`: one step unless a safe iterator is active. -/
def _dictRehashStep {V : Type} (hash : List ℕ → ℕ) (d : Dict V) : Dict V :=
  if d.iterators = 0 then (dictRehash hash d 1).1 else d

/-- `_dictExpandIfNeeded` (dict.c). -/
def _dictExpandIfNeeded {V : Type} (canResize : Bool) (d : Dict V) :
    Dict V × Bool :=
  if dictIsRehashing d then (d, true)
  else if d.ht0.size = 0 then dictExpand d DICT_HT_INITIAL_SIZE
  else if d.ht0.size ≤ d.ht0.used ∧
      (canResize ∨ dict_force_resize_ratio < d.ht0.used / d.ht0.size) then
    dictExpand d (d.ht0.used * 2)
  else (d, true)

/-- Chain scan for a key (`while(he) { if (dictCompareKeys...) ... }`). -/
def bucketContains {V : Type} (b : List (DictEntry V)) (key : List ℕ) : Bool :=
  b.any (fun e => e.key == key)

/-- `_dictKeyIndex` (dict.c): expand if needed, then scan the key's bucket
of `ht[0]` (and of `ht[1]` when rehashing); `none` for −1 (key exists or
expand error), otherwise the free-slot index — computed for `ht[1]` while
rehashing. -/
def _dictKeyIndex {V : Type} (hash : List ℕ → ℕ) (canResize : Bool)
    (d : Dict V) (key : List ℕ) : Dict V × Option ℕ :=
  match _dictExpandIfNeeded canResize d with
  | (d1, false) => (d1, none)
  | (d1, true) =>
    let h := hash key
    let idx0 := h &&& d1.ht0.sizemask
    if bucketContains (d1.ht0.bucket idx0) key then (d1, none)
    else if ¬ dictIsRehashing d1 then (d1, some idx0)
    else
      let idx1 := h &&& d1.ht1.sizemask
      if bucketContains (d1.ht1.bucket idx1) key then (d1, none)
      else (d1, some idx1)

/-- `dictAdd` = `dictAddRaw` + `dictSetVal` (dict.c): one rehash step when
rehashing, find the free slot (−1 when the key exists), then link a fresh
entry at the bucket head of `ht[1]` if rehashing else `ht[0]`.  The Bool
result is `DICT_OK`. -/
def dictAdd {V : Type} (hash : List ℕ → ℕ) (canResize : Bool) (d : Dict V)
    (key : List ℕ) (val : V) : Dict V × Bool :=
  let d0 := if dictIsRehashing d then _dictRehashStep hash d else d
  match _dictKeyIndex hash canResize d0 key with
  | (d1, none) => (d1, false)
  | (d1, some idx) =>
    if dictIsRehashing d1 then
      ({ d1 with ht1 := d1.ht1.setBucket idx (⟨key, val⟩ :: d1.ht1.bucket idx) },
        true)
    else
      ({ d1 with ht0 := d1.ht0.setBucket idx (⟨key, val⟩ :: d1.ht0.bucket idx) },
        true)

/-- Chain lookup returning the entry's value. -/
def bucketFind {V : Type} (b : List (DictEntry V)) (key : List ℕ) : Option V :=
  (b.find? (fun e => e.key == key)).map (·.val)

/-- `dictFind` (dict.c); returns the (possibly rehash-stepped) dictionary
together with the found value (the C function returns the entry pointer). -/
def dictFind {V : Type} (hash : List ℕ → ℕ) (d : Dict V) (key : List ℕ) :
    Dict V × Option V :=
  if d.ht0.size = 0 then (d, none)
  else
    let d1 := if dictIsRehashing d then _dictRehashStep hash d else d
    let h := hash key
    match bucketFind (d1.ht0.bucket (h &&& d1.ht0.sizemask)) key with
    | some v => (d1, some v)
    | none =>
      if ¬ dictIsRehashing d1 then (d1, none)
      else (d1, bucketFind (d1.ht1.bucket (h &&& d1.ht1.sizemask)) key)

/-- `dictDelete` / `dictGenericDelete` (dict.c): unlink the first matching
entry of the key's bucket in `ht[0]`, then in `ht[1]` when rehashing. -/
def dictDelete {V : Type} (hash : List ℕ → ℕ) (d : Dict V) (key : List ℕ) :
    Dict V × Bool :=
  if d.ht0.size = 0 then (d, false)
  else
    let d1 := if dictIsRehashing d then _dictRehashStep hash d else d
    let h := hash key
    let idx0 := h &&& d1.ht0.sizemask
    if bucketContains (d1.ht0.bucket idx0) key then
      let b0 := (d1.ht0.bucket idx0).eraseP (fun e => e.key == key)
      ({ d1 with ht0 := d1.ht0.setBucket idx0 b0 }, true)
    else if ¬ dictIsRehashing d1 then (d1, false)
    else
      let idx1 := h &&& d1.ht1.sizemask
      if bucketContains (d1.ht1.bucket idx1) key then
        let b1 := (d1.ht1.bucket idx1).eraseP (fun e => e.key == key)
        ({ d1 with ht1 := d1.ht1.setBucket idx1 b1 }, true)
      else (d1, false)

/-- The in-place value overwrite `dictGetVal(de) = &znode->score`
performed by the ZADD score-update path on the entry found for `key`
(unique under well-formedness). -/
def dictSetValForKey {V : Type} (d : Dict V) (key : List ℕ) (val : V) :
    Dict V :=
  let upd := fun (b : List (DictEntry V)) =>
    b.map (fun e => if e.key == key then ⟨e.key, val⟩ else e)
  { d with ht0 := ⟨d.ht0.table.map upd⟩, ht1 := ⟨d.ht1.table.map upd⟩ }

/-- All stored (key, value) pairs, across both tables. -/
def dictEntries {V : Type} (d : Dict V) : List (List ℕ × V) :=
  (d.ht0.table.flatten ++ d.ht1.table.flatten).map (fun e => (e.key, e.val))

/-- `dictSize`: the total used count. -/
def dictUsed {V : Type} (d : Dict V) : ℕ := d.ht0.used + d.ht1.used

/-- Well-formedness of a dictionary, as maintained by dict.c: every entry
sits in the bucket its hash selects; keys are globally distinct; the
rehash cursor is −1 exactly when `ht[1]` is absent, stays within `ht[0]`,
and everything before it has been drained; a dictionary without `ht[0]`
has no `ht[1]` either. -/
structure DictWF {V : Type} (hash : List ℕ → ℕ) (d : Dict V) : Prop where
  placement0 : ∀ i < d.ht0.size, ∀ e ∈ d.ht0.bucket i,
    hash e.key &&& d.ht0.sizemask = i
  placement1 : ∀ i < d.ht1.size, ∀ e ∈ d.ht1.bucket i,
    hash e.key &&& d.ht1.sizemask = i
  nodupKeys : ((d.ht0.table.flatten ++ d.ht1.table.flatten).map (·.key)).Nodup
  rehash_iff : d.rehashidx = -1 ↔ d.ht1.size = 0
  rehashidx_nonneg : d.rehashidx ≠ -1 → 0 ≤ d.rehashidx
  rehashidx_le : d.rehashidx ≠ -1 → d.rehashidx.toNat ≤ d.ht0.size
  skipped_empty : ∀ j < d.rehashidx.toNat, d.ht0.bucket j = []
  ht0_empty : d.ht0.size = 0 → d.ht1.size = 0

/-! ### Ordered set (t_zset.c)

The large (skip list + hash table) form: the dictionary maps an element to
a pointer at the score field inside its skip-list node; dereferencing that
pointer yields the node's score, so the value is carried as the score it
dereferences to.  The small form is the zset ziplist, whose logical
content is the list of consecutive (element, score) entry pairs; the
`d2string`/`strtod` round-trip through the packed bytes is exact for
every stored double, so scores are carried directly. -/

/-- The large-form ordered set (`zset`): skip list + dictionary. -/
structure ZSetL where
  zsl : ZSkipList
  dict : Dict NNDouble
deriving DecidableEq

/-- All (element, score) pairs of the skip list, in level-0 order. -/
def zslPairs (zsl : ZSkipList) : List (List ℕ × NNDouble) :=
  zsl.nodes.map (fun nd => (nd.obj, nd.score))

/-- `zslCreate`: empty list, level 1. -/
def zslEmpty : ZSkipList := ⟨[], 1⟩

/-- The ZADD skiplist branch for one (score, element), non-incrementing
(t_zset.c, `zaddGenericCommand`): if the element is found in the
dictionary and the score changed, delete and re-insert the skip-list node
and repoint the dictionary value at the new node's score
(`dictGetVal(de) = &znode->score`); if absent, insert a fresh node and
`dictAdd` the element with a pointer to its score.  Returns
(new set, added, updated). -/
def zsetAdd (hash : List ℕ → ℕ) (canResize : Bool) (zs : ZSetL)
    (score : NNDouble) (ele : List ℕ) (draws : List ℕ) :
    ZSetL × Bool × Bool :=
  match dictFind hash zs.dict ele with
  | (d1, some curscore) =>
    if score ≠ curscore then
      let zsl1 := (zslDelete zs.zsl curscore ele).1
      let zsl2 := zslInsert zsl1 score ele draws
      let d2 := dictSetValForKey d1 ele score
      (⟨zsl2, d2⟩, false, true)
    else (⟨zs.zsl, d1⟩, false, false)
  | (d1, none) =>
    let zsl2 := zslInsert zs.zsl score ele draws
    let d2 := (dictAdd hash canResize d1 ele score).1
    (⟨zsl2, d2⟩, true, false)

/-- The ZREM skiplist branch for one element (t_zset.c, `zremCommand`):
read the score through the dictionary entry, delete the skip-list node,
then delete the dictionary entry.  (The conditional `dictResize` that may
follow is policy glue outside src/ and only repacks buckets.) -/
def zsetRemove (hash : List ℕ → ℕ) (zs : ZSetL) (ele : List ℕ) :
    ZSetL × Bool :=
  match dictFind hash zs.dict ele with
  | (d1, some score) =>
    let zsl1 := (zslDelete zs.zsl score ele).1
    let d2 := (dictDelete hash d1 ele).1
    (⟨zsl1, d2⟩, true)
  | (d1, none) => (⟨zs.zsl, d1⟩, false)

/-- The deletion loop shared by `zslDeleteRangeByScore` and
`zslDeleteRangeByLex` (t_zset.c): starting at the level-0 successor of the
walk's landing position (0-based index `idx` stays fixed as nodes are
erased), delete nodes while they satisfy `cond`, removing each from the
dictionary as well. -/
def zslDeleteWhile (hash : List ℕ → ℕ) (cond : ZslNode → Bool) (idx : ℕ) :
    ℕ → ZSkipList → Dict NNDouble → ℕ → ZSkipList × Dict NNDouble × ℕ
  | 0, zsl, d, removed => (zsl, d, removed)
  | fuel + 1, zsl, d, removed =>
    match zsl.nodes.get? idx with
    | some nd =>
      if cond nd then
        let zsl1 := zslDeleteNode zsl idx
        let d1 := (dictDelete hash d nd.obj).1
        zslDeleteWhile hash cond idx fuel zsl1 d1 (removed + 1)
      else (zsl, d, removed)
    | none => (zsl, d, removed)

/-- `zslDeleteRangeByScore` (t_zset.c): descend while the next node is
below the range (`minex ? score <= min : score < min`), then delete while
`maxex ? score < max : score <= max`. -/
def zslDeleteRangeByScore (hash : List ℕ → ℕ) (zsl : ZSkipList)
    (range : ZRangeSpec) (d : Dict NNDouble) :
    ZSkipList × Dict NNDouble × ℕ :=
  let pred := fun q => match zsl.nodes.get? (q - 1) with
    | some nd =>
      if range.minex then nd.score.slt range.min || nd.score == range.min
      else nd.score.slt range.min
    | none => false
  let p := walkDescent zsl.nodes pred zsl.level 0
  zslDeleteWhile hash
    (fun nd => if range.maxex then nd.score.slt range.max
      else nd.score.slt range.max || nd.score == range.max)
    p zsl.nodes.length zsl d 0

/-- `zslDeleteRangeByLex` (t_zset.c). -/
def zslDeleteRangeByLex (hash : List ℕ → ℕ) (zsl : ZSkipList)
    (range : ZLexRange) (d : Dict NNDouble) :
    ZSkipList × Dict NNDouble × ℕ :=
  let p := walkDescent zsl.nodes (fun q => ! lexGteMinAt zsl.nodes range q)
    zsl.level 0
  zslDeleteWhile hash (fun nd => zslLexValueLteMax nd.obj range)
    p zsl.nodes.length zsl d 0

/-- The counting deletion loop of `zslDeleteRangeByRank`: delete while
`traversed <= end`. -/
def zslDeleteWhileCount (hash : List ℕ → ℕ) (endRank idx : ℕ) :
    ℕ → ℕ → ZSkipList → Dict NNDouble → ℕ → ZSkipList × Dict NNDouble × ℕ
  | 0, _, zsl, d, removed => (zsl, d, removed)
  | fuel + 1, traversed, zsl, d, removed =>
    match zsl.nodes.get? idx with
    | some nd =>
      if traversed ≤ endRank then
        let zsl1 := zslDeleteNode zsl idx
        let d1 := (dictDelete hash d nd.obj).1
        zslDeleteWhileCount hash endRank idx fuel (traversed + 1) zsl1 d1
          (removed + 1)
      else (zsl, d, removed)
    | none => (zsl, d, removed)

/-- `zslDeleteRangeByRank` (t_zset.c), 1-based inclusive bounds: descend
while `traversed + span < start` (with the accumulated `traversed` equal
to the current position, the condition for a jump to `q` is `q < start`),
then delete while `traversed <= end`. -/
def zslDeleteRangeByRank (hash : List ℕ → ℕ) (zsl : ZSkipList)
    (start endRank : ℕ) (d : Dict NNDouble) :
    ZSkipList × Dict NNDouble × ℕ :=
  let p := walkDescent zsl.nodes (fun q => decide (q < start)) zsl.level 0
  zslDeleteWhileCount hash endRank p zsl.nodes.length (p + 1) zsl d 0

/-! ### Zset ziplist form and encoding promotion (t_zset.c) -/

/-- Logical content of a zset ziplist: (element, score) pairs in ascending
(score, lex) order. -/
abbrev ZZList := List (List ℕ × NNDouble)

/-- `zzlLength`: `ziplistLen(zl) / 2`. -/
def zzlLength (zl : ZZList) : ℕ := zl.length

/-- `zzlFind` (t_zset.c): linear scan by element bytes. -/
def zzlFind (zl : ZZList) (ele : List ℕ) : Option NNDouble :=
  (zl.find? (fun pr => pr.1 == ele)).map (·.2)

/-- `zzlInsert` (t_zset.c): walk forward; insert before the first entry
with a larger score, or with an equal score and lexicographically larger
element (`zzlCompareElements(eptr, ele) > 0`); append at the tail
otherwise.  Assumes the element is not yet present. -/
def zzlInsert (zl : ZZList) (ele : List ℕ) (score : NNDouble) : ZZList :=
  match zl with
  | [] => [(ele, score)]
  | (e, s) :: rest =>
    if score.slt s then (ele, score) :: (e, s) :: rest
    else if s = score ∧ 0 < compareBytes e ele then (ele, score) :: (e, s) :: rest
    else (e, s) :: zzlInsert rest ele score

/-- `REDIS_ENCODING_ZIPLIST` / `REDIS_ENCODING_SKIPLIST`: the value of a
sorted-set object in either representation. -/
inductive ZObj where
  | packed : ZZList → ZObj
  | skiplist : ZSetL → ZObj

/-- The encoding discriminator of a `ZObj`. -/
def ZObj.isSkiplist : ZObj → Bool
  | .packed _ => false
  | .skiplist _ => true

/-- The (element, score) pairs of either representation. -/
def ZObj.pairs : ZObj → List (List ℕ × NNDouble)
  | .packed zl => zl
  | .skiplist zs => zslPairs zs.zsl

/-- The ziplist→skiplist direction of `zsetConvert` (t_zset.c): create an
empty zset and, walking the packed pairs front to back, `zslInsert` each
element and `dictAdd` it with a pointer to the node's score (the C code
asserts the `dictAdd` succeeds).  `draws` supplies one random stream per
`zslInsert`. -/
def zsetConvertLoop (hash : List ℕ → ℕ) (canResize : Bool) :
    ZZList → List (List ℕ) → ZSetL → ZSetL
  | [], _, zs => zs
  | (e, s) :: rest, draws, zs =>
    let zsl1 := zslInsert zs.zsl s e (draws.headD [])
    let d1 := (dictAdd hash canResize zs.dict e s).1
    zsetConvertLoop hash canResize rest draws.tail ⟨zsl1, d1⟩

/-- `zsetConvert` to `REDIS_ENCODING_SKIPLIST` from a packed zset. -/
def zsetConvert (hash : List ℕ → ℕ) (canResize : Bool) (pairs : ZZList)
    (draws : List (List ℕ)) : ZSetL :=
  zsetConvertLoop hash canResize pairs draws ⟨zslEmpty, dictCreate NNDouble⟩

/-- The ZADD ziplist branch for an element that is not yet present
(t_zset.c, `zaddGenericCommand`): `zzlInsert`, then promote to the
skiplist encoding when the entry count exceeds
`server.zset_max_ziplist_entries` or the new element's byte length exceeds
`server.zset_max_ziplist_value` (two successive `if`s in the C code; the
second `zsetConvert` call is a no-op when the first already converted). -/
def zaddZiplistNew (hash : List ℕ → ℕ) (canResize : Bool)
    (maxEntries maxValue : ℕ) (zl : ZZList) (ele : List ℕ)
    (score : NNDouble) (draws : List (List ℕ)) : ZObj :=
  let zl1 := zzlInsert zl ele score
  if maxEntries < zzlLength zl1 then ZObj.skiplist (zsetConvert hash canResize zl1 draws)
  else if maxValue < ele.length then ZObj.skiplist (zsetConvert hash canResize zl1 draws)
  else ZObj.packed zl1

/-- Well-formedness of a zset skip list, as established by the t_zset.c
operations: the level is at least 1 (`zslCreate`), every node has at least
one level (`zslRandomLevel` ≥ 1), the level-0 chain is strictly sorted by
(score, lexicographic element) — callers of `zslInsert` guarantee a
(score, element) pair is never inserted twice — and, because the large
zset form keys its dictionary by element, elements are pairwise
distinct. -/
structure ZslWF (zsl : ZSkipList) : Prop where
  level_ge : 1 ≤ zsl.level
  heights : ∀ nd ∈ zsl.nodes, 1 ≤ nd.height
  sorted : zsl.nodes.Pairwise (fun a b => zslKeyLt a.score a.obj b.score b.obj = true)
  distinct : (zsl.nodes.map (fun nd => nd.obj)).Nodup

/-- Boundary value `ZIP_BIGLEN = 254`: previous-entry lengths below it fit
in a 1-byte `prev_entry_length` field, all others need the 5-byte form
(a `0xFE` marker byte followed by a 4-byte length). -/
def ZIP_BIGLEN : ℕ := 254

/-- `ZIPLIST_HEADER_SIZE`: two 4-byte fields (`zlbytes`, `zltail`) plus the
2-byte `zllen` field. -/
def ZIPLIST_HEADER_SIZE : ℕ := 10

/-- One entry of a ziplist blob, in structured form: `pw` is the byte width
of the `prev_entry_length` field (1, or 5 for the `0xFE`-marker form), `pv`
is the previous-entry length value stored in that field, and `body` is the
rest of the entry's bytes — the encoding header produced by
`zipEncodeLength` followed by the payload written by `memcpy` or
`zipSaveInteger`. -/
structure ZlEntry where
  pw : ℕ
  pv : ℕ
  body : List ℕ
  deriving DecidableEq

/-- `zipRawEntryLength`: total byte length of an entry, prevlensize plus
lensize plus payload length (`body` holds the latter two parts). -/
def zlEntrySize (e : ZlEntry) : ℕ := e.pw + e.body.length

/-- Byte width `zipPrevEncodeLength(NULL, len)` reports: 1 when
`len < ZIP_BIGLEN`, else `sizeof(len)+1 = 5`. -/
def zipPrevEncodeLengthSize (len : ℕ) : ℕ := if len < ZIP_BIGLEN then 1 else 5

/-- `zipPrevLenByteDiff`: the width needed to encode `len` minus the width
`pw` the entry's `prev_entry_length` field currently occupies. -/
def zipPrevLenByteDiff (pw len : ℕ) : ℤ :=
  (zipPrevEncodeLengthSize len : ℤ) - (pw : ℤ)

/-- A ziplist blob in structured form: the stored `ZIPLIST_TAIL_OFFSET`
header field and the sequence of entries (`zlbytes` and `zllen` are
determined by the entries and need not be carried separately). -/
structure Ziplist where
  tailOff : ℕ
  entries : List ZlEntry
  deriving DecidableEq

/-- Byte offset of entry `i` inside the blob: the 10-byte header followed
by the sizes of the preceding `i` entries. -/
def zlOffset (es : List ZlEntry) (i : ℕ) : ℕ :=
  ZIPLIST_HEADER_SIZE + ((es.take i).map zlEntrySize).sum

/-- `ziplistNew`: an empty list; the stored tail offset points at the
terminator byte right after the header
(`ZIPLIST_TAIL_OFFSET(zl) = ZIPLIST_HEADER_SIZE`). -/
def ziplistNew : Ziplist := ⟨ZIPLIST_HEADER_SIZE, []⟩

/-- Loop of `__ziplistCascadeUpdate` with explicit fuel; `k` is the index
of the entry the cursor `p` points at. Each iteration re-reads the current
entry and its raw length, aborts at the terminator, when there is no next
entry, or when the next entry's stored `prevrawlen` already equals the
current raw length. When the next entry's field is too narrow it is grown
to `rawlensize` bytes (the tail offset absorbs the extra bytes unless the
next entry is the tail, compared by offset as `(zl+tailOff) != np`), and
the cursor advances to the next entry. Otherwise the stored value is
rewritten in place — by `zipPrevEncodeLengthForceLarge` when the field is
wider than needed, which keeps the 5-byte form — and the loop stops. -/
def ziplistCascadeUpdateLoop : ℕ → Ziplist → ℕ → Ziplist
  | 0, z, _ => z
  | fuel + 1, z, k =>
    match z.entries.get? k with
    | none => z
    | some cur =>
      let rawlen := zlEntrySize cur
      let rawlensize := zipPrevEncodeLengthSize rawlen
      match z.entries.get? (k + 1) with
      | none => z
      | some next =>
        if next.pv = rawlen then z
        else if next.pw < rawlensize then
          let extra := rawlensize - next.pw
          let tailOff' := if z.tailOff = zlOffset z.entries (k + 1) then z.tailOff
            else z.tailOff + extra
          ziplistCascadeUpdateLoop fuel
            ⟨tailOff', z.entries.set (k + 1) ⟨rawlensize, rawlen, next.body⟩⟩ (k + 1)
        else if rawlensize < next.pw then
          ⟨z.tailOff, z.entries.set (k + 1) ⟨next.pw, rawlen, next.body⟩⟩
        else
          ⟨z.tailOff, z.entries.set (k + 1) ⟨rawlensize, rawlen, next.body⟩⟩

/-- `__ziplistCascadeUpdate(zl, p)` with `p` at entry index `k`; the loop
moves forward one entry per iteration, so the entry count bounds the
number of iterations. -/
def __ziplistCascadeUpdate (z : Ziplist) (k : ℕ) : Ziplist :=
  ziplistCascadeUpdateLoop z.entries.length z k

/-- `__ziplistDelete(zl, p, num)`: delete up to `num` entries starting at
index `k`. When an entry survives past the deleted range, its
`prev_entry_length` field is re-encoded (`p -= nextdiff;
zipPrevEncodeLength(p, first.prevrawlen)`) at the width needed for the
first deleted entry's stored `prevrawlen`; the tail offset drops by the
deleted byte count and additionally absorbs `nextdiff` when the survivor
is not the tail; when the survivor's size changed (`nextdiff != 0`) a
cascade update runs from the survivor. When the whole tail is deleted the
tail offset is recomputed as `(first.p - zl) - first.prevrawlen`. -/
def __ziplistDelete (z : Ziplist) (k num : ℕ) : Ziplist :=
  let deleted := min num (z.entries.length - k)
  let totlen := (((z.entries.drop k).take deleted).map zlEntrySize).sum
  if totlen = 0 then z
  else
    let firstPrev := match z.entries.get? k with
      | some e => e.pv
      | none => 0
    match z.entries.get? (k + deleted) with
    | some survivor =>
      let newpw := zipPrevEncodeLengthSize firstPrev
      let nextdiff := zipPrevLenByteDiff survivor.pw firstPrev
      let entries' := z.entries.take k ++
        ⟨newpw, firstPrev, survivor.body⟩ :: z.entries.drop (k + deleted + 1)
      let tailOff1 : ℤ := (z.tailOff : ℤ) - (totlen : ℤ)
      let tailOff2 : ℤ := if k + deleted = z.entries.length - 1 then tailOff1
        else tailOff1 + nextdiff
      let z1 : Ziplist := ⟨tailOff2.toNat, entries'⟩
      if nextdiff = 0 then z1 else __ziplistCascadeUpdate z1 k
    | none =>
      ⟨zlOffset z.entries k - firstPrev, z.entries.take k⟩

/-- `__ziplistInsert(zl, p, s, slen)`: insert one entry before index `k`
(a `k` past the last entry means the cursor is at the terminator, i.e.
insertion at the tail). `body` is the new entry's bytes after its prevlen
field: the encoding header computed by `zipEncodeLength` followed by the
payload (the string bytes, or the integer bytes written by
`zipSaveInteger` when `zipTryEncoding` succeeds), so `reqlen` is the
prevlen width plus `body.length`. The prevlen value is read from the
cursor entry's stored field, or taken as the tail entry's raw length when
appending. When inserting before an existing entry, that entry's prevlen
field is re-encoded for `reqlen` at width
`zipPrevEncodeLength(NULL, reqlen)`, the tail offset grows by `reqlen`
(plus `nextdiff` when the cursor entry is not the tail), and when the
cursor entry's size changed (`nextdiff != 0`) a cascade update runs from
it. -/
def __ziplistInsert (z : Ziplist) (k : ℕ) (body : List ℕ) : Ziplist :=
  match z.entries.get? k with
  | some next =>
    let prevlen := next.pv
    let pw := zipPrevEncodeLengthSize prevlen
    let reqlen := pw + body.length
    let npw := zipPrevEncodeLengthSize reqlen
    let nextdiff := zipPrevLenByteDiff next.pw reqlen
    let entries' := z.entries.take k ++ ⟨pw, prevlen, body⟩ ::
      ⟨npw, reqlen, next.body⟩ :: z.entries.drop (k + 1)
    let tailOff' : ℤ := if k = z.entries.length - 1 then (z.tailOff : ℤ) + reqlen
      else (z.tailOff : ℤ) + reqlen + nextdiff
    let z1 : Ziplist := ⟨tailOff'.toNat, entries'⟩
    if nextdiff = 0 then z1 else __ziplistCascadeUpdate z1 (k + 1)
  | none =>
    let prevlen := match z.entries.getLast? with
      | some e => zlEntrySize e
      | none => 0
    let pw := zipPrevEncodeLengthSize prevlen
    ⟨zlOffset z.entries z.entries.length, z.entries ++ [⟨pw, prevlen, body⟩]⟩

/-- `ziplistPush`: insert at the head entry's position (index 0) or at the
terminator (`ZIPLIST_ENTRY_END`). -/
def ziplistPush (z : Ziplist) (body : List ℕ) (atHead : Bool) : Ziplist :=
  if atHead then __ziplistInsert z 0 body
  else __ziplistInsert z z.entries.length body

/-- `ziplistDelete`: delete the single entry at index `k`
(`__ziplistDelete(zl, *p, 1)`). -/
def ziplistDelete (z : Ziplist) (k : ℕ) : Ziplist := __ziplistDelete z k 1

/-- `ziplistDeleteRange`: resolve the index with `ziplistIndex` (which
yields NULL past the end, making the call a no-op) and delete `num`
entries from there. -/
def ziplistDeleteRange (z : Ziplist) (index num : ℕ) : Ziplist :=
  if index < z.entries.length then __ziplistDelete z index num else z

/-- Target value of the `ZIPLIST_TAIL_OFFSET` header field: the offset of
the first byte of the last entry, or of the terminator (which sits right
after the 10-byte header) when the list is empty. -/
def zlTailTarget (es : List ZlEntry) : ℕ :=
  if es.isEmpty then ZIPLIST_HEADER_SIZE else zlOffset es (es.length - 1)

/-- Well-formedness of a structured ziplist: the first entry stores
prevrawlen 0; every later entry stores exactly its predecessor's total
byte length; every `prev_entry_length` field is either the 1-byte form
(only for values below `ZIP_BIGLEN`) or the 5-byte form (for any value —
`zipPrevEncodeLengthForceLarge` deliberately keeps small values at width
5); and the stored tail offset is the offset of the last entry, or of the
terminator when the list is empty. -/
structure ZiplistWF (z : Ziplist) : Prop where
  prev0 : ∀ e, z.entries.get? 0 = some e → e.pv = 0
  prevSucc : ∀ i e1 e2, z.entries.get? i = some e1 →
    z.entries.get? (i + 1) = some e2 → e2.pv = zlEntrySize e1
  widths : ∀ e ∈ z.entries, (e.pw = 1 ∧ e.pv < ZIP_BIGLEN) ∨ e.pw = 5
  tailOk : z.tailOff = zlTailTarget z.entries

/-! ## Theorems -/

theorem fromLEBytes_map_range (w : ℕ) :
    ∀ m : ℕ, m < 2 ^ (8 * w) →
      fromLEBytes ((List.range w).map (fun k => m / 2 ^ (8 * k) % 256)) = m := by
  induction w with
  | zero => intro m hm; simpa [fromLEBytes] using (Nat.lt_one_iff.mp (by simpa using hm)).symm
  | succ w ih =>
    intro m hm
    rw [List.range_succ_eq_map, List.map_cons, List.map_map]
    have hcomp : ((fun k => m / 2 ^ (8 * k) % 256) ∘ Nat.succ)
        = fun k => (m / 256) / 2 ^ (8 * k) % 256 := by
      funext k
      have h8 : 8 * Nat.succ k = 8 + 8 * k := by omega
      simp only [Function.comp, h8, pow_add]
      rw [Nat.div_div_eq_div_mul]
      norm_num
    rw [hcomp]
    have hm' : m / 256 < 2 ^ (8 * w) := by
      have : m < 256 * 2 ^ (8 * w) := by
        have : 8 * (w + 1) = 8 + 8 * w := by ring
        calc m < 2 ^ (8 * (w + 1)) := hm
        _ = 256 * 2 ^ (8 * w) := by rw [this, pow_add]; norm_num
      omega
    have := ih (m / 256) hm'
    simp only [fromLEBytes, List.foldr_cons] at *
    rw [this]
    simp [pow_zero]
    omega

theorem fromLEBytes_toLEBytes (w : ℕ) (v : ℤ) :
    fromLEBytes (toLEBytes w v) = (v % 2 ^ (8 * w)).toNat := by
  have hpos : (0 : ℤ) < 2 ^ (8 * w) := by positivity
  have hlt : (v % 2 ^ (8 * w)).toNat < 2 ^ (8 * w) := by
    have h1 : v % 2 ^ (8 * w) < 2 ^ (8 * w) := Int.emod_lt_of_pos v hpos
    have h2 : (0 : ℤ) ≤ v % 2 ^ (8 * w) := Int.emod_nonneg v (ne_of_gt hpos)
    have h4 : ((2 ^ (8 * w) : ℕ) : ℤ) = 2 ^ (8 * w) := by push_cast; ring
    omega
  simpa [toLEBytes] using fromLEBytes_map_range w (v % 2 ^ (8 * w)).toNat hlt

theorem asSigned_emod_toNat (w : ℕ) (v : ℤ) (hw : 1 ≤ w)
    (h1 : -(2 ^ (8 * w - 1)) ≤ v) (h2 : v < 2 ^ (8 * w - 1)) :
    asSigned w ((v % 2 ^ (8 * w)).toNat) = v := by
  have hsplit : (2 : ℤ) ^ (8 * w) = 2 * 2 ^ (8 * w - 1) := by
    have h : 8 * w = (8 * w - 1) + 1 := by omega
    calc (2 : ℤ) ^ (8 * w) = 2 ^ ((8 * w - 1) + 1) := by rw [← h]
    _ = 2 * 2 ^ (8 * w - 1) := by rw [pow_succ]; ring
  have hcast : ((2 ^ (8 * w - 1) : ℕ) : ℤ) = 2 ^ (8 * w - 1) := by push_cast; ring
  have hcast2 : ((2 ^ (8 * w) : ℕ) : ℤ) = 2 ^ (8 * w) := by push_cast; ring
  have hfull : (0 : ℤ) < 2 ^ (8 * w - 1) := by positivity
  rcases le_or_lt 0 v with hv | hv
  · have hrep : v % 2 ^ (8 * w) = v := Int.emod_eq_of_lt hv (by linarith)
    rw [hrep]
    simp only [asSigned]
    split_ifs with h
    · omega
    · exfalso; omega
  · have he : (v + 2 ^ (8 * w)) % 2 ^ (8 * w) = v % 2 ^ (8 * w) := by
      simpa using Int.add_mul_emod_self_left (a := v) (b := 2 ^ (8 * w)) (c := 1)
    have hrep : v % 2 ^ (8 * w) = v + 2 ^ (8 * w) := by
      rw [← he]
      exact Int.emod_eq_of_lt (by linarith) (by linarith)
    rw [hrep]
    simp only [asSigned]
    split_ifs with h
    · exfalso; omega
    · omega

theorem zipSave24_eq_toLEBytes3 (v : ℤ) :
    zipSaveInteger v ZIP_INT_24B = toLEBytes 3 v := by
  have hmul : v * 2 ^ 8 % 2 ^ 32 = 2 ^ 8 * (v % 2 ^ 24) := by
    have h1 : v * 2 ^ 8 = 2 ^ 8 * v := by ring
    have h2 : (2 : ℤ) ^ 32 = 2 ^ 8 * 2 ^ 24 := by norm_num
    rw [h1, h2, Int.mul_emod_mul_of_pos _ _ (by norm_num : (0:ℤ) < 2 ^ 8)]
  have hnn : (0 : ℤ) ≤ v % 2 ^ 24 := Int.emod_nonneg v (by norm_num)
  have hM : (v * 2 ^ 8 % 2 ^ 32).toNat = 256 * (v % 2 ^ 24).toNat := by
    omega
  have hb : zipSaveInteger v ZIP_INT_24B = (toLEBytes 4 (v * 2 ^ 8)).drop 1 := by
    simp [zipSaveInteger, ZIP_INT_24B, ZIP_INT_8B, ZIP_INT_16B]
  rw [hb]
  simp only [toLEBytes, List.range_succ, List.range_zero, List.map_append, List.map_cons,
    List.map_nil, List.nil_append, List.cons_append]
  simp only [hM]
  norm_num [Nat.div_div_eq_div_mul]
  constructor <;> omega

theorem toLEBytes_length (w : ℕ) (v : ℤ) : (toLEBytes w v).length = w := by
  simp [toLEBytes]

theorem zipLoad_toLE (w : ℕ) (v : ℤ) (hw : 1 ≤ w)
    (h1 : -(2 ^ (8 * w - 1)) ≤ v) (h2 : v < 2 ^ (8 * w - 1)) :
    asSigned w (fromLEBytes ((toLEBytes w v).take w)) = v := by
  have htake : (toLEBytes w v).take w = toLEBytes w v :=
    List.take_of_length_le (by rw [toLEBytes_length])
  rw [htake, fromLEBytes_toLEBytes]
  exact asSigned_emod_toNat w v hw h1 h2


theorem zipSaveInteger_16B (v : ℤ) : zipSaveInteger v ZIP_INT_16B = toLEBytes 2 v := rfl

theorem zipSaveInteger_32B (v : ℤ) : zipSaveInteger v ZIP_INT_32B = toLEBytes 4 v := rfl

theorem zipSaveInteger_64B (v : ℤ) : zipSaveInteger v ZIP_INT_64B = toLEBytes 8 v := rfl

theorem zipLoadInteger_16B (p : List ℕ) :
    zipLoadInteger p ZIP_INT_16B = asSigned 2 (fromLEBytes (p.take 2)) := rfl

theorem zipLoadInteger_32B (p : List ℕ) :
    zipLoadInteger p ZIP_INT_32B = asSigned 4 (fromLEBytes (p.take 4)) := rfl

theorem zipLoadInteger_64B (p : List ℕ) :
    zipLoadInteger p ZIP_INT_64B = asSigned 8 (fromLEBytes (p.take 8)) := rfl

theorem zipLoadInteger_24B (p : List ℕ) :
    zipLoadInteger p ZIP_INT_24B = asSigned 4 (fromLEBytes (0 :: p.take 3)) / 2 ^ 8 := rfl

theorem C8_packed_entry_byte_order :
    (∀ rawlen : ℕ, 16384 ≤ rawlen → rawlen < 2 ^ 32 →
        (zipEncodeLength 0 rawlen).length = 5 ∧
        (zipEncodeLength 0 rawlen).headI = ZIP_STR_32B ∧
        fromBEBytes ((zipEncodeLength 0 rawlen).tail) = rawlen) ∧
    (∀ v : ℤ,
        (-(2 ^ 15) ≤ v → v < 2 ^ 15 →
          zipSaveInteger v ZIP_INT_16B = toLEBytes 2 v ∧
          zipLoadInteger (zipSaveInteger v ZIP_INT_16B) ZIP_INT_16B = v) ∧
        (-(2 ^ 31) ≤ v → v < 2 ^ 31 →
          zipSaveInteger v ZIP_INT_32B = toLEBytes 4 v ∧
          zipLoadInteger (zipSaveInteger v ZIP_INT_32B) ZIP_INT_32B = v) ∧
        (-(2 ^ 63) ≤ v → v < 2 ^ 63 →
          zipSaveInteger v ZIP_INT_64B = toLEBytes 8 v ∧
          zipLoadInteger (zipSaveInteger v ZIP_INT_64B) ZIP_INT_64B = v) ∧
        (INT24_MIN ≤ v → v ≤ INT24_MAX →
          zipSaveInteger v ZIP_INT_24B = toLEBytes 3 v ∧
          zipLoadInteger (zipSaveInteger v ZIP_INT_24B) ZIP_INT_24B = v)) := by
  constructor
  · intro rawlen hlo hhi
    have hstr : ZIP_IS_STR 0 = true := by decide
    have h1 : ¬ rawlen ≤ 0x3f := by omega
    have h2 : ¬ rawlen ≤ 0x3fff := by omega
    simp only [zipEncodeLength, hstr, if_true, h1, h2, if_false]
    refine ⟨rfl, rfl, ?_⟩
    simp only [fromBEBytes, List.tail_cons, List.foldl_cons, List.foldl_nil]
    omega
  · intro v
    refine ⟨?_, ?_, ?_, ?_⟩
    · intro h1 h2
      refine ⟨zipSaveInteger_16B v, ?_⟩
      rw [zipSaveInteger_16B, zipLoadInteger_16B]
      exact zipLoad_toLE 2 v (by norm_num)
        (by norm_num at h1 ⊢; omega) (by norm_num at h2 ⊢; omega)
    · intro h1 h2
      refine ⟨zipSaveInteger_32B v, ?_⟩
      rw [zipSaveInteger_32B, zipLoadInteger_32B]
      exact zipLoad_toLE 4 v (by norm_num)
        (by norm_num at h1 ⊢; omega) (by norm_num at h2 ⊢; omega)
    · intro h1 h2
      refine ⟨zipSaveInteger_64B v, ?_⟩
      rw [zipSaveInteger_64B, zipLoadInteger_64B]
      exact zipLoad_toLE 8 v (by norm_num)
        (by norm_num at h1 ⊢; omega) (by norm_num at h2 ⊢; omega)
    · intro h1 h2
      have hsave := zipSave24_eq_toLEBytes3 v
      refine ⟨hsave, ?_⟩
      rw [hsave, zipLoadInteger_24B]
      have htake : (toLEBytes 3 v).take 3 = toLEBytes 3 v :=
        List.take_of_length_le (by rw [toLEBytes_length])
      rw [htake]
      have hfrom : fromLEBytes (0 :: toLEBytes 3 v) = 256 * (v % 2 ^ 24).toNat := by
        have hc : fromLEBytes (0 :: toLEBytes 3 v) = 256 * fromLEBytes (toLEBytes 3 v) := by
          simp [fromLEBytes]
        rw [hc, fromLEBytes_toLEBytes]
      rw [hfrom]
      have hN : (v % 2 ^ 24).toNat < 2 ^ 24 := by
        have ha : v % 2 ^ 24 < 2 ^ 24 := Int.emod_lt_of_pos v (by norm_num)
        have hb : (0:ℤ) ≤ v % 2 ^ 24 := Int.emod_nonneg v (by norm_num)
        omega
      have hscale : asSigned 4 (256 * (v % 2 ^ 24).toNat)
          = 256 * asSigned 3 ((v % 2 ^ 24).toNat) := by
        simp only [asSigned]
        norm_num
        split_ifs <;> omega
      rw [hscale]
      have hsm : asSigned 3 ((v % 2 ^ 24).toNat) = v := by
        refine asSigned_emod_toNat 3 v (by norm_num) ?_ ?_
        · simp only [INT24_MIN] at h1; norm_num at h1 ⊢; omega
        · simp only [INT24_MAX] at h2; norm_num at h2 ⊢; omega
      rw [hsm]
      norm_num [Int.mul_ediv_cancel_left v (by norm_num : (256:ℤ) ≠ 0)]

/-- C9: for the `sum` aggregate of `zunionInterAggregate` (used by
ZUNIONSTORE / ZINTERSTORE), with non-NaN operands the sum is NaN exactly
when one operand is `+inf` and the other `-inf`, and in that case the
stored result is `0.0` instead of NaN; a non-NaN sum is stored as is. -/
theorem C9_sum_aggregate_nan_is_zero (t v : DDouble)
    (ht : t.isnan = false) (hv : v.isnan = false) :
    ((t.add v).isnan = true ↔
      (t = DDouble.posInf ∧ v = DDouble.negInf) ∨
      (t = DDouble.negInf ∧ v = DDouble.posInf)) ∧
    ((t.add v).isnan = true →
      zunionInterAggregate t v REDIS_AGGR_SUM = DDouble.fin 0) ∧
    ((t.add v).isnan = false →
      zunionInterAggregate t v REDIS_AGGR_SUM = t.add v) := by
  refine ⟨?_, ?_, ?_⟩
  · cases t <;> cases v <;> simp_all [DDouble.add, DDouble.isnan]
  · intro h; simp [zunionInterAggregate, REDIS_AGGR_SUM, h]
  · intro h; simp [zunionInterAggregate, REDIS_AGGR_SUM, h]

theorem C9_sum_aggregate_nan_is_zero_witness :
    DDouble.posInf.isnan = false ∧
    (DDouble.posInf.add DDouble.negInf).isnan = true ∧
    zunionInterAggregate DDouble.posInf DDouble.negInf REDIS_AGGR_SUM = DDouble.fin 0 :=
  ⟨by decide, by decide,
    (C9_sum_aggregate_nan_is_zero DDouble.posInf DDouble.negInf
      (by decide) (by decide)).2.1 (by decide)⟩

theorem C8_packed_entry_byte_order_witness :
    (16384 ≤ 70000 ∧ (70000 : ℕ) < 2 ^ 32 ∧
      fromBEBytes ((zipEncodeLength 0 70000).tail) = 70000) ∧
    (INT24_MIN ≤ (-8388608 : ℤ) ∧ (-8388608 : ℤ) ≤ INT24_MAX ∧
      zipLoadInteger (zipSaveInteger (-8388608) ZIP_INT_24B) ZIP_INT_24B = -8388608) := by
  refine ⟨⟨by norm_num, by norm_num,
      (C8_packed_entry_byte_order.1 70000 (by norm_num) (by norm_num)).2.2⟩,
    ⟨by norm_num [INT24_MIN], by norm_num [INT24_MAX],
      ((C8_packed_entry_byte_order.2 (-8388608)).2.2.2
        (by norm_num [INT24_MIN]) (by norm_num [INT24_MAX])).2⟩⟩

theorem compareBytes_refl (a : List ℕ) : compareBytes a a = 0 := by
  induction a with
  | nil => rfl
  | cons x xs ih => simp [compareBytes, ih]

theorem compareBytes_eq_zero_iff (a b : List ℕ) : compareBytes a b = 0 ↔ a = b := by
  induction a generalizing b with
  | nil => cases b <;> simp [compareBytes]; omega
  | cons x xs ih =>
    cases b with
    | nil => simp [compareBytes]; omega
    | cons y ys =>
      by_cases hxy : x = y
      · subst hxy; simp [compareBytes, ih]
      · simp [compareBytes, hxy]
        intro h
        omega

theorem compareBytes_neg (a b : List ℕ) : compareBytes b a = -compareBytes a b := by
  induction a generalizing b with
  | nil => cases b <;> simp [compareBytes]
  | cons x xs ih =>
    cases b with
    | nil => simp [compareBytes]
    | cons y ys =>
      by_cases hxy : x = y
      · subst hxy; simp [compareBytes, ih]
      · have hyx : ¬ y = x := fun h => hxy h.symm
        simp only [compareBytes, if_neg hxy, if_neg hyx]
        ring

theorem compareBytes_lt_trans {a b c : List ℕ} (h1 : compareBytes a b < 0)
    (h2 : compareBytes b c < 0) : compareBytes a c < 0 := by
  induction a generalizing b c with
  | nil =>
    cases b with
    | nil => simpa using h2
    | cons y ys =>
      cases c with
      | nil => simp [compareBytes] at h2; omega
      | cons z zs => simp [compareBytes]; omega
  | cons x xs ih =>
    cases b with
    | nil => simp [compareBytes] at h1; omega
    | cons y ys =>
      cases c with
      | nil => simp [compareBytes] at h2; omega
      | cons z zs =>
        by_cases hxy : x = y
        · subst hxy
          by_cases hyz : x = z
          · subst hyz
            simp [compareBytes] at h1 h2 ⊢
            exact ih h1 h2
          · simp [compareBytes, hyz] at h2 ⊢
            simpa [compareBytes] using h2
        · by_cases hyz : y = z
          · subst hyz
            simp [compareBytes, hxy] at h1 ⊢
            exact h1
          · simp [compareBytes, hxy] at h1
            simp [compareBytes, hyz] at h2
            by_cases hxz : x = z
            · omega
            · simp [compareBytes, hxz]
              omega

theorem compareBytes_lt_le_trans {a b c : List ℕ} (h1 : compareBytes a b < 0)
    (h2 : compareBytes b c ≤ 0) : compareBytes a c < 0 := by
  rcases lt_or_eq_of_le h2 with h2' | h2'
  · exact compareBytes_lt_trans h1 h2'
  · rw [(compareBytes_eq_zero_iff b c).mp h2'] at h1
    exact h1

theorem compareBytes_le_lt_trans {a b c : List ℕ} (h1 : compareBytes a b ≤ 0)
    (h2 : compareBytes b c < 0) : compareBytes a c < 0 := by
  rcases lt_or_eq_of_le h1 with h1' | h1'
  · exact compareBytes_lt_trans h1' h2
  · rw [← (compareBytes_eq_zero_iff a b).mp h1'] at h2
    exact h2

theorem NNDouble.slt_irrefl (a : NNDouble) : a.slt a = false := by
  cases a <;> simp [NNDouble.slt]

theorem NNDouble.slt_trans {a b c : NNDouble} (h1 : a.slt b = true)
    (h2 : b.slt c = true) : a.slt c = true := by
  cases a <;> cases b <;> cases c <;> simp_all [NNDouble.slt] <;> linarith

theorem NNDouble.slt_asymm {a b : NNDouble} (h : a.slt b = true) :
    b.slt a = false := by
  cases a <;> cases b <;> simp_all [NNDouble.slt] <;> linarith

theorem NNDouble.trichotomy {a b : NNDouble} (h1 : a.slt b = false)
    (h2 : b.slt a = false) : a = b := by
  cases a <;> cases b <;> simp_all [NNDouble.slt]
  linarith

theorem zslKeyLt_trans {s1 s2 s3 : NNDouble} {o1 o2 o3 : List ℕ}
    (h1 : zslKeyLt s1 o1 s2 o2 = true) (h2 : zslKeyLt s2 o2 s3 o3 = true) :
    zslKeyLt s1 o1 s3 o3 = true := by
  simp only [zslKeyLt, Bool.or_eq_true, Bool.and_eq_true, beq_iff_eq,
    decide_eq_true_eq] at h1 h2 ⊢
  rcases h1 with h1 | ⟨h1e, h1c⟩
  · rcases h2 with h2 | ⟨h2e, h2c⟩
    · exact Or.inl (NNDouble.slt_trans h1 h2)
    · exact Or.inl (h2e ▸ h1)
  · rcases h2 with h2 | ⟨h2e, h2c⟩
    · exact Or.inl (h1e ▸ h2)
    · exact Or.inr ⟨h1e.trans h2e, compareBytes_lt_trans h1c h2c⟩

theorem zslKeyLt_le_trans {s1 s2 s3 : NNDouble} {o1 o2 o3 : List ℕ}
    (h1 : zslKeyLt s1 o1 s2 o2 = true) (h2 : zslKeyLe s2 o2 s3 o3 = true) :
    zslKeyLt s1 o1 s3 o3 = true := by
  simp only [zslKeyLt, zslKeyLe, Bool.or_eq_true, Bool.and_eq_true, beq_iff_eq,
    decide_eq_true_eq] at h1 h2 ⊢
  rcases h1 with h1 | ⟨h1e, h1c⟩
  · rcases h2 with h2 | ⟨h2e, h2c⟩
    · exact Or.inl (NNDouble.slt_trans h1 h2)
    · exact Or.inl (h2e ▸ h1)
  · rcases h2 with h2 | ⟨h2e, h2c⟩
    · exact Or.inl (h1e ▸ h2)
    · exact Or.inr ⟨h1e.trans h2e, compareBytes_lt_le_trans h1c h2c⟩

theorem zslKeyLe_lt_trans {s1 s2 s3 : NNDouble} {o1 o2 o3 : List ℕ}
    (h1 : zslKeyLe s1 o1 s2 o2 = true) (h2 : zslKeyLt s2 o2 s3 o3 = true) :
    zslKeyLt s1 o1 s3 o3 = true := by
  simp only [zslKeyLt, zslKeyLe, Bool.or_eq_true, Bool.and_eq_true, beq_iff_eq,
    decide_eq_true_eq] at h1 h2 ⊢
  rcases h1 with h1 | ⟨h1e, h1c⟩
  · rcases h2 with h2 | ⟨h2e, h2c⟩
    · exact Or.inl (NNDouble.slt_trans h1 h2)
    · exact Or.inl (h2e ▸ h1)
  · rcases h2 with h2 | ⟨h2e, h2c⟩
    · exact Or.inl (h1e ▸ h2)
    · exact Or.inr ⟨h1e.trans h2e, compareBytes_le_lt_trans h1c h2c⟩

theorem zslKeyLt_then_le {s1 s2 s : NNDouble} {o1 o2 o : List ℕ}
    (h1 : zslKeyLt s1 o1 s2 o2 = true) (h2 : zslKeyLe s2 o2 s o = true) :
    zslKeyLe s1 o1 s o = true := by
  simp only [zslKeyLt, zslKeyLe, Bool.or_eq_true, Bool.and_eq_true, beq_iff_eq,
    decide_eq_true_eq] at h1 h2 ⊢
  rcases h1 with h1 | ⟨h1e, h1c⟩
  · rcases h2 with h2 | ⟨h2e, h2c⟩
    · exact Or.inl (NNDouble.slt_trans h1 h2)
    · exact Or.inl (h2e ▸ h1)
  · rcases h2 with h2 | ⟨h2e, h2c⟩
    · exact Or.inl (h1e ▸ h2)
    · refine Or.inr ⟨h1e.trans h2e, le_of_lt (compareBytes_lt_le_trans h1c h2c)⟩

theorem zslKeyLe_iff_not_lt (s1 s2 : NNDouble) (o1 o2 : List ℕ) :
    zslKeyLe s1 o1 s2 o2 = ! zslKeyLt s2 o2 s1 o1 := by
  simp only [zslKeyLe, zslKeyLt]
  by_cases heq : s1 = s2
  · subst heq
    simp only [NNDouble.slt_irrefl, beq_self_eq_true, Bool.false_or, Bool.true_and]
    have hneg : compareBytes o2 o1 = -compareBytes o1 o2 := compareBytes_neg o1 o2
    rw [hneg]
    rcases le_or_lt (compareBytes o1 o2) 0 with hc | hc
    · have d1 : decide (compareBytes o1 o2 ≤ 0) = true := decide_eq_true hc
      have d2 : decide (-compareBytes o1 o2 < 0) = false := decide_eq_false (by omega)
      rw [d1, d2]; rfl
    · have d1 : decide (compareBytes o1 o2 ≤ 0) = false := decide_eq_false (by omega)
      have d2 : decide (-compareBytes o1 o2 < 0) = true := decide_eq_true (by omega)
      rw [d1, d2]; rfl
  · have hne2 : ¬ s2 = s1 := fun h => heq h.symm
    have hb1 : (s1 == s2) = false := by simp [heq]
    have hb2 : (s2 == s1) = false := by simp [hne2]
    rw [hb1, hb2]
    by_cases h1 : s1.slt s2 = true
    · rw [h1, NNDouble.slt_asymm h1]
      rfl
    · have h2 : s2.slt s1 = true := by
        by_contra hc
        simp only [Bool.not_eq_true] at hc h1
        exact heq (NNDouble.trichotomy h1 hc)
      rw [h2, Bool.not_eq_true] at *
      rw [h1]
      rfl

theorem heightAt_eq {ns : List ZslNode} {q : ℕ} {nd : ZslNode}
    (h : ns.get? (q - 1) = some nd) : heightAt ns q = nd.height := by
  rw [List.get?_eq_getElem?] at h
  simp [heightAt, h]

theorem scanFwd_some {ns : List ZslNode} {i q cnt r : ℕ}
    (h : scanFwd ns i q cnt = some r) :
    q ≤ r ∧ r < q + cnt ∧ i < heightAt ns r ∧
      ∀ t, q ≤ t → t < r → ¬ i < heightAt ns t := by
  induction cnt generalizing q with
  | zero => simp [scanFwd] at h
  | succ cnt ih =>
    simp only [scanFwd] at h
    split_ifs at h with hh
    · cases h
      exact ⟨le_refl _, by omega, hh, fun t ht1 ht2 => by omega⟩
    · obtain ⟨h1, h2, h3, h4⟩ := ih h
      refine ⟨by omega, by omega, h3, ?_⟩
      intro t ht1 ht2
      rcases Nat.eq_or_lt_of_le ht1 with he | hl
      · exact he ▸ hh
      · exact h4 t hl ht2

theorem scanFwd_none {ns : List ZslNode} {i q cnt : ℕ}
    (h : scanFwd ns i q cnt = none) :
    ∀ t, q ≤ t → t < q + cnt → ¬ i < heightAt ns t := by
  induction cnt generalizing q with
  | zero => intro t h1 h2; omega
  | succ cnt ih =>
    intro t ht1 ht2
    by_cases hh : i < heightAt ns q
    · rw [scanFwd, if_pos hh] at h
      exact absurd h (by simp)
    · rw [scanFwd, if_neg hh] at h
      rcases Nat.eq_or_lt_of_le ht1 with he | hl
      · exact he ▸ hh
      · exact ih h t hl (by omega)

theorem fwdPos_some {ns : List ZslNode} {i p q : ℕ}
    (h : fwdPos ns i p = some q) :
    p < q ∧ q ≤ ns.length ∧ i < heightAt ns q ∧
      ∀ t, p < t → t < q → ¬ i < heightAt ns t := by
  obtain ⟨h1, h2, h3, h4⟩ := scanFwd_some h
  have hq : q ≤ ns.length := by
    by_cases hp : p ≤ ns.length
    · omega
    · exfalso
      have : ns.length - p = 0 := by omega
      rw [fwdPos, this] at h
      simp [scanFwd] at h
  exact ⟨by omega, hq, h3, fun t ht1 ht2 => h4 t (by omega) ht2⟩

theorem fwdPos_none {ns : List ZslNode} {i p : ℕ} (h : fwdPos ns i p = none) :
    ∀ t, p < t → t ≤ ns.length → ¬ i < heightAt ns t := by
  intro t ht1 ht2
  exact scanFwd_none h t (by omega) (by omega)

theorem walkLevel_ge (ns : List ZslNode) (pred : ℕ → Bool) (i p fuel : ℕ) :
    p ≤ walkLevel ns pred i p fuel := by
  induction fuel generalizing p with
  | zero => simp [walkLevel]
  | succ fuel ih =>
    simp only [walkLevel]
    cases hf : fwdPos ns i p with
    | none => exact le_refl _
    | some q =>
      dsimp only
      split_ifs with hp
      · exact le_trans (le_of_lt (fwdPos_some hf).1) (ih q)
      · exact le_refl _

theorem walkLevel_le {ns : List ZslNode} {pred : ℕ → Bool} {i p fuel : ℕ}
    (hp : p ≤ ns.length) : walkLevel ns pred i p fuel ≤ ns.length := by
  induction fuel generalizing p with
  | zero => simpa [walkLevel]
  | succ fuel ih =>
    simp only [walkLevel]
    cases hf : fwdPos ns i p with
    | none => exact hp
    | some q =>
      dsimp only
      split_ifs with hq
      · exact ih (fwdPos_some hf).2.1
      · exact hp

theorem walkLevel_land {ns : List ZslNode} {pred : ℕ → Bool} {i p fuel : ℕ} :
    walkLevel ns pred i p fuel = p ∨
      (p < walkLevel ns pred i p fuel ∧ walkLevel ns pred i p fuel ≤ ns.length ∧
        i < heightAt ns (walkLevel ns pred i p fuel) ∧
        pred (walkLevel ns pred i p fuel) = true) := by
  induction fuel generalizing p with
  | zero => left; simp [walkLevel]
  | succ fuel ih =>
    simp only [walkLevel]
    cases hf : fwdPos ns i p with
    | none => left; rfl
    | some q =>
      dsimp only
      split_ifs with hq
      · obtain ⟨h1, h2, h3, _⟩ := fwdPos_some hf
        rcases ih (p := q) with he | ⟨ha, hb, hc, hd⟩
        · right; rw [he]; exact ⟨h1, h2, h3, hq⟩
        · right; exact ⟨lt_trans h1 ha, hb, hc, hd⟩
      · left; rfl

theorem walkLevel_max {ns : List ZslNode} {pred : ℕ → Bool} {i p fuel : ℕ}
    (hdc : ∀ a b, 1 ≤ a → a ≤ b → b ≤ ns.length → pred b = true → pred a = true)
    (hfuel : ns.length - p ≤ fuel) :
    ∀ r, p < r → r ≤ ns.length → i < heightAt ns r → pred r = true →
      r ≤ walkLevel ns pred i p fuel := by
  induction fuel generalizing p with
  | zero =>
    intro r h1 h2 _ _
    omega
  | succ fuel ih =>
    intro r h1 h2 h3 h4
    simp only [walkLevel]
    cases hf : fwdPos ns i p with
    | none => exact absurd h3 (fwdPos_none hf r h1 h2)
    | some q =>
      obtain ⟨hq1, hq2, hq3, hq4⟩ := fwdPos_some hf
      dsimp only
      split_ifs with hq
      · rcases le_or_lt r q with hr | hr
        · exact le_trans hr (walkLevel_ge ns pred i q fuel)
        · exact ih (by omega) r hr h2 h3 h4
      · rcases le_or_lt r p with hr | hr
        · exact hr
        · exfalso
          have hrq : q ≤ r := by
            by_contra hc
            exact hq4 r hr (by omega) h3
          exact hq (hdc q r (by omega) hrq h2 h4)

theorem walkDescent_ge (ns : List ZslNode) (pred : ℕ → Bool) (lvl p : ℕ) :
    p ≤ walkDescent ns pred lvl p := by
  induction lvl generalizing p with
  | zero => simp [walkDescent]
  | succ lvl ih =>
    simp only [walkDescent]
    exact le_trans (walkLevel_ge ns pred lvl p ns.length) (ih _)

theorem walkDescent_le {ns : List ZslNode} {pred : ℕ → Bool} {lvl p : ℕ}
    (hp : p ≤ ns.length) : walkDescent ns pred lvl p ≤ ns.length := by
  induction lvl generalizing p with
  | zero => simpa [walkDescent]
  | succ lvl ih =>
    simp only [walkDescent]
    exact ih (walkLevel_le hp)

theorem walkDescent_inv {ns : List ZslNode} {pred : ℕ → Bool} {lvl p : ℕ}
    (hp : p = 0 ∨ pred p = true) :
    walkDescent ns pred lvl p = 0 ∨ pred (walkDescent ns pred lvl p) = true := by
  induction lvl generalizing p with
  | zero => simpa [walkDescent]
  | succ lvl ih =>
    simp only [walkDescent]
    refine ih ?_
    rcases @walkLevel_land ns pred lvl p ns.length with he | ⟨_, _, _, hd⟩
    · rw [he]; exact hp
    · exact Or.inr hd

theorem walkDescent_max {ns : List ZslNode} {pred : ℕ → Bool} {lvl p : ℕ}
    (hdc : ∀ a b, 1 ≤ a → a ≤ b → b ≤ ns.length → pred b = true → pred a = true)
    (hh : ∀ nd ∈ ns, 1 ≤ nd.height) (hlvl : 1 ≤ lvl) (hp : p ≤ ns.length) :
    ∀ r, p < r → r ≤ ns.length → pred r = true →
      r ≤ walkDescent ns pred lvl p := by
  induction lvl generalizing p with
  | zero => omega
  | succ lvl ih =>
    intro r h1 h2 h3
    simp only [walkDescent]
    rcases Nat.eq_zero_or_pos lvl with hz | hpos
    · subst hz
      simp only [walkDescent]
      have hht : 0 < heightAt ns r := by
        have hlt : r - 1 < ns.length := by omega
        have hnd : ns.get? (r - 1) = some (ns.get ⟨r - 1, hlt⟩) := List.get?_eq_get hlt
        rw [heightAt_eq hnd]
        exact hh _ (List.get_mem ns _ _)
      exact walkLevel_max hdc (by omega) r h1 h2 hht h3
    · rcases le_or_lt r (walkLevel ns pred lvl p ns.length) with hr | hr
      · exact le_trans hr (walkDescent_ge ns pred lvl _)
      · exact ih (by omega) (walkLevel_le hp) r hr h2 h3

theorem walkDescent_findGreatest {ns : List ZslNode} {pred : ℕ → Bool} {lvl : ℕ}
    (hdc : ∀ a b, 1 ≤ a → a ≤ b → b ≤ ns.length → pred b = true → pred a = true)
    (hh : ∀ nd ∈ ns, 1 ≤ nd.height) (hlvl : 1 ≤ lvl) :
    walkDescent ns pred lvl 0 = Nat.findGreatest (fun q => pred q = true) ns.length := by
  set w := walkDescent ns pred lvl 0 with hw
  have hle : w ≤ ns.length := walkDescent_le (by omega)
  have hinv : w = 0 ∨ pred w = true := walkDescent_inv (Or.inl rfl)
  apply le_antisymm
  · rcases hinv with h0 | hpred
    · omega
    · exact Nat.le_findGreatest hle hpred
  · set g := Nat.findGreatest (fun q => pred q = true) ns.length with hg
    rcases Nat.eq_zero_or_pos g with h0 | hpos
    · omega
    · have hs : pred g = true := Nat.findGreatest_of_ne_zero hg.symm (by omega)
      have hgle : g ≤ ns.length := Nat.findGreatest_le ns.length
      exact walkDescent_max hdc hh hlvl (by omega) g hpos hgle hs

theorem zslRandomLevelAux_ge (draws : List ℕ) (l : ℕ) :
    l ≤ zslRandomLevelAux draws l := by
  induction draws generalizing l with
  | nil => simp [zslRandomLevelAux]
  | cons r rest ih =>
    simp only [zslRandomLevelAux]
    split_ifs
    · exact le_trans (by omega) (ih (l + 1))
    · exact le_refl _

/-- C10: `zslRandomLevel` always returns a level in `[1, ZSKIPLIST_MAXLEVEL]`
(for every finite stream of `random()` draws); consequently the node created
by `zslInsert` has between 1 and 32 levels, every index `zslInsert` uses
into its `update[]` / `rank[]` arrays (of size `ZSKIPLIST_MAXLEVEL`) is in
bounds, and the list's max level stays `≤ ZSKIPLIST_MAXLEVEL`. -/
theorem C10_random_level_and_insert_bounds :
    ∀ draws : List ℕ,
      1 ≤ zslRandomLevel draws ∧ zslRandomLevel draws ≤ ZSKIPLIST_MAXLEVEL ∧
      ∀ zsl : ZSkipList, ∀ score : NNDouble, ∀ obj : List ℕ,
        zsl.level ≤ ZSKIPLIST_MAXLEVEL →
        zslInsertMaxIndex zsl.level (zslRandomLevel draws) < ZSKIPLIST_MAXLEVEL ∧
        (zslInsert zsl score obj draws).level ≤ ZSKIPLIST_MAXLEVEL ∧
        ((∀ nd ∈ zsl.nodes, 1 ≤ nd.height ∧ nd.height ≤ ZSKIPLIST_MAXLEVEL) →
          ∀ nd ∈ (zslInsert zsl score obj draws).nodes,
            1 ≤ nd.height ∧ nd.height ≤ ZSKIPLIST_MAXLEVEL) := by
  intro draws
  have hge : 1 ≤ zslRandomLevel draws := by
    have := zslRandomLevelAux_ge draws 1
    simp only [zslRandomLevel]
    split_ifs <;> simp [ZSKIPLIST_MAXLEVEL] <;> omega
  have hle : zslRandomLevel draws ≤ ZSKIPLIST_MAXLEVEL := by
    simp only [zslRandomLevel]
    split_ifs with h
    · exact le_of_lt h
    · exact le_refl _
  refine ⟨hge, hle, ?_⟩
  intro zsl score obj hlvl
  refine ⟨?_, ?_, ?_⟩
  · simp only [zslInsertMaxIndex]
    have : max zsl.level (zslRandomLevel draws) ≤ ZSKIPLIST_MAXLEVEL :=
      max_le hlvl hle
    simp only [ZSKIPLIST_MAXLEVEL] at *
    omega
  · simp only [zslInsert]
    exact max_le hlvl hle
  · intro hall nd hnd
    simp only [zslInsert] at hnd
    have hp : walkDescent zsl.nodes (zslKeyLtAt zsl.nodes score obj) zsl.level 0
        ≤ zsl.nodes.length := walkDescent_le (by omega)
    rw [List.mem_insertIdx hp] at hnd
    rcases hnd with he | hmem
    · subst he
      exact ⟨hge, hle⟩
    · exact hall nd hmem

theorem zslKeyLe_refl (s : NNDouble) (o : List ℕ) : zslKeyLe s o s o = true := by
  simp [zslKeyLe, compareBytes_refl]

theorem zslKeyLt_irrefl (s : NNDouble) (o : List ℕ) : zslKeyLt s o s o = false := by
  simp [zslKeyLt, NNDouble.slt_irrefl, compareBytes_refl]

theorem sorted_get_lt {ns : List ZslNode}
    (hs : ns.Pairwise (fun a b => zslKeyLt a.score a.obj b.score b.obj = true))
    {i j : ℕ} (hij : i < j) {a b : ZslNode}
    (ha : ns.get? i = some a) (hb : ns.get? j = some b) :
    zslKeyLt a.score a.obj b.score b.obj = true := by
  rw [List.pairwise_iff_get] at hs
  obtain ⟨hj, hbj⟩ := List.get?_eq_some.mp hb
  obtain ⟨hi, hai⟩ := List.get?_eq_some.mp ha
  have := hs ⟨i, hi⟩ ⟨j, hj⟩ hij
  rw [hai, hbj] at this
  exact this

theorem nodup_obj_index {ns : List ZslNode}
    (hd : (ns.map (fun nd => nd.obj)).Nodup) {i j : ℕ} {a b : ZslNode}
    (ha : ns.get? i = some a) (hb : ns.get? j = some b) (hob : a.obj = b.obj) :
    i = j := by
  obtain ⟨hi, hai⟩ := List.get?_eq_some.mp ha
  obtain ⟨hj, hbj⟩ := List.get?_eq_some.mp hb
  have hlen : ∀ k (h : k < ns.length), k < (ns.map (fun nd => nd.obj)).length := by
    intro k h; simpa using h
  have hinj := (List.Nodup.get_inj_iff hd
    (i := ⟨i, hlen i hi⟩) (j := ⟨j, hlen j hj⟩))
  have hget : (ns.map (fun nd => nd.obj)).get ⟨i, hlen i hi⟩
      = (ns.map (fun nd => nd.obj)).get ⟨j, hlen j hj⟩ := by
    rw [List.get_map, List.get_map]
    rw [hai, hbj]
    exact hob
  have := hinj.mp hget
  exact congrArg Fin.val this

theorem objAt_eq_some {ns : List ZslNode} {p : ℕ} {o : List ℕ}
    (h : objAt ns p = some o) :
    1 ≤ p ∧ ∃ nd, ns.get? (p - 1) = some nd ∧ nd.obj = o := by
  simp only [objAt] at h
  split_ifs at h with hp
  obtain ⟨nd, hnd, hno⟩ := Option.map_eq_some'.mp h
  exact ⟨by omega, nd, hnd, hno⟩

theorem objAt_succ {ns : List ZslNode} {j : ℕ} {nd : ZslNode}
    (hj : ns.get? j = some nd) : objAt ns (j + 1) = some nd.obj := by
  have hj' : ns[j]? = some nd := by rw [← List.get?_eq_getElem?]; exact hj
  simp [objAt, hj']

theorem keyLeAt_of_le_target {ns : List ZslNode} {s : NNDouble} {o : List ℕ}
    {j : ℕ} {nd : ZslNode}
    (hsort : ns.Pairwise (fun a b => zslKeyLt a.score a.obj b.score b.obj = true))
    (hj : ns.get? j = some nd) (hsc : nd.score = s) (ho : nd.obj = o) :
    ∀ r, 1 ≤ r → r ≤ j + 1 → zslKeyLeAt ns s o r = true := by
  intro r h1 h2
  have hjlt : j < ns.length := (List.get?_eq_some.mp hj).1
  have hr : r - 1 < ns.length := by omega
  have hnd' : ns.get? (r - 1) = some (ns.get ⟨r - 1, hr⟩) := List.get?_eq_get hr
  simp only [zslKeyLeAt, hnd']
  rcases eq_or_lt_of_le (show r - 1 ≤ j by omega) with he | hl
  · have : ns.get ⟨r - 1, hr⟩ = nd := by
      rw [← Option.some_inj, ← hnd', he, hj]
    rw [this, hsc, ho]
    exact zslKeyLe_refl s o
  · have hlt := sorted_get_lt hsort hl hnd' hj
    rw [hsc, ho] at hlt
    exact zslKeyLt_then_le hlt (zslKeyLe_refl s o)

theorem keyLeAt_false_beyond {ns : List ZslNode} {s : NNDouble} {o : List ℕ}
    {j : ℕ} {nd : ZslNode}
    (hsort : ns.Pairwise (fun a b => zslKeyLt a.score a.obj b.score b.obj = true))
    (hj : ns.get? j = some nd) (hsc : nd.score = s) (ho : nd.obj = o) :
    ∀ r, j + 1 < r → r ≤ ns.length → zslKeyLeAt ns s o r = false := by
  intro r h1 h2
  have hr : r - 1 < ns.length := by omega
  have hnd' : ns.get? (r - 1) = some (ns.get ⟨r - 1, hr⟩) := List.get?_eq_get hr
  simp only [zslKeyLeAt, hnd']
  by_contra hc
  simp only [Bool.not_eq_false] at hc
  have hlt := sorted_get_lt hsort (show j < r - 1 by omega) hj hnd'
  rw [hsc, ho] at hlt
  have := zslKeyLe_lt_trans hc hlt
  rw [zslKeyLt_irrefl] at this
  exact absurd this (by simp)

theorem keyLeAt_dc {ns : List ZslNode} {s : NNDouble} {o : List ℕ}
    (hsort : ns.Pairwise (fun a b => zslKeyLt a.score a.obj b.score b.obj = true)) :
    ∀ a b, 1 ≤ a → a ≤ b → b ≤ ns.length →
      zslKeyLeAt ns s o b = true → zslKeyLeAt ns s o a = true := by
  intro a b h1 h2 h3 hb
  rcases eq_or_lt_of_le h2 with he | hl
  · exact he ▸ hb
  · have ha' : a - 1 < ns.length := by omega
    have hb' : b - 1 < ns.length := by omega
    have hna : ns.get? (a - 1) = some (ns.get ⟨a - 1, ha'⟩) := List.get?_eq_get ha'
    have hnb : ns.get? (b - 1) = some (ns.get ⟨b - 1, hb'⟩) := List.get?_eq_get hb'
    simp only [zslKeyLeAt, hna]
    simp only [zslKeyLeAt, hnb] at hb
    have hlt := sorted_get_lt hsort (show a - 1 < b - 1 by omega) hna hnb
    exact zslKeyLt_then_le hlt hb

theorem zslGetRankLoop_present {ns : List ZslNode} {s : NNDouble} {o : List ℕ}
    {j : ℕ} {nd : ZslNode}
    (hsort : ns.Pairwise (fun a b => zslKeyLt a.score a.obj b.score b.obj = true))
    (hdist : (ns.map (fun x => x.obj)).Nodup)
    (hh : ∀ x ∈ ns, 1 ≤ x.height)
    (hj : ns.get? j = some nd) (hsc : nd.score = s) (ho : nd.obj = o) :
    ∀ i p rank, 1 ≤ i → rank = p → (p = 0 ∨ zslKeyLeAt ns s o p = true) →
      p ≤ ns.length → zslGetRankLoop ns s o i p rank = j + 1 := by
  have hjlt : j < ns.length := (List.get?_eq_some.mp hj).1
  have hbound : ∀ q, (q = 0 ∨ zslKeyLeAt ns s o q = true) → q ≤ ns.length →
      q ≤ j + 1 := by
    intro q hq hqn
    rcases hq with h0 | hpred
    · omega
    · by_contra hc
      rw [keyLeAt_false_beyond hsort hj hsc ho q (by omega) hqn] at hpred
      exact absurd hpred (by simp)
  intro i
  induction i with
  | zero => intro p rank h1 _ _ _; omega
  | succ i ih =>
    intro p rank _ hrank hinv hpn
    simp only [zslGetRankLoop]
    have hge := walkLevel_ge ns (zslKeyLeAt ns s o) i p ns.length
    have hple := @walkLevel_le ns (zslKeyLeAt ns s o) i _ ns.length hpn
    have hland := @walkLevel_land ns (zslKeyLeAt ns s o) i p ns.length
    set p' := walkLevel ns (zslKeyLeAt ns s o) i p ns.length with hp'
    have hinv' : p' = 0 ∨ zslKeyLeAt ns s o p' = true := by
      rcases hland with he | ⟨_, _, _, hd⟩
      · rw [he]; exact hinv
      · exact Or.inr hd
    by_cases hobj : objAt ns p' = some o
    · rw [if_pos hobj]
      obtain ⟨hp1, nd', hnd', hobj'⟩ := objAt_eq_some hobj
      have hpj := nodup_obj_index hdist hnd' hj (hobj'.trans ho.symm)
      omega
    · rw [if_neg hobj]
      rcases Nat.eq_zero_or_pos i with hz | hpos
      · exfalso
        subst hz
        have hup : p' ≤ j + 1 := hbound p' hinv' hple
        have hlow : j + 1 ≤ p' := by
          rcases le_or_lt (j + 1) p with hc | hc
          · omega
          · refine walkLevel_max (keyLeAt_dc hsort) (by omega) (j + 1) hc
              (by omega) ?_ (keyLeAt_of_le_target hsort hj hsc ho (j + 1)
                (by omega) (le_refl _))
            rw [heightAt_eq (show ns.get? (j + 1 - 1) = some nd by simpa using hj)]
            exact hh nd (List.get?_mem hj)
        apply hobj
        have hpj : p' = j + 1 := le_antisymm hup hlow
        rw [hpj, objAt_succ hj, ho]
      · exact ih p' (rank + (p' - p)) hpos (by omega) hinv' hple

theorem zslGetRankLoop_absent {ns : List ZslNode} {s : NNDouble} {o : List ℕ}
    (habs : o ∉ ns.map (fun x => x.obj)) :
    ∀ i p rank, zslGetRankLoop ns s o i p rank = 0 := by
  intro i
  induction i with
  | zero => intro p rank; rfl
  | succ i ih =>
    intro p rank
    simp only [zslGetRankLoop]
    set p' := walkLevel ns (zslKeyLeAt ns s o) i p ns.length
    by_cases hobj : objAt ns p' = some o
    · exfalso
      obtain ⟨_, nd', hnd', hobj'⟩ := objAt_eq_some hobj
      exact habs (hobj' ▸ List.mem_map_of_mem (fun x => x.obj) (List.get?_mem hnd'))
    · rw [if_neg hobj]
      exact ih p' _

theorem zslGetElementByRankLoop_found {ns : List ZslNode}
    (hh : ∀ x ∈ ns, 1 ≤ x.height) {rank : ℕ} (hr1 : 1 ≤ rank)
    (hrn : rank ≤ ns.length) :
    ∀ i p traversed, 1 ≤ i → traversed = p → p ≤ rank → p ≤ ns.length →
      zslGetElementByRankLoop ns rank i p traversed = some rank := by
  intro i
  induction i with
  | zero => intro p t h1 _ _ _; omega
  | succ i ih =>
    intro p t _ ht hpr hpn
    simp only [zslGetElementByRankLoop]
    have hge := walkLevel_ge ns (fun q => decide (t + (q - p) ≤ rank)) i p ns.length
    have hple := @walkLevel_le ns (fun q => decide (t + (q - p) ≤ rank)) i _ ns.length hpn
    have hland := @walkLevel_land ns (fun q => decide (t + (q - p) ≤ rank)) i p ns.length
    set p' := walkLevel ns (fun q => decide (t + (q - p) ≤ rank)) i p ns.length
      with hp'
    have hup : p' ≤ rank := by
      rcases hland with he | ⟨hlt, _, _, hd⟩
      · omega
      · simp only [decide_eq_true_eq] at hd
        omega
    by_cases hcheck : t + (p' - p) = rank
    · rw [if_pos hcheck]
      have : p' = rank := by omega
      rw [this]
    · rw [if_neg hcheck]
      rcases Nat.eq_zero_or_pos i with hz | hpos
      · exfalso
        subst hz
        have hlow : rank ≤ p' := by
          rcases eq_or_lt_of_le hpr with he | hlt
          · omega
          · have hht : 0 < heightAt ns rank := by
              have hrlt : rank - 1 < ns.length := by omega
              have hnd : ns.get? (rank - 1) = some (ns.get ⟨rank - 1, hrlt⟩) :=
                List.get?_eq_get hrlt
              rw [heightAt_eq hnd]
              exact hh _ (List.get?_mem hnd)
            refine walkLevel_max ?_ (by omega) rank hlt hrn hht
              (by simp only [decide_eq_true_eq]; omega)
            intro a b _ hab _ hbp
            simp only [decide_eq_true_eq] at hbp ⊢
            omega
        omega
      · exact ih p' (t + (p' - p)) hpos (by omega) (by omega) hple

/-- C4 (amended): for a well-formed zset skip list, every stored node's
(score, element) pair has 1-based rank `j + 1` (its level-0 position),
`zslGetRank` returns exactly that rank, and `zslGetElementByRank` at that
rank returns exactly that node's position; and `zslGetRank` returns 0
whenever the element does not occur in the list at all.  (The original
claim's stronger clause — rank 0 for every absent (score, element) pair —
is false, see the counterexample: when the element is present with a
different score the C code can return that occurrence's rank.) -/
theorem C4_rank_consistency (zsl : ZSkipList) (hwf : ZslWF zsl) :
    (∀ j nd, zsl.nodes.get? j = some nd →
      zslGetRank zsl nd.score nd.obj = j + 1 ∧
      1 ≤ zslGetRank zsl nd.score nd.obj ∧
      zslGetElementByRank zsl (j + 1) = some (j + 1) ∧
      zsl.nodes.get? ((j + 1) - 1) = some nd) ∧
    (∀ s o, o ∉ zsl.nodes.map (fun x => x.obj) → zslGetRank zsl s o = 0) := by
  constructor
  · intro j nd hj
    have hjlt : j < zsl.nodes.length := (List.get?_eq_some.mp hj).1
    have h1 : zslGetRank zsl nd.score nd.obj = j + 1 :=
      zslGetRankLoop_present hwf.sorted hwf.distinct hwf.heights hj rfl rfl
        zsl.level 0 0 hwf.level_ge rfl (Or.inl rfl) (by omega)
    refine ⟨h1, by omega, ?_, by simpa using hj⟩
    exact zslGetElementByRankLoop_found hwf.heights (by omega) (by omega)
      zsl.level 0 0 hwf.level_ge rfl (by omega) (by omega)
  · intro s o habs
    exact zslGetRankLoop_absent habs zsl.level 0 0

theorem C4_rank_consistency_witness :
    ZslWF ⟨[⟨NNDouble.negInf, [97], 1⟩, ⟨NNDouble.posInf, [98], 1⟩], 1⟩ ∧
    zslGetRank ⟨[⟨NNDouble.negInf, [97], 1⟩, ⟨NNDouble.posInf, [98], 1⟩], 1⟩ NNDouble.posInf [98] = 2 ∧
    zslGetElementByRank ⟨[⟨NNDouble.negInf, [97], 1⟩, ⟨NNDouble.posInf, [98], 1⟩], 1⟩ 2 = some 2 ∧
    zslGetRank ⟨[⟨NNDouble.negInf, [97], 1⟩, ⟨NNDouble.posInf, [98], 1⟩], 1⟩ NNDouble.negInf [99] = 0 := by
  have hwf : ZslWF ⟨[⟨NNDouble.negInf, [97], 1⟩, ⟨NNDouble.posInf, [98], 1⟩], 1⟩ :=
    ⟨by decide, by decide, by decide, by decide⟩
  have h := C4_rank_consistency _ hwf
  refine ⟨hwf, ?_, ?_, ?_⟩
  · exact (h.1 1 ⟨NNDouble.posInf, [98], 1⟩ (by decide)).1
  · exact (h.1 1 ⟨NNDouble.posInf, [98], 1⟩ (by decide)).2.2.1
  · exact h.2 NNDouble.negInf [99] (by decide)

/-- C4, as stated, is false on the code: in the (well-formed, single-node)
skip list holding only (−inf, "a"), the pair (+inf, "a") is absent, yet
`zslGetRank(+inf, "a")` returns 1 — the walk stops on the node and the
element-equality check fires without comparing the score. -/
theorem C4_rank_consistency_counterexample :
    (∀ nd ∈ (⟨[⟨NNDouble.negInf, [97], 1⟩], 1⟩ : ZSkipList).nodes,
      ¬ (nd.score = NNDouble.posInf ∧ nd.obj = [97])) ∧
    ZslWF ⟨[⟨NNDouble.negInf, [97], 1⟩], 1⟩ ∧
    zslGetRank ⟨[⟨NNDouble.negInf, [97], 1⟩], 1⟩ NNDouble.posInf [97] = 1 := by
  refine ⟨by decide, ⟨by decide, by decide, by decide, by decide⟩, by decide⟩

theorem C10_random_level_and_insert_bounds_witness :
    1 ≤ zslRandomLevel [0, 70000] ∧
    zslRandomLevel [0, 70000] ≤ ZSKIPLIST_MAXLEVEL ∧
    zslInsertMaxIndex 1 (zslRandomLevel [0, 70000]) < ZSKIPLIST_MAXLEVEL ∧
    (zslInsert ⟨[], 1⟩ NNDouble.negInf [97] [0, 70000]).level ≤ ZSKIPLIST_MAXLEVEL := by
  have h := C10_random_level_and_insert_bounds [0, 70000]
  have h2 := h.2.2 ⟨[], 1⟩ NNDouble.negInf [97] (by decide)
  exact ⟨h.1, h.2.1, h2.1, h2.2.1⟩

theorem compareBytes_le_trans {a b c : List ℕ} (h1 : compareBytes a b ≤ 0)
    (h2 : compareBytes b c ≤ 0) : compareBytes a c ≤ 0 := by
  rcases lt_or_eq_of_le h1 with h1' | h1'
  · exact le_of_lt (compareBytes_lt_le_trans h1' h2)
  · rw [(compareBytes_eq_zero_iff a b).mp h1']
    exact h2

theorem cmpFLR_str_str (a b : List ℕ) :
    compareStringObjectsForLexRange (LexItem.str a) (LexItem.str b)
      = compareBytes a b := by
  by_cases hab : a = b
  · subst hab
    simp [compareStringObjectsForLexRange, compareBytes_refl]
  · have h1 : LexItem.str a ≠ LexItem.str b := by simp [hab]
    simp [compareStringObjectsForLexRange, h1, LexItem.bytes]

theorem cmpFLR_str_min (a : List ℕ) :
    compareStringObjectsForLexRange (LexItem.str a) LexItem.minStr = 1 := by
  simp [compareStringObjectsForLexRange]

theorem cmpFLR_str_max (a : List ℕ) :
    compareStringObjectsForLexRange (LexItem.str a) LexItem.maxStr = -1 := by
  simp [compareStringObjectsForLexRange]

theorem cmpFLR_min_le_zero (x : LexItem) :
    compareStringObjectsForLexRange LexItem.minStr x ≤ 0 := by
  cases x <;> simp [compareStringObjectsForLexRange]

theorem lexGteMin_mono {o1 o2 : List ℕ} {range : ZLexRange}
    (hle : compareBytes o1 o2 ≤ 0) (h : zslLexValueGteMin o1 range = true) :
    zslLexValueGteMin o2 range = true := by
  cases hmin : range.min with
  | minStr =>
    simp only [zslLexValueGteMin, hmin, cmpFLR_str_min] at h ⊢
    split_ifs <;> decide
  | maxStr =>
    simp only [zslLexValueGteMin, hmin, cmpFLR_str_max] at h
    split_ifs at h <;> simp only [decide_eq_true_eq] at h <;> omega
  | str m =>
    simp only [zslLexValueGteMin, hmin, cmpFLR_str_str] at h ⊢
    have hn1 := compareBytes_neg o1 m
    have hn2 := compareBytes_neg o2 m
    split_ifs at h ⊢ with hex
    · simp only [decide_eq_true_eq] at h ⊢
      have h2 : compareBytes m o2 < 0 := compareBytes_lt_le_trans (by omega) hle
      omega
    · simp only [decide_eq_true_eq] at h ⊢
      have h2 : compareBytes m o2 ≤ 0 := compareBytes_le_trans (by omega) hle
      omega

theorem lexLteMax_mono {o1 o2 : List ℕ} {range : ZLexRange}
    (hle : compareBytes o1 o2 ≤ 0) (h : zslLexValueLteMax o2 range = true) :
    zslLexValueLteMax o1 range = true := by
  cases hmax : range.max with
  | maxStr =>
    simp only [zslLexValueLteMax, hmax, cmpFLR_str_max] at h ⊢
    split_ifs <;> decide
  | minStr =>
    simp only [zslLexValueLteMax, hmax, cmpFLR_str_min] at h
    split_ifs at h <;> simp only [decide_eq_true_eq] at h <;> omega
  | str m =>
    simp only [zslLexValueLteMax, hmax, cmpFLR_str_str] at h ⊢
    split_ifs at h ⊢ with hex
    · simp only [decide_eq_true_eq] at h ⊢
      exact compareBytes_le_lt_trans hle h
    · simp only [decide_eq_true_eq] at h ⊢
      exact compareBytes_le_trans hle h

theorem lexRange_empty_cmp_pos {range : ZLexRange}
    (hc : 0 < compareStringObjectsForLexRange range.min range.max) (v : List ℕ) :
    ¬ (zslLexValueGteMin v range = true ∧ zslLexValueLteMax v range = true) := by
  rintro ⟨hmin, hmax⟩
  cases hmi : range.min with
  | minStr =>
    rw [hmi] at hc
    have := cmpFLR_min_le_zero range.max
    omega
  | maxStr =>
    simp only [zslLexValueGteMin, hmi, cmpFLR_str_max] at hmin
    split_ifs at hmin <;> simp only [decide_eq_true_eq] at hmin <;> omega
  | str m =>
    cases hma : range.max with
    | maxStr =>
      rw [hmi, hma, cmpFLR_str_max] at hc
      omega
    | minStr =>
      simp only [zslLexValueLteMax, hma, cmpFLR_str_min] at hmax
      split_ifs at hmax <;> simp only [decide_eq_true_eq] at hmax <;> omega
    | str M =>
      rw [hmi, hma, cmpFLR_str_str] at hc
      simp only [zslLexValueGteMin, hmi, cmpFLR_str_str] at hmin
      simp only [zslLexValueLteMax, hma, cmpFLR_str_str] at hmax
      have hn := compareBytes_neg v m
      have h1 : 0 ≤ compareBytes v m := by
        split_ifs at hmin <;> simp only [decide_eq_true_eq] at hmin <;> omega
      have h2 : compareBytes v M ≤ 0 := by
        split_ifs at hmax <;> simp only [decide_eq_true_eq] at hmax <;> omega
      have h3 : compareBytes m M ≤ 0 := compareBytes_le_trans (by omega) h2
      omega

theorem lexRange_empty_ex {range : ZLexRange} (he : range.min = range.max)
    (hex : range.minex = true ∨ range.maxex = true) (v : List ℕ) :
    ¬ (zslLexValueGteMin v range = true ∧ zslLexValueLteMax v range = true) := by
  rintro ⟨hmin, hmax⟩
  cases hmi : range.min with
  | minStr =>
    rw [hmi] at he
    simp only [zslLexValueLteMax, ← he, cmpFLR_str_min] at hmax
    split_ifs at hmax <;> simp only [decide_eq_true_eq] at hmax <;> omega
  | maxStr =>
    simp only [zslLexValueGteMin, hmi, cmpFLR_str_max] at hmin
    split_ifs at hmin <;> simp only [decide_eq_true_eq] at hmin <;> omega
  | str m =>
    rw [hmi] at he
    simp only [zslLexValueGteMin, hmi, cmpFLR_str_str] at hmin
    simp only [zslLexValueLteMax, ← he, cmpFLR_str_str] at hmax
    rcases hex with hx | hx
    · simp only [hx, if_true, decide_eq_true_eq] at hmin
      have : compareBytes v m ≤ 0 := by
        split_ifs at hmax <;> simp only [decide_eq_true_eq] at hmax <;> omega
      omega
    · simp only [hx, if_true, decide_eq_true_eq] at hmax
      have : 0 ≤ compareBytes v m := by
        split_ifs at hmin <;> simp only [decide_eq_true_eq] at hmin <;> omega
      omega

theorem lexSorted_get_le {ns : List ZslNode}
    (hs : ns.Pairwise (fun a b => compareBytes a.obj b.obj ≤ 0))
    {i j : ℕ} (hij : i ≤ j) {a b : ZslNode}
    (ha : ns.get? i = some a) (hb : ns.get? j = some b) :
    compareBytes a.obj b.obj ≤ 0 := by
  rcases Nat.eq_or_lt_of_le hij with he | hl
  · subst he
    rw [ha] at hb
    injection hb with hb
    subst hb
    exact le_of_eq (compareBytes_refl _)
  · rw [List.pairwise_iff_get] at hs
    obtain ⟨hi, hai⟩ := List.get?_eq_some.mp ha
    obtain ⟨hj, hbj⟩ := List.get?_eq_some.mp hb
    have := hs ⟨i, hi⟩ ⟨j, hj⟩ hl
    rw [hai, hbj] at this
    exact this

theorem lexGteMinAt_dc {ns : List ZslNode} {range : ZLexRange}
    (hs : ns.Pairwise (fun a b => compareBytes a.obj b.obj ≤ 0))
    {a b : ℕ} (ha : 1 ≤ a) (hab : a ≤ b) (hb : b ≤ ns.length)
    (hgb : lexGteMinAt ns range b = false) : lexGteMinAt ns range a = false := by
  cases hc' : lexGteMinAt ns range a with
  | false => rfl
  | true =>
  exfalso
  have hal : a - 1 < ns.length := by omega
  have hbl : b - 1 < ns.length := by omega
  have hda : ns.get? (a - 1) = some (ns.get ⟨a - 1, hal⟩) := List.get?_eq_get hal
  have hdb : ns.get? (b - 1) = some (ns.get ⟨b - 1, hbl⟩) := List.get?_eq_get hbl
  simp only [lexGteMinAt, hda] at hc'
  simp only [lexGteMinAt, hdb] at hgb
  have hle := lexSorted_get_le hs (show a - 1 ≤ b - 1 from by omega) hda hdb
  have hmono := lexGteMin_mono hle hc'
  rw [hmono] at hgb
  exact Bool.noConfusion hgb

theorem walkLevel_stop {ns : List ZslNode} {pred : ℕ → Bool} {i p fuel : ℕ}
    (hf : ns.length ≤ p + fuel) :
    fwdPos ns i (walkLevel ns pred i p fuel) = none ∨
    ∃ q, fwdPos ns i (walkLevel ns pred i p fuel) = some q ∧ pred q = false := by
  induction fuel generalizing p with
  | zero =>
    left
    simp only [walkLevel]
    rw [fwdPos, show ns.length - p = 0 from by omega]
    rfl
  | succ fuel ih =>
    simp only [walkLevel]
    cases hfw : fwdPos ns i p with
    | none =>
      dsimp only
      left
      exact hfw
    | some q =>
      dsimp only
      split_ifs with hq
      · exact ih (by have := (fwdPos_some hfw).1; omega)
      · right
        refine ⟨q, hfw, ?_⟩
        cases hpq : pred q
        · rfl
        · exact absurd hpq hq

theorem walkDescent_stop {ns : List ZslNode} {pred : ℕ → Bool} {lvl p : ℕ}
    (hlvl : 1 ≤ lvl) (hp : p ≤ ns.length) :
    fwdPos ns 0 (walkDescent ns pred lvl p) = none ∨
    ∃ q, fwdPos ns 0 (walkDescent ns pred lvl p) = some q ∧ pred q = false := by
  induction lvl generalizing p with
  | zero => omega
  | succ lvl ih =>
    rcases Nat.eq_zero_or_pos lvl with hz | hpos
    · subst hz
      simp only [walkDescent]
      exact walkLevel_stop (by omega)
    · simp only [walkDescent]
      exact ih hpos (walkLevel_le hp)

theorem fwdPos_zero {ns : List ZslNode} (hh : ∀ nd ∈ ns, 1 ≤ nd.height) (p : ℕ) :
    fwdPos ns 0 p = if p < ns.length then some (p + 1) else none := by
  split_ifs with hp
  · rw [fwdPos, show ns.length - p = (ns.length - p - 1) + 1 from by omega]
    rw [scanFwd]
    have hnd : ns.get? p = some (ns.get ⟨p, hp⟩) := List.get?_eq_get hp
    have hht : heightAt ns (p + 1) = (ns.get ⟨p, hp⟩).height := by
      apply heightAt_eq
      simpa using hnd
    rw [if_pos (by rw [hht]; exact hh _ (List.get_mem ns _ _))]
  · rw [fwdPos, show ns.length - p = 0 from by omega]
    rfl

theorem zslFirstInLexRangePos_def (zsl : ZSkipList) (range : ZLexRange) :
    zslFirstInLexRangePos zsl range
      = walkDescent zsl.nodes (fun q => ! lexGteMinAt zsl.nodes range q)
          zsl.level 0 := rfl

theorem getLast?_eq_get?_pred {α : Type} {l : List α} {a : α}
    (h : l.getLast? = some a) : l.get? (l.length - 1) = some a := by
  induction l with
  | nil => simp at h
  | cons x xs ih =>
    cases hxs : xs with
    | nil =>
      subst hxs
      simpa using h
    | cons y ys =>
      subst hxs
      rw [List.getLast?_cons_cons] at h
      have hi := ih h
      simp only [List.length_cons, Nat.add_sub_cancel] at hi ⊢
      rw [List.get?_cons_succ]
      exact hi

theorem head?_eq_get?_zero {α : Type} {l : List α} {a : α}
    (h : l.head? = some a) : l.get? 0 = some a := by
  cases l with
  | nil => simp at h
  | cons x xs => simpa using h


theorem getLast?_cons_ne_none {α : Type} (x : α) (xs : List α) :
    (x :: xs).getLast? ≠ none := by
  induction xs generalizing x with
  | nil => simp
  | cons y ys ih =>
    rw [List.getLast?_cons_cons]
    exact ih y

theorem getLast?_none_eq_nil {α : Type} {l : List α} (h : l.getLast? = none) :
    l = [] := by
  cases l with
  | nil => rfl
  | cons x xs => exact absurd h (getLast?_cons_ne_none x xs)

theorem zslIsInLexRange_elim {zsl : ZSkipList} {range : ZLexRange}
    (hin : zslIsInLexRange zsl range = true) :
    ¬ (1 < compareStringObjectsForLexRange range.min range.max ∨
        (compareBytes range.min.bytes range.max.bytes = 0 ∧
          (range.minex = true ∨ range.maxex = true))) ∧
    ∃ tailNd headNd, zsl.nodes.getLast? = some tailNd ∧
      zslLexValueGteMin tailNd.obj range = true ∧
      zsl.nodes.head? = some headNd ∧
      zslLexValueLteMax headNd.obj range = true := by
  unfold zslIsInLexRange at hin
  split_ifs at hin with hc
  refine ⟨hc, ?_⟩
  cases hl : zsl.nodes.getLast? with
  | none =>
    rw [hl] at hin
    exact absurd hin (by simp)
  | some tailNd =>
    rw [hl] at hin
    dsimp only at hin
    split_ifs at hin with ht
    cases hhd : zsl.nodes.head? with
    | none =>
      rw [hhd] at hin
      exact absurd hin (by simp)
    | some headNd =>
      rw [hhd] at hin
      exact ⟨tailNd, headNd, rfl, ht, rfl, hin⟩

theorem zslIsInLexRange_false_elim {zsl : ZSkipList} {range : ZLexRange}
    (hin : zslIsInLexRange zsl range = false) :
    (1 < compareStringObjectsForLexRange range.min range.max ∨
      (compareBytes range.min.bytes range.max.bytes = 0 ∧
        (range.minex = true ∨ range.maxex = true))) ∨
    zsl.nodes = [] ∨
    (∃ tailNd, zsl.nodes.getLast? = some tailNd ∧
      zslLexValueGteMin tailNd.obj range = false) ∨
    (∃ headNd, zsl.nodes.head? = some headNd ∧
      zslLexValueLteMax headNd.obj range = false) := by
  unfold zslIsInLexRange at hin
  split_ifs at hin with hc
  · exact Or.inl hc
  · cases hl : zsl.nodes.getLast? with
    | none => exact Or.inr (Or.inl (getLast?_none_eq_nil hl))
    | some tailNd =>
      rw [hl] at hin
      dsimp only at hin
      split_ifs at hin with ht
      · cases hhd : zsl.nodes.head? with
        | none =>
          exfalso
          have hnil : zsl.nodes = [] := by
            cases hns : zsl.nodes with
            | nil => rfl
            | cons x xs =>
              rw [hns] at hhd
              simp at hhd
          rw [hnil] at hl
          simp at hl
        | some headNd =>
          rw [hhd] at hin
          right; right; right
          exact ⟨headNd, rfl, hin⟩
      · right; right; left
        refine ⟨tailNd, rfl, ?_⟩
        cases hg : zslLexValueGteMin tailNd.obj range
        · rfl
        · exact absurd hg ht

theorem zslFirstInLexRange_some_elim {zsl : ZSkipList} {range : ZLexRange}
    {nd : ZslNode} (h : zslFirstInLexRange zsl range = some nd) :
    zslIsInLexRange zsl range = true ∧
    zsl.nodes.get? (zslFirstInLexRangePos zsl range) = some nd ∧
    zslLexValueLteMax nd.obj range = true := by
  unfold zslFirstInLexRange at h
  split_ifs at h with hin
  refine ⟨hin, ?_⟩
  dsimp only at h
  rw [← zslFirstInLexRangePos_def] at h
  cases hg : zsl.nodes.get? (zslFirstInLexRangePos zsl range) with
  | none =>
    rw [hg] at h
    exact absurd h (by simp)
  | some nd' =>
    rw [hg] at h
    dsimp only at h
    split_ifs at h with hm
    injection h with h
    subst h
    exact ⟨rfl, hm⟩

theorem zslFirstInLexRange_none_elim {zsl : ZSkipList} {range : ZLexRange}
    (h : zslFirstInLexRange zsl range = none) :
    zslIsInLexRange zsl range = false ∨
    zsl.nodes.get? (zslFirstInLexRangePos zsl range) = none ∨
    (∃ ndw, zsl.nodes.get? (zslFirstInLexRangePos zsl range) = some ndw ∧
      zslLexValueLteMax ndw.obj range = false) := by
  unfold zslFirstInLexRange at h
  split_ifs at h with hin
  · dsimp only at h
    rw [← zslFirstInLexRangePos_def] at h
    cases hg : zsl.nodes.get? (zslFirstInLexRangePos zsl range) with
    | none => exact Or.inr (Or.inl rfl)
    | some nd' =>
      rw [hg] at h
      dsimp only at h
      split_ifs at h with hm
      right; right
      refine ⟨nd', rfl, ?_⟩
      cases hb : zslLexValueLteMax nd'.obj range
      · rfl
      · exact absurd hb hm
  · left
    cases hb : zslIsInLexRange zsl range
    · rfl
    · exact absurd hb hin

theorem zslFirstInLexRangePos_lt {zsl : ZSkipList} {range : ZLexRange}
    (hin : zslIsInLexRange zsl range = true) :
    zslFirstInLexRangePos zsl range < zsl.nodes.length := by
  obtain ⟨-, tailNd, headNd, hl, htg, hhd, hhm⟩ := zslIsInLexRange_elim hin
  have hn : 1 ≤ zsl.nodes.length := by
    cases hns : zsl.nodes with
    | nil =>
      rw [hns] at hl
      simp at hl
    | cons x xs =>
      rw [List.length_cons]
      omega
  have hle : zslFirstInLexRangePos zsl range ≤ zsl.nodes.length := by
    rw [zslFirstInLexRangePos_def]
    exact walkDescent_le (Nat.zero_le _)
  rcases Nat.lt_or_ge (zslFirstInLexRangePos zsl range) zsl.nodes.length with hlt | hge
  · exact hlt
  · exfalso
    have hw : zslFirstInLexRangePos zsl range = zsl.nodes.length := by omega
    have hinv := @walkDescent_inv zsl.nodes
      (fun q => ! lexGteMinAt zsl.nodes range q) zsl.level 0 (Or.inl rfl)
    rw [← zslFirstInLexRangePos_def, hw] at hinv
    rcases hinv with h0 | hp
    · omega
    · have hlast : zsl.nodes.get? (zsl.nodes.length - 1) = some tailNd :=
        getLast?_eq_get?_pred hl
      simp only [Bool.not_eq_true'] at hp
      simp only [lexGteMinAt, hlast] at hp
      rw [htg] at hp
      exact Bool.noConfusion hp

theorem zslFirstInLexRangePos_gteMin {zsl : ZSkipList} {range : ZLexRange}
    {nd : ZslNode} (hlv : 1 ≤ zsl.level) (hh : ∀ x ∈ zsl.nodes, 1 ≤ x.height)
    (hnd : zsl.nodes.get? (zslFirstInLexRangePos zsl range) = some nd) :
    zslLexValueGteMin nd.obj range = true := by
  obtain ⟨hwlt, -⟩ := List.get?_eq_some.mp hnd
  have hstop := @walkDescent_stop zsl.nodes
    (fun q => ! lexGteMinAt zsl.nodes range q) zsl.level 0 hlv (Nat.zero_le _)
  rw [← zslFirstInLexRangePos_def] at hstop
  rw [fwdPos_zero hh, if_pos hwlt] at hstop
  rcases hstop with hnone | ⟨q, hq, hpq⟩
  · exact absurd hnone (by simp)
  · have hq' : zslFirstInLexRangePos zsl range + 1 = q := by injection hq
    subst hq'
    simp only [Bool.not_eq_false'] at hpq
    simp only [lexGteMinAt, Nat.add_sub_cancel, hnd] at hpq
    exact hpq

theorem firstInLexRangePos_notGteMin {zsl : ZSkipList} {range : ZLexRange}
    (hs : zsl.nodes.Pairwise (fun a b => compareBytes a.obj b.obj ≤ 0))
    {r : ℕ} (hr1 : 1 ≤ r) (hr2 : r ≤ zslFirstInLexRangePos zsl range) :
    lexGteMinAt zsl.nodes range r = false := by
  have hw : zslFirstInLexRangePos zsl range ≤ zsl.nodes.length := by
    rw [zslFirstInLexRangePos_def]
    exact walkDescent_le (Nat.zero_le _)
  have hinv := @walkDescent_inv zsl.nodes
    (fun q => ! lexGteMinAt zsl.nodes range q) zsl.level 0 (Or.inl rfl)
  rw [← zslFirstInLexRangePos_def] at hinv
  rcases hinv with h0 | hp
  · omega
  · simp only [Bool.not_eq_true'] at hp
    exact lexGteMinAt_dc hs hr1 hr2 hw hp

/-- C5: `zslFirstInLexRange` on a skip list whose nodes have positive
heights and whose level is at least 1: (1) any returned node lies in the
range; (2) for every empty range — `min` comparing greater than `max`, or
equal endpoints with an exclusive bound — it returns NULL (despite the
repository's `> 1` empty-range test, the final `≤ max` check still yields
NULL); (3) the C assertion `redisAssert(x != NULL)` never fires when the
early `zslIsInLexRange` check passed; and (4) *provided the elements are
lexicographically sorted along the list* (the ZRANGEBYLEX precondition the
claim omits) and the endpoint byte contents coincide only for identical
endpoints, a returned node is the first node of the list lying in the
range, and a NULL result means no node lies in the range. -/
theorem C5_first_in_lex_range (zsl : ZSkipList) (range : ZLexRange)
    (hlv : 1 ≤ zsl.level) (hh : ∀ nd ∈ zsl.nodes, 1 ≤ nd.height) :
    (∀ nd, zslFirstInLexRange zsl range = some nd →
        zslLexValueGteMin nd.obj range = true ∧
        zslLexValueLteMax nd.obj range = true) ∧
    ((0 < compareStringObjectsForLexRange range.min range.max ∨
        (range.min = range.max ∧ (range.minex = true ∨ range.maxex = true))) →
      zslFirstInLexRange zsl range = none) ∧
    (zslIsInLexRange zsl range = true →
      ∃ nd, zsl.nodes.get? (zslFirstInLexRangePos zsl range) = some nd) ∧
    (zsl.nodes.Pairwise (fun a b => compareBytes a.obj b.obj ≤ 0) →
      (compareBytes range.min.bytes range.max.bytes = 0 →
        range.min = range.max) →
      (∀ nd, zslFirstInLexRange zsl range = some nd →
          ∃ k, zsl.nodes.get? k = some nd ∧
            ∀ i x, i < k → zsl.nodes.get? i = some x →
              ¬ (zslLexValueGteMin x.obj range = true ∧
                  zslLexValueLteMax x.obj range = true)) ∧
      (zslFirstInLexRange zsl range = none →
        ∀ nd ∈ zsl.nodes,
          ¬ (zslLexValueGteMin nd.obj range = true ∧
              zslLexValueLteMax nd.obj range = true))) := by
  have hA : ∀ nd, zslFirstInLexRange zsl range = some nd →
      zslLexValueGteMin nd.obj range = true ∧
      zslLexValueLteMax nd.obj range = true := by
    intro nd h
    obtain ⟨hin, hg, hm⟩ := zslFirstInLexRange_some_elim h
    exact ⟨zslFirstInLexRangePos_gteMin hlv hh hg, hm⟩
  refine ⟨hA, ?_, ?_, ?_⟩
  · intro hemp
    cases hres : zslFirstInLexRange zsl range with
    | none => rfl
    | some nd =>
      exfalso
      have hr := hA nd hres
      rcases hemp with hc | ⟨he, hex⟩
      · exact lexRange_empty_cmp_pos hc nd.obj hr
      · exact lexRange_empty_ex he hex nd.obj hr
  · intro hin
    have hlt := zslFirstInLexRangePos_lt hin
    exact ⟨zsl.nodes.get ⟨_, hlt⟩, List.get?_eq_get hlt⟩
  · intro hs hcol
    constructor
    · intro nd h
      obtain ⟨hin, hg, hm⟩ := zslFirstInLexRange_some_elim h
      refine ⟨zslFirstInLexRangePos zsl range, hg, ?_⟩
      rintro i x hik hix ⟨hrg, hrm⟩
      have hng := firstInLexRangePos_notGteMin hs
        (show 1 ≤ i + 1 from by omega)
        (show i + 1 ≤ zslFirstInLexRangePos zsl range from by omega)
      simp only [lexGteMinAt, Nat.add_sub_cancel, hix] at hng
      rw [hrg] at hng
      exact Bool.noConfusion hng
    · rintro h nd hmem ⟨hrg, hrm⟩
      obtain ⟨⟨i, hi⟩, hget⟩ := List.mem_iff_get.mp hmem
      have hgi : zsl.nodes.get? i = some nd := by
        rw [List.get?_eq_get hi, hget]
      rcases zslFirstInLexRange_none_elim h with hfalse | hnone | ⟨ndw, hw, hmw⟩
      · rcases zslIsInLexRange_false_elim hfalse with
          hc | hempty | ⟨tl, htl, htg⟩ | ⟨hd, hhd, hhm⟩
        · rcases hc with hc1 | ⟨hbe, hex⟩
          · exact lexRange_empty_cmp_pos (by omega) nd.obj ⟨hrg, hrm⟩
          · exact lexRange_empty_ex (hcol hbe) hex nd.obj ⟨hrg, hrm⟩
        · rw [hempty] at hgi
          simp at hgi
        · have hgl : zsl.nodes.get? (zsl.nodes.length - 1) = some tl :=
            getLast?_eq_get?_pred htl
          have hle := lexSorted_get_le hs
            (show i ≤ zsl.nodes.length - 1 from by omega) hgi hgl
          have hmono := lexGteMin_mono hle hrg
          rw [hmono] at htg
          exact Bool.noConfusion htg
        · have hg0 : zsl.nodes.get? 0 = some hd := head?_eq_get?_zero hhd
          have hle := lexSorted_get_le hs (Nat.zero_le i) hg0 hgi
          have hmono := lexLteMax_mono hle hrm
          rw [hmono] at hhm
          exact Bool.noConfusion hhm
      · rcases Bool.eq_false_or_eq_true (zslIsInLexRange zsl range) with htin | hfin
        swap
        · rcases zslIsInLexRange_false_elim hfin with
            hc | hempty | ⟨tl, htl, htg⟩ | ⟨hd, hhd, hhm⟩
          · rcases hc with hc1 | ⟨hbe, hex⟩
            · exact lexRange_empty_cmp_pos (by omega) nd.obj ⟨hrg, hrm⟩
            · exact lexRange_empty_ex (hcol hbe) hex nd.obj ⟨hrg, hrm⟩
          · rw [hempty] at hgi
            simp at hgi
          · have hgl : zsl.nodes.get? (zsl.nodes.length - 1) = some tl :=
              getLast?_eq_get?_pred htl
            have hle := lexSorted_get_le hs
              (show i ≤ zsl.nodes.length - 1 from by omega) hgi hgl
            have hmono := lexGteMin_mono hle hrg
            rw [hmono] at htg
            exact Bool.noConfusion htg
          · have hg0 : zsl.nodes.get? 0 = some hd := head?_eq_get?_zero hhd
            have hle := lexSorted_get_le hs (Nat.zero_le i) hg0 hgi
            have hmono := lexLteMax_mono hle hrm
            rw [hmono] at hhm
            exact Bool.noConfusion hhm
        · have hlt := zslFirstInLexRangePos_lt htin
          rw [List.get?_eq_none] at hnone
          omega
      · rcases le_or_lt (i + 1) (zslFirstInLexRangePos zsl range) with hle | hgt
        · have hng := firstInLexRangePos_notGteMin hs
            (show 1 ≤ i + 1 from by omega) hle
          simp only [lexGteMinAt, Nat.add_sub_cancel, hgi] at hng
          rw [hrg] at hng
          exact Bool.noConfusion hng
        · have hposle : zslFirstInLexRangePos zsl range ≤ i := by omega
          have hlec := lexSorted_get_le hs hposle hw hgi
          have hmono := lexLteMax_mono hlec hrm
          rw [hmono] at hmw
          exact Bool.noConfusion hmw

theorem C5_first_in_lex_range_witness :
    zslFirstInLexRange ⟨[⟨NNDouble.negInf, [97], 1⟩], 1⟩
        ⟨LexItem.str [97], LexItem.str [98], false, false⟩
      = some ⟨NNDouble.negInf, [97], 1⟩ ∧
    zslLexValueGteMin [97]
        ⟨LexItem.str [97], LexItem.str [98], false, false⟩ = true ∧
    zslLexValueLteMax [97]
        ⟨LexItem.str [97], LexItem.str [98], false, false⟩ = true := by
  have hsome : zslFirstInLexRange ⟨[⟨NNDouble.negInf, [97], 1⟩], 1⟩
      ⟨LexItem.str [97], LexItem.str [98], false, false⟩
        = some ⟨NNDouble.negInf, [97], 1⟩ := by decide
  have h := (C5_first_in_lex_range ⟨[⟨NNDouble.negInf, [97], 1⟩], 1⟩
    ⟨LexItem.str [97], LexItem.str [98], false, false⟩
    (by decide) (by decide)).1 ⟨NNDouble.negInf, [97], 1⟩ hsome
  exact ⟨hsome, h.1, h.2⟩

theorem C5_first_in_lex_range_counterexample :
    ZslWF ⟨[⟨NNDouble.negInf, [98], 1⟩, ⟨NNDouble.posInf, [97], 1⟩], 1⟩ ∧
    zslFirstInLexRange ⟨[⟨NNDouble.negInf, [98], 1⟩, ⟨NNDouble.posInf, [97], 1⟩], 1⟩
        ⟨LexItem.str [97], LexItem.str [97], false, false⟩ = none ∧
    (⟨[⟨NNDouble.negInf, [98], 1⟩, ⟨NNDouble.posInf, [97], 1⟩], 1⟩
        : ZSkipList).nodes.get? 1 = some ⟨NNDouble.posInf, [97], 1⟩ ∧
    zslLexValueGteMin [97]
        ⟨LexItem.str [97], LexItem.str [97], false, false⟩ = true ∧
    zslLexValueLteMax [97]
        ⟨LexItem.str [97], LexItem.str [97], false, false⟩ = true := by
  refine ⟨⟨by decide, by decide, ?_, by decide⟩, by decide, by decide,
    by decide, by decide⟩
  decide

theorem getD_set_eq {α : Type} (l : List α) (i : ℕ) (a dflt : α)
    (h : i < l.length) : (l.set i a).getD i dflt = a := by
  induction l generalizing i with
  | nil => simp at h
  | cons x xs ih =>
    cases i with
    | zero => rfl
    | succ n =>
      simp only [List.set, List.getD, List.get?_cons_succ]
      have := ih n (by simpa using h)
      simpa [List.getD] using this

theorem getD_set_ne {α : Type} (l : List α) (i j : ℕ) (a dflt : α)
    (h : i ≠ j) : (l.set i a).getD j dflt = l.getD j dflt := by
  induction l generalizing i j with
  | nil => simp [List.set]
  | cons x xs ih =>
    cases i with
    | zero =>
      cases j with
      | zero => exact absurd rfl h
      | succ m => rfl
    | succ n =>
      cases j with
      | zero => rfl
      | succ m =>
        simp only [List.set, List.getD, List.get?_cons_succ]
        have := ih n m (by omega)
        simpa [List.getD] using this

theorem flatten_set_cons_perm {α : Type} (t : List (List α)) (i : ℕ) (x : α)
    (h : i < t.length) :
    ((t.set i (x :: t.getD i [])).flatten).Perm (x :: t.flatten) := by
  induction t generalizing i with
  | nil => simp at h
  | cons b bs ih =>
    cases i with
    | zero =>
      simp only [List.set, List.getD_cons_zero, List.flatten_cons, List.cons_append]
      exact List.Perm.refl _
    | succ n =>
      simp only [List.set, List.getD_cons_succ, List.flatten_cons]
      have hp := ih n (by simpa using h)
      exact (List.Perm.append_left b hp).trans List.perm_middle

theorem flatten_set_nil_perm {α : Type} (t : List (List α)) (i : ℕ)
    (h : i < t.length) :
    (t.flatten).Perm (t.getD i [] ++ (t.set i []).flatten) := by
  induction t generalizing i with
  | nil => simp at h
  | cons b bs ih =>
    cases i with
    | zero =>
      simp only [List.set, List.getD_cons_zero, List.flatten_cons]
      exact List.Perm.refl _
    | succ n =>
      simp only [List.set, List.getD_cons_succ, List.flatten_cons]
      have hp := ih n (by simpa using h)
      have h2 : (b ++ (bs.getD n [] ++ (bs.set n []).flatten)).Perm
          (bs.getD n [] ++ (b ++ (bs.set n []).flatten)) := by
        rw [← List.append_assoc, ← List.append_assoc]
        exact List.perm_append_comm.append_right _
      exact (List.Perm.append_left b hp).trans h2

theorem flatten_replicate_nil {α : Type} (n : ℕ) :
    (List.replicate n ([] : List α)).flatten = [] := by
  induction n with
  | zero => rfl
  | succ m ih => simpa [List.replicate, List.flatten_cons] using ih

theorem DictHt.size_setBucket {V : Type} (ht : DictHt V) (i : ℕ)
    (b : List (DictEntry V)) : (ht.setBucket i b).size = ht.size := by
  simp [DictHt.setBucket, DictHt.size]

theorem DictHt.bucket_setBucket_eq {V : Type} (ht : DictHt V) (i : ℕ)
    (b : List (DictEntry V)) (h : i < ht.size) :
    (ht.setBucket i b).bucket i = b :=
  getD_set_eq ht.table i b [] h

theorem DictHt.bucket_setBucket_ne {V : Type} (ht : DictHt V) (i j : ℕ)
    (b : List (DictEntry V)) (h : i ≠ j) :
    (ht.setBucket i b).bucket j = ht.bucket j :=
  getD_set_ne ht.table i j b [] h

theorem bucket_mem_flatten {V : Type} {ht : DictHt V} {i : ℕ}
    {e : DictEntry V} (h : e ∈ ht.bucket i) : e ∈ ht.table.flatten := by
  rw [List.mem_flatten]
  rcases Nat.lt_or_ge i ht.size with hi | hi
  · refine ⟨ht.bucket i, ?_, h⟩
    have : ht.table.get? i = some (ht.table.get ⟨i, hi⟩) := List.get?_eq_get hi
    rw [DictHt.bucket, List.getD, this]
    exact List.get_mem _ _ _
  · exfalso
    rw [DictHt.bucket, List.getD, List.get?_eq_none.mpr hi] at h
    simp at h

theorem mem_flatten_bucket {V : Type} {ht : DictHt V} {e : DictEntry V}
    (h : e ∈ ht.table.flatten) : ∃ i < ht.size, e ∈ ht.bucket i := by
  rw [List.mem_flatten] at h
  obtain ⟨l, hl, he⟩ := h
  obtain ⟨⟨i, hi⟩, hget⟩ := List.mem_iff_get.mp hl
  refine ⟨i, hi, ?_⟩
  rw [DictHt.bucket, List.getD, List.get?_eq_get hi, hget]
  exact he

theorem used_eq_zero_flatten {V : Type} {ht : DictHt V}
    (h : ht.used = 0) : ht.table.flatten = [] := by
  rw [← List.length_eq_zero, List.length_flatten]
  exact h

theorem moveBucket_size {V : Type} (hash : List ℕ → ℕ) (ht1 : DictHt V)
    (b : List (DictEntry V)) : (moveBucket hash ht1 b).size = ht1.size := by
  induction b generalizing ht1 with
  | nil => rfl
  | cons de rest ih =>
    simp only [moveBucket]
    rw [ih, DictHt.size_setBucket]

theorem moveBucket_flatten_perm {V : Type} (hash : List ℕ → ℕ)
    (ht1 : DictHt V) (b : List (DictEntry V)) (hsz : 0 < ht1.size) :
    ((moveBucket hash ht1 b).table.flatten).Perm (b ++ ht1.table.flatten) := by
  induction b generalizing ht1 with
  | nil => exact List.Perm.refl _
  | cons de rest ih =>
    simp only [moveBucket]
    have hlt : hash de.key &&& ht1.sizemask < ht1.size := by
      have := Nat.and_le_right (n := hash de.key) (m := ht1.sizemask)
      simp only [DictHt.sizemask] at this ⊢
      omega
    have hst : 0 < (ht1.setBucket (hash de.key &&& ht1.sizemask)
        (de :: ht1.bucket (hash de.key &&& ht1.sizemask))).size := by
      rw [DictHt.size_setBucket]; exact hsz
    have h1 := ih (ht1.setBucket (hash de.key &&& ht1.sizemask)
      (de :: ht1.bucket (hash de.key &&& ht1.sizemask))) hst
    have h2 : ((ht1.setBucket (hash de.key &&& ht1.sizemask)
        (de :: ht1.bucket (hash de.key &&& ht1.sizemask))).table.flatten).Perm
        (de :: ht1.table.flatten) :=
      flatten_set_cons_perm ht1.table _ de hlt
    have h3 := h1.trans (List.Perm.append_left rest h2)
    exact h3.trans List.perm_middle

theorem moveBucket_placement {V : Type} (hash : List ℕ → ℕ)
    (ht1 : DictHt V) (b : List (DictEntry V))
    (hpl : ∀ i < ht1.size, ∀ e ∈ ht1.bucket i, hash e.key &&& ht1.sizemask = i) :
    ∀ i < (moveBucket hash ht1 b).size, ∀ e ∈ (moveBucket hash ht1 b).bucket i,
      hash e.key &&& (moveBucket hash ht1 b).sizemask = i := by
  induction b generalizing ht1 with
  | nil => exact hpl
  | cons de rest ih =>
    simp only [moveBucket]
    apply ih
    intro i hi e he
    rw [DictHt.size_setBucket] at hi
    have hsm : (ht1.setBucket (hash de.key &&& ht1.sizemask)
        (de :: ht1.bucket (hash de.key &&& ht1.sizemask))).sizemask
          = ht1.sizemask := by
      simp [DictHt.sizemask, DictHt.size_setBucket]
    rw [hsm]
    by_cases hieq : hash de.key &&& ht1.sizemask = i
    · rw [← hieq] at hi he ⊢
      rw [DictHt.bucket_setBucket_eq _ _ _ hi] at he
      rcases List.mem_cons.mp he with he1 | he2
      · subst he1
        rfl
      · exact hpl _ hi e he2
    · rw [DictHt.bucket_setBucket_ne _ _ _ _ hieq] at he
      exact hpl i hi e he

theorem find?_range'_some {p : ℕ → Bool} {r cnt j : ℕ}
    (h : (List.range' r cnt).find? p = some j) :
    r ≤ j ∧ j < r + cnt ∧ p j = true ∧ ∀ t, r ≤ t → t < j → p t = false := by
  induction cnt generalizing r with
  | zero => simp [List.range'] at h
  | succ cnt ih =>
    simp only [List.range'] at h
    by_cases hp : p r
    · rw [List.find?_cons_of_pos _ hp] at h
      injection h with h
      subst h
      exact ⟨le_refl _, by omega, hp, fun t ht1 ht2 => by omega⟩
    · rw [List.find?_cons_of_neg _ hp] at h
      obtain ⟨h1, h2, h3, h4⟩ := ih h
      refine ⟨by omega, by omega, h3, ?_⟩
      intro t ht1 ht2
      rcases Nat.eq_or_lt_of_le ht1 with he | hl
      · subst he
        cases hpr : p r
        · rfl
        · exact absurd hpr hp
      · exact h4 t hl ht2

theorem findNonEmptyFrom_some {V : Type} {ht : DictHt V} {r j : ℕ}
    (h : findNonEmptyFrom ht r = some j) :
    r ≤ j ∧ j < ht.size ∧ ht.bucket j ≠ [] ∧
      ∀ t, r ≤ t → t < j → ht.bucket t = [] := by
  obtain ⟨h1, h2, h3, h4⟩ := find?_range'_some h
  refine ⟨h1, by omega, ?_, ?_⟩
  · intro hnil
    rw [hnil] at h3
    simp at h3
  · intro t ht1 ht2
    have hf := h4 t ht1 ht2
    simp only [Bool.not_eq_false'] at hf
    simpa using hf

theorem _dictNextPowerLoop_pos (size i fuel : ℕ) (hi : 1 ≤ i) :
    1 ≤ _dictNextPowerLoop size i fuel := by
  induction fuel generalizing i with
  | zero => simpa [_dictNextPowerLoop]
  | succ fuel ih =>
    simp only [_dictNextPowerLoop]
    split_ifs
    · exact hi
    · exact ih (i * 2) (by omega)

theorem _dictNextPower_pos (size : ℕ) : 1 ≤ _dictNextPower size :=
  _dictNextPowerLoop_pos size DICT_HT_INITIAL_SIZE size (by decide)

theorem bucket_replicate {V : Type} (n i : ℕ) :
    (⟨List.replicate n []⟩ : DictHt V).bucket i = [] := by
  rw [DictHt.bucket, List.getD]
  cases hg : (List.replicate n ([] : List (DictEntry V))).get? i with
  | none => rfl
  | some b =>
    have := List.get?_mem hg
    have hb := List.eq_of_mem_replicate this
    rw [hb]
    rfl

theorem dictIsRehashing_false {V : Type} {d : Dict V}
    (h : dictIsRehashing d = false) : d.rehashidx = -1 := by
  simpa [dictIsRehashing] using h

theorem dictIsRehashing_true {V : Type} {d : Dict V}
    (h : dictIsRehashing d = true) : d.rehashidx ≠ -1 := by
  simpa [dictIsRehashing] using h

theorem ht_size_zero_table {V : Type} {ht : DictHt V} (h : ht.size = 0) :
    ht.table = [] := by
  rw [DictHt.size] at h
  exact List.length_eq_zero.mp h

theorem expandIfNeeded_spec {V : Type} (hash : List ℕ → ℕ) (canResize : Bool)
    (d : Dict V) (hwf : DictWF hash d) :
    (_dictExpandIfNeeded canResize d).2 = true ∧
    DictWF hash (_dictExpandIfNeeded canResize d).1 ∧
    dictEntries (_dictExpandIfNeeded canResize d).1 = dictEntries d ∧
    (dictIsRehashing (_dictExpandIfNeeded canResize d).1 = false →
      0 < (_dictExpandIfNeeded canResize d).1.ht0.size) := by
  unfold _dictExpandIfNeeded
  split_ifs with h1 h2 h3
  · refine ⟨rfl, hwf, rfl, ?_⟩
    intro hfalse
    rw [h1] at hfalse
    exact Bool.noConfusion hfalse
  · -- first initialization: ht0 absent, expand to DICT_HT_INITIAL_SIZE
    have h0tab : d.ht0.table = [] := ht_size_zero_table h2
    have h1sz : d.ht1.size = 0 := hwf.ht0_empty h2
    have h1tab : d.ht1.table = [] := ht_size_zero_table h1sz
    have hused : d.ht0.used = 0 := by
      rw [DictHt.used, h0tab]
      rfl
    have hridx : d.rehashidx = -1 := by
      cases hb : dictIsRehashing d
      · exact dictIsRehashing_false hb
      · exact absurd hb h1
    unfold dictExpand
    dsimp only
    split_ifs with hg hie
    · exfalso
      rcases hg with hg | hg
      · exact h1 hg
      · omega
    · refine ⟨rfl, ?_, ?_, ?_⟩
      · refine ⟨?_, ?_, ?_, ?_, ?_, ?_, ?_, ?_⟩
        · intro i hi e he
          rw [bucket_replicate] at he
          simp at he
        · exact hwf.placement1
        · have hk : (⟨List.replicate (_dictNextPower DICT_HT_INITIAL_SIZE) []⟩
              : DictHt V).table.flatten = d.ht0.table.flatten := by
            rw [h0tab]
            exact flatten_replicate_nil _
          dsimp only
          rw [hk]
          exact hwf.nodupKeys
        · dsimp only
          rw [hridx]
          exact ⟨fun _ => h1sz, fun _ => rfl⟩
        · dsimp only
          rw [hridx]
          intro hc
          exact absurd rfl hc
        · dsimp only
          rw [hridx]
          intro hc
          exact absurd rfl hc
        · intro j hj
          dsimp only at hj
          rw [hridx] at hj
          simp at hj
        · intro hc
          dsimp only [DictHt.size] at hc
          rw [List.length_replicate] at hc
          have := _dictNextPower_pos DICT_HT_INITIAL_SIZE
          omega
      · simp [dictEntries, flatten_replicate_nil, h0tab]
      · intro _
        dsimp only [DictHt.size]
        rw [List.length_replicate]
        have := _dictNextPower_pos DICT_HT_INITIAL_SIZE
        omega
    · exfalso
      rw [h0tab] at hie
      simp at hie
  · -- grow: install a fresh ht1 and start rehashing
    have hridx : d.rehashidx = -1 := by
      cases hb : dictIsRehashing d
      · exact dictIsRehashing_false hb
      · exact absurd hb h1
    have h1sz : d.ht1.size = 0 := (hwf.rehash_iff).mp hridx
    have h1tab : d.ht1.table = [] := ht_size_zero_table h1sz
    unfold dictExpand
    dsimp only
    split_ifs with hg hie
    · exfalso
      rcases hg with hg | hg
      · exact h1 hg
      · omega
    · exfalso
      rw [List.isEmpty_iff] at hie
      have : d.ht0.size = 0 := by
        rw [DictHt.size, hie]
        rfl
      exact h2 this
    · refine ⟨rfl, ?_, ?_, ?_⟩
      · refine ⟨?_, ?_, ?_, ?_, ?_, ?_, ?_, ?_⟩
        · exact hwf.placement0
        · intro i hi e he
          rw [bucket_replicate] at he
          simp at he
        · have hk : (⟨List.replicate (_dictNextPower (d.ht0.used * 2)) []⟩
              : DictHt V).table.flatten = d.ht1.table.flatten := by
            rw [h1tab]
            exact flatten_replicate_nil _
          dsimp only
          rw [hk]
          exact hwf.nodupKeys
        · dsimp only
          constructor
          · intro hc
            exact absurd hc (by decide)
          · intro hc
            dsimp only [DictHt.size] at hc
            rw [List.length_replicate] at hc
            have := _dictNextPower_pos (d.ht0.used * 2)
            omega
        · intro _
          exact le_refl _
        · intro _
          dsimp only
          exact Nat.zero_le _
        · intro j hj
          dsimp only at hj
          simp at hj
        · intro hc
          dsimp only at hc
          exact absurd hc h2
      · simp [dictEntries, flatten_replicate_nil, h1tab]
      · intro hfalse
        dsimp only [dictIsRehashing] at hfalse
        simp at hfalse
  · refine ⟨rfl, hwf, rfl, ?_⟩
    intro _
    dsimp only
    omega

theorem dictRehashLoop_one {V : Type} (hash : List ℕ → ℕ) (d : Dict V) :
    dictRehashLoop hash 1 d
      = if d.ht0.used = 0 then (⟨d.ht1, DictHt.reset, -1, d.iterators⟩, false)
        else
          match findNonEmptyFrom d.ht0 d.rehashidx.toNat with
          | none => (d, true)
          | some ridx =>
            ({ d with ht0 := d.ht0.setBucket ridx [],
                      ht1 := moveBucket hash d.ht1 (d.ht0.bucket ridx),
                      rehashidx := (ridx : ℤ) + 1 }, true) := rfl

theorem rehashStep_spec {V : Type} (hash : List ℕ → ℕ) (d : Dict V)
    (hwf : DictWF hash d) :
    DictWF hash (_dictRehashStep hash d) ∧
    (dictEntries (_dictRehashStep hash d)).Perm (dictEntries d) := by
  unfold _dictRehashStep
  split_ifs with hit
  · unfold dictRehash
    split_ifs with hrh
    swap
    · exact ⟨hwf, List.Perm.refl _⟩
    rw [dictRehashLoop_one]
    split_ifs with hu
    · -- ht[0] drained: swap the tables in
      have h0f : d.ht0.table.flatten = [] := used_eq_zero_flatten hu
      constructor
      · refine ⟨hwf.placement1, ?_, ?_, ?_, ?_, ?_, ?_, ?_⟩
        · intro i hi e he
          dsimp only [DictHt.reset, DictHt.size] at hi
          simp at hi
        · have hn := hwf.nodupKeys
          rw [h0f] at hn
          dsimp only [DictHt.reset]
          simpa using hn
        · exact ⟨fun _ => rfl, fun _ => rfl⟩
        · intro h
          exact absurd rfl h
        · intro h
          exact absurd rfl h
        · intro j hj
          dsimp only at hj
          simp at hj
        · intro _
          rfl
      · have he : dictEntries (⟨d.ht1, DictHt.reset, -1, d.iterators⟩ : Dict V)
            = dictEntries d := by
          simp [dictEntries, h0f, DictHt.reset]
        rw [he]
    · cases hfind : findNonEmptyFrom d.ht0 d.rehashidx.toNat with
      | none => exact ⟨hwf, List.Perm.refl _⟩
      | some ridx =>
        dsimp only
        obtain ⟨hr1, hr2, hr3, hr4⟩ := findNonEmptyFrom_some hfind
        have hridx_ne : d.rehashidx ≠ -1 := dictIsRehashing_true hrh
        have h1pos : 0 < d.ht1.size := by
          rcases Nat.eq_zero_or_pos d.ht1.size with h | h
          · exact absurd ((hwf.rehash_iff).mpr h) hridx_ne
          · exact h
        have e1 : ((moveBucket hash d.ht1 (d.ht0.bucket ridx)).table.flatten).Perm
            (d.ht0.bucket ridx ++ d.ht1.table.flatten) :=
          moveBucket_flatten_perm hash d.ht1 _ h1pos
        have e2 : (d.ht0.table.flatten).Perm
            (d.ht0.bucket ridx ++ (d.ht0.setBucket ridx []).table.flatten) :=
          flatten_set_nil_perm d.ht0.table ridx hr2
        have hperm : ((d.ht0.setBucket ridx []).table.flatten
              ++ (moveBucket hash d.ht1 (d.ht0.bucket ridx)).table.flatten).Perm
            (d.ht0.table.flatten ++ d.ht1.table.flatten) := by
          have s1 := List.Perm.append_left (d.ht0.setBucket ridx []).table.flatten e1
          have s2 : ((d.ht0.setBucket ridx []).table.flatten
              ++ (d.ht0.bucket ridx ++ d.ht1.table.flatten)).Perm
              ((d.ht0.bucket ridx ++ (d.ht0.setBucket ridx []).table.flatten)
                ++ d.ht1.table.flatten) := by
            rw [← List.append_assoc]
            exact List.perm_append_comm.append_right _
          have s3 := (e2.symm).append_right d.ht1.table.flatten
          exact (s1.trans s2).trans s3
        constructor
        · refine ⟨?_, ?_, ?_, ?_, ?_, ?_, ?_, ?_⟩
          · intro i hi e he
            rw [DictHt.size_setBucket] at hi
            have hsm : (d.ht0.setBucket ridx []).sizemask = d.ht0.sizemask := by
              simp [DictHt.sizemask, DictHt.size_setBucket]
            rw [hsm]
            by_cases hieq : ridx = i
            · rw [← hieq, DictHt.bucket_setBucket_eq _ _ _ hr2] at he
              simp at he
            · rw [DictHt.bucket_setBucket_ne _ _ _ _ hieq] at he
              exact hwf.placement0 i hi e he
          · exact moveBucket_placement hash d.ht1 _ hwf.placement1
          · exact ((hperm.map (fun e => e.key)).nodup_iff).mpr hwf.nodupKeys
          · constructor
            · intro h
              dsimp only at h
              omega
            · intro h
              dsimp only at h
              rw [moveBucket_size] at h
              omega
          · intro _
            dsimp only
            omega
          · intro _
            dsimp only
            rw [DictHt.size_setBucket]
            have : ((ridx : ℤ) + 1).toNat = ridx + 1 := by omega
            rw [this]
            omega
          · intro j hj
            dsimp only at hj
            have hj' : j < ridx + 1 := by omega
            by_cases hje : ridx = j
            · rw [← hje]
              exact DictHt.bucket_setBucket_eq _ _ _ hr2
            · rw [DictHt.bucket_setBucket_ne _ _ _ _ hje]
              rcases Nat.lt_or_ge j d.rehashidx.toNat with hlt | hge
              · exact hwf.skipped_empty j hlt
              · exact hr4 j hge (by omega)
          · intro h
            dsimp only at h
            rw [DictHt.size_setBucket] at h
            omega
        · exact hperm.map _
  · exact ⟨hwf, List.Perm.refl _⟩

theorem bucketContains_iff {V : Type} (b : List (DictEntry V)) (key : List ℕ) :
    bucketContains b key = true ↔ ∃ e ∈ b, e.key = key := by
  simp [bucketContains, List.any_eq_true]

theorem ht_contains_of_mem {V : Type} {hash : List ℕ → ℕ} {ht : DictHt V}
    (hpl : ∀ i < ht.size, ∀ e ∈ ht.bucket i, hash e.key &&& ht.sizemask = i)
    {e : DictEntry V} (he : e ∈ ht.table.flatten) :
    bucketContains (ht.bucket (hash e.key &&& ht.sizemask)) e.key = true := by
  obtain ⟨i, hi, hbi⟩ := mem_flatten_bucket he
  have hidx := hpl i hi e hbi
  rw [hidx]
  exact (bucketContains_iff _ _).mpr ⟨e, hbi, rfl⟩

theorem ht_mem_of_contains {V : Type} {ht : DictHt V} {idx : ℕ} {key : List ℕ}
    (h : bucketContains (ht.bucket idx) key = true) :
    ∃ e ∈ ht.table.flatten, e.key = key := by
  obtain ⟨e, he, hk⟩ := (bucketContains_iff _ _).mp h
  exact ⟨e, bucket_mem_flatten he, hk⟩

theorem dictEntries_keys {V : Type} (d : Dict V) :
    (dictEntries d).map Prod.fst
      = (d.ht0.table.flatten ++ d.ht1.table.flatten).map (fun e => e.key) := by
  simp [dictEntries, List.map_map]
  rfl

theorem keyPresent_iff {V : Type} {hash : List ℕ → ℕ} {d : Dict V}
    (hwf : DictWF hash d) (key : List ℕ) :
    (key ∈ (dictEntries d).map Prod.fst) ↔
      (bucketContains (d.ht0.bucket (hash key &&& d.ht0.sizemask)) key = true ∨
        (dictIsRehashing d = true ∧
          bucketContains (d.ht1.bucket (hash key &&& d.ht1.sizemask)) key
            = true)) := by
  rw [dictEntries_keys]
  constructor
  · intro h
    rw [List.mem_map] at h
    obtain ⟨e, he, hk⟩ := h
    rw [List.mem_append] at he
    rcases he with he | he
    · left
      have := ht_contains_of_mem hwf.placement0 he
      rwa [hk] at this
    · cases hrh : dictIsRehashing d
      · exfalso
        have h1sz : d.ht1.size = 0 :=
          (hwf.rehash_iff).mp (dictIsRehashing_false hrh)
        rw [ht_size_zero_table h1sz] at he
        simp at he
      · right
        refine ⟨rfl, ?_⟩
        have := ht_contains_of_mem hwf.placement1 he
        rwa [hk] at this
  · intro h
    rw [List.mem_map]
    rcases h with h | ⟨-, h⟩
    · obtain ⟨e, he, hk⟩ := ht_mem_of_contains h
      exact ⟨e, List.mem_append.mpr (Or.inl he), hk⟩
    · obtain ⟨e, he, hk⟩ := ht_mem_of_contains h
      exact ⟨e, List.mem_append.mpr (Or.inr he), hk⟩

theorem keyIndex_spec {V : Type} (hash : List ℕ → ℕ) (canResize : Bool)
    (d : Dict V) (key : List ℕ) (hwf : DictWF hash d) :
    DictWF hash (_dictKeyIndex hash canResize d key).1 ∧
    dictEntries (_dictKeyIndex hash canResize d key).1 = dictEntries d ∧
    ((_dictKeyIndex hash canResize d key).2 = none ↔
      key ∈ (dictEntries d).map Prod.fst) ∧
    (∀ idx, (_dictKeyIndex hash canResize d key).2 = some idx →
      (dictIsRehashing (_dictKeyIndex hash canResize d key).1 = true →
        idx = hash key &&& (_dictKeyIndex hash canResize d key).1.ht1.sizemask ∧
        idx < (_dictKeyIndex hash canResize d key).1.ht1.size) ∧
      (dictIsRehashing (_dictKeyIndex hash canResize d key).1 = false →
        idx = hash key &&& (_dictKeyIndex hash canResize d key).1.ht0.sizemask ∧
        idx < (_dictKeyIndex hash canResize d key).1.ht0.size)) := by
  obtain ⟨hok, hwf1, hent, hpos⟩ := expandIfNeeded_spec hash canResize d hwf
  unfold _dictKeyIndex
  rcases hX : _dictExpandIfNeeded canResize d with ⟨d1, ok⟩
  rw [hX] at hok hwf1 hent hpos
  dsimp only at hok hwf1 hent hpos ⊢
  subst hok
  dsimp only
  have hkp := keyPresent_iff hwf1 key
  rw [hent] at hkp
  by_cases hc0 : bucketContains (d1.ht0.bucket (hash key &&& d1.ht0.sizemask))
      key = true
  · rw [if_pos hc0]
    refine ⟨hwf1, hent, ⟨fun _ => hkp.mpr (Or.inl hc0), fun _ => rfl⟩, ?_⟩
    intro idx hidx
    exact absurd hidx (by simp)
  · rw [if_neg hc0]
    by_cases hrh : dictIsRehashing d1 = true
    · rw [if_neg (show ¬¬(dictIsRehashing d1 = true) from not_not_intro hrh)]
      by_cases hc1 : bucketContains
          (d1.ht1.bucket (hash key &&& d1.ht1.sizemask)) key = true
      · rw [if_pos hc1]
        refine ⟨hwf1, hent,
          ⟨fun _ => hkp.mpr (Or.inr ⟨hrh, hc1⟩), fun _ => rfl⟩, ?_⟩
        intro idx hidx
        exact absurd hidx (by simp)
      · rw [if_neg hc1]
        refine ⟨hwf1, hent, ?_, ?_⟩
        · constructor
          · intro h
            exact absurd h (by simp)
          · intro hpres
            exfalso
            rcases hkp.mp hpres with h | ⟨-, h1⟩
            · exact hc0 h
            · exact hc1 h1
        · intro idx hidx
          injection hidx with hidx
          subst hidx
          constructor
          · intro _
            dsimp only
            refine ⟨rfl, ?_⟩
            have h1sz : 0 < d1.ht1.size := by
              have hne : d1.rehashidx ≠ -1 := dictIsRehashing_true hrh
              rcases Nat.eq_zero_or_pos d1.ht1.size with h | h
              · exact absurd ((hwf1.rehash_iff).mpr h) hne
              · exact h
            have hb := Nat.and_le_right (n := hash key) (m := d1.ht1.sizemask)
            rw [DictHt.sizemask] at hb ⊢
            omega
          · intro hcon
            dsimp only at hcon
            rw [hrh] at hcon
            exact Bool.noConfusion hcon
    · have hfalse : dictIsRehashing d1 = false := by
        cases hb : dictIsRehashing d1
        · rfl
        · exact absurd hb hrh
      rw [if_pos hrh]
      refine ⟨hwf1, hent, ?_, ?_⟩
      · constructor
        · intro h
          exact absurd h (by simp)
        · intro hpres
          exfalso
          rcases hkp.mp hpres with h | ⟨hr, -⟩
          · exact hc0 h
          · exact hrh hr
      · intro idx hidx
        injection hidx with hidx
        subst hidx
        constructor
        · intro hcon
          dsimp only at hcon
          rw [hfalse] at hcon
          exact Bool.noConfusion hcon
        · intro _
          dsimp only
          refine ⟨rfl, ?_⟩
          have hsz : 0 < d1.ht0.size := hpos hfalse
          have hb := Nat.and_le_right (n := hash key) (m := d1.ht0.sizemask)
          rw [DictHt.sizemask] at hb ⊢
          omega

theorem dictAdd_spec {V : Type} (hash : List ℕ → ℕ) (canResize : Bool)
    (d : Dict V) (key : List ℕ) (val : V) (hwf : DictWF hash d) :
    ((dictAdd hash canResize d key val).2 = false ↔
      key ∈ (dictEntries d).map Prod.fst) ∧
    ((dictAdd hash canResize d key val).2 = false →
      ((dictEntries (dictAdd hash canResize d key val).1).Perm
        (dictEntries d))) ∧
    ((dictAdd hash canResize d key val).2 = true →
      ((dictEntries (dictAdd hash canResize d key val).1).Perm
          ((key, val) :: dictEntries d)) ∧
      (dictIsRehashing (dictAdd hash canResize d key val).1 = true →
        (⟨key, val⟩ : DictEntry V)
          ∈ (dictAdd hash canResize d key val).1.ht1.table.flatten) ∧
      (dictIsRehashing (dictAdd hash canResize d key val).1 = false →
        (⟨key, val⟩ : DictEntry V)
          ∈ (dictAdd hash canResize d key val).1.ht0.table.flatten) ∧
      DictWF hash (dictAdd hash canResize d key val).1) := by
  unfold dictAdd
  dsimp only
  have hD0wf : DictWF hash
      (if dictIsRehashing d then _dictRehashStep hash d else d) := by
    split_ifs with h
    · exact (rehashStep_spec hash d hwf).1
    · exact hwf
  have hD0perm : (dictEntries
      (if dictIsRehashing d then _dictRehashStep hash d else d)).Perm
      (dictEntries d) := by
    split_ifs with h
    · exact (rehashStep_spec hash d hwf).2
    · exact List.Perm.refl _
  obtain ⟨hwf1, hent1, hnone_iff, hsome⟩ :=
    keyIndex_spec hash canResize
      (if dictIsRehashing d then _dictRehashStep hash d else d) key hD0wf
  have hkeys := hD0perm.map Prod.fst
  rcases hK : _dictKeyIndex hash canResize
      (if dictIsRehashing d then _dictRehashStep hash d else d) key
    with ⟨d1, res⟩
  rw [hK] at hwf1 hent1 hnone_iff hsome
  dsimp only at hwf1 hent1 hnone_iff hsome ⊢
  cases res with
  | none =>
    dsimp only
    refine ⟨⟨fun _ => ?_, fun _ => rfl⟩, fun _ => ?_, fun hcon => absurd hcon
      (by simp)⟩
    · exact hkeys.mem_iff.mp (hnone_iff.mp rfl)
    · rw [hent1]
      exact hD0perm
  | some idx =>
    dsimp only
    obtain ⟨hb1, hb0⟩ := hsome idx rfl
    have hnotpres : key ∉ (dictEntries d).map Prod.fst := by
      intro hp
      have hcon : (some idx : Option ℕ) = none :=
        hnone_iff.mpr (hkeys.mem_iff.mpr hp)
      exact absurd hcon (by simp)
    have hd1perm : (dictEntries d1).Perm (dictEntries d) := by
      rw [hent1]
      exact hD0perm
    by_cases hrh : dictIsRehashing d1 = true
    · rw [if_pos hrh]
      obtain ⟨hidx_eq, hidx_lt⟩ := hb1 hrh
      have hflat : ((d1.ht1.setBucket idx
            ((⟨key, val⟩ : DictEntry V) :: d1.ht1.bucket idx)).table.flatten).Perm
          ((⟨key, val⟩ : DictEntry V) :: d1.ht1.table.flatten) :=
        flatten_set_cons_perm d1.ht1.table idx _ hidx_lt
      have hap : ((d1.ht0.table.flatten ++ (d1.ht1.setBucket idx
            ((⟨key, val⟩ : DictEntry V) :: d1.ht1.bucket idx)).table.flatten)).Perm
          ((⟨key, val⟩ : DictEntry V)
            :: (d1.ht0.table.flatten ++ d1.ht1.table.flatten)) :=
        (List.Perm.append_left _ hflat).trans List.perm_middle
      have hknotd1 : key ∉ ((d1.ht0.table.flatten
          ++ d1.ht1.table.flatten).map (fun e => e.key)) := by
        intro hin
        rw [← dictEntries_keys] at hin
        exact hnotpres ((hd1perm.map Prod.fst).mem_iff.mp hin)
      refine ⟨⟨fun hcon => Bool.noConfusion hcon, fun hp => absurd hp hnotpres⟩,
        fun hcon => Bool.noConfusion hcon, fun _ => ⟨?_, ?_, ?_, ?_⟩⟩
      · exact (hap.map (fun e : DictEntry V => (e.key, e.val))).trans
          (hd1perm.cons _)
      · intro _
        show (⟨key, val⟩ : DictEntry V) ∈ (d1.ht1.setBucket idx
          ((⟨key, val⟩ : DictEntry V) :: d1.ht1.bucket idx)).table.flatten
        apply bucket_mem_flatten (i := idx)
        rw [DictHt.bucket_setBucket_eq _ _ _ hidx_lt]
        exact List.mem_cons_self _ _
      · intro hcon
        have hcon' : dictIsRehashing d1 = false := hcon
        rw [hrh] at hcon'
        exact Bool.noConfusion hcon'
      · refine ⟨hwf1.placement0, ?_, ?_, ?_, hwf1.rehashidx_nonneg,
          hwf1.rehashidx_le, hwf1.skipped_empty, ?_⟩
        · intro j hj e' he'
          rw [DictHt.size_setBucket] at hj
          have hsm : (d1.ht1.setBucket idx
              ((⟨key, val⟩ : DictEntry V) :: d1.ht1.bucket idx)).sizemask
                = d1.ht1.sizemask := by
            simp [DictHt.sizemask, DictHt.size_setBucket]
          rw [hsm]
          by_cases hij : idx = j
          · rw [← hij] at he' hj ⊢
            rw [DictHt.bucket_setBucket_eq _ _ _ hidx_lt] at he'
            rcases List.mem_cons.mp he' with he1 | he2
            · rw [he1]
              exact hidx_eq.symm
            · exact hwf1.placement1 idx hj e' he2
          · rw [DictHt.bucket_setBucket_ne _ _ _ _ hij] at he'
            exact hwf1.placement1 j hj e' he'
        · refine ((hap.map (fun e => e.key)).nodup_iff).mpr ?_
          exact List.nodup_cons.mpr ⟨hknotd1, hwf1.nodupKeys⟩
        · constructor
          · intro h
            rw [DictHt.size_setBucket]
            exact (hwf1.rehash_iff).mp h
          · intro h
            rw [DictHt.size_setBucket] at h
            exact (hwf1.rehash_iff).mpr h
        · intro h
          rw [DictHt.size_setBucket]
          exact hwf1.ht0_empty h
    · have hfalse : dictIsRehashing d1 = false := by
        cases hb : dictIsRehashing d1
        · rfl
        · exact absurd hb hrh
      rw [if_neg hrh]
      obtain ⟨hidx_eq, hidx_lt⟩ := hb0 hfalse
      have hflat : ((d1.ht0.setBucket idx
            ((⟨key, val⟩ : DictEntry V) :: d1.ht0.bucket idx)).table.flatten).Perm
          ((⟨key, val⟩ : DictEntry V) :: d1.ht0.table.flatten) :=
        flatten_set_cons_perm d1.ht0.table idx _ hidx_lt
      have hap : (((d1.ht0.setBucket idx
            ((⟨key, val⟩ : DictEntry V) :: d1.ht0.bucket idx)).table.flatten
              ++ d1.ht1.table.flatten)).Perm
          ((⟨key, val⟩ : DictEntry V)
            :: (d1.ht0.table.flatten ++ d1.ht1.table.flatten)) :=
        (hflat.append_right _).trans (List.Perm.refl _)
      have hknotd1 : key ∉ ((d1.ht0.table.flatten
          ++ d1.ht1.table.flatten).map (fun e => e.key)) := by
        intro hin
        rw [← dictEntries_keys] at hin
        exact hnotpres ((hd1perm.map Prod.fst).mem_iff.mp hin)
      have hridx1 : d1.rehashidx = -1 := dictIsRehashing_false hfalse
      refine ⟨⟨fun hcon => Bool.noConfusion hcon, fun hp => absurd hp hnotpres⟩,
        fun hcon => Bool.noConfusion hcon, fun _ => ⟨?_, ?_, ?_, ?_⟩⟩
      · exact (hap.map (fun e : DictEntry V => (e.key, e.val))).trans
          (hd1perm.cons _)
      · intro hcon
        have hcon' : dictIsRehashing d1 = true := hcon
        rw [hfalse] at hcon'
        exact Bool.noConfusion hcon'
      · intro _
        show (⟨key, val⟩ : DictEntry V) ∈ (d1.ht0.setBucket idx
          ((⟨key, val⟩ : DictEntry V) :: d1.ht0.bucket idx)).table.flatten
        apply bucket_mem_flatten (i := idx)
        rw [DictHt.bucket_setBucket_eq _ _ _ hidx_lt]
        exact List.mem_cons_self _ _
      · refine ⟨?_, hwf1.placement1, ?_, hwf1.rehash_iff,
          hwf1.rehashidx_nonneg, ?_, ?_, ?_⟩
        · intro j hj e' he'
          rw [DictHt.size_setBucket] at hj
          have hsm : (d1.ht0.setBucket idx
              ((⟨key, val⟩ : DictEntry V) :: d1.ht0.bucket idx)).sizemask
                = d1.ht0.sizemask := by
            simp [DictHt.sizemask, DictHt.size_setBucket]
          rw [hsm]
          by_cases hij : idx = j
          · rw [← hij] at he' hj ⊢
            rw [DictHt.bucket_setBucket_eq _ _ _ hidx_lt] at he'
            rcases List.mem_cons.mp he' with he1 | he2
            · rw [he1]
              exact hidx_eq.symm
            · exact hwf1.placement0 idx hj e' he2
          · rw [DictHt.bucket_setBucket_ne _ _ _ _ hij] at he'
            exact hwf1.placement0 j hj e' he'
        · refine ((hap.map (fun e => e.key)).nodup_iff).mpr ?_
          exact List.nodup_cons.mpr ⟨hknotd1, hwf1.nodupKeys⟩
        · intro h
          rw [DictHt.size_setBucket]
          exact hwf1.rehashidx_le h
        · intro j hj
          rw [hridx1] at hj
          simp at hj
        · intro h
          rw [DictHt.size_setBucket] at h
          exact hwf1.ht0_empty h


/-- C6: for every well-formed dictionary and key, `dictAdd` fails with the
duplicate error exactly when the key is already stored in one of the two
hash tables; on that error the stored key-value pairs are unchanged (up to
order — the piggy-backed rehash step may migrate a bucket), and when the
key is absent the operation succeeds, the stored pairs gain exactly the
new `(key, value)` mapping, and the new entry is linked into the secondary
table `ht[1]` when incremental rehashing is in progress and into `ht[0]`
otherwise. -/
theorem C6_dict_add_strict {V : Type} (hash : List ℕ → ℕ) (canResize : Bool)
    (d : Dict V) (key : List ℕ) (val : V) (hwf : DictWF hash d) :
    ((dictAdd hash canResize d key val).2 = false ↔
      key ∈ (dictEntries d).map Prod.fst) ∧
    ((dictAdd hash canResize d key val).2 = false →
      ((dictEntries (dictAdd hash canResize d key val).1).Perm
        (dictEntries d))) ∧
    ((dictAdd hash canResize d key val).2 = true →
      ((dictEntries (dictAdd hash canResize d key val).1).Perm
          ((key, val) :: dictEntries d)) ∧
      (dictIsRehashing (dictAdd hash canResize d key val).1 = true →
        (⟨key, val⟩ : DictEntry V)
          ∈ (dictAdd hash canResize d key val).1.ht1.table.flatten) ∧
      (dictIsRehashing (dictAdd hash canResize d key val).1 = false →
        (⟨key, val⟩ : DictEntry V)
          ∈ (dictAdd hash canResize d key val).1.ht0.table.flatten)) := by
  obtain ⟨h1, h2, h3⟩ := dictAdd_spec hash canResize d key val hwf
  exact ⟨h1, h2, fun hok => ⟨(h3 hok).1, (h3 hok).2.1, (h3 hok).2.2.1⟩⟩

theorem C6_dict_add_strict_witness :
    (dictAdd (fun _ => 0) true (dictCreate ℕ) [7] 5).2 = true ∧
    ((dictEntries (dictAdd (fun _ => 0) true (dictCreate ℕ) [7] 5).1).Perm
      (([7], 5) :: dictEntries (dictCreate ℕ))) ∧
    (dictAdd (fun _ => 0) true (dictCreate ℕ) [7] 5).2 ≠ false := by
  have hwf : DictWF (fun _ => 0) (dictCreate ℕ) := by
    refine ⟨?_, ?_, ?_, ?_, ?_, ?_, ?_, ?_⟩
    · intro i hi
      simp [dictCreate, DictHt.reset, DictHt.size] at hi
    · intro i hi
      simp [dictCreate, DictHt.reset, DictHt.size] at hi
    · decide
    · decide
    · decide
    · decide
    · intro j hj
      simp [dictCreate] at hj
    · decide
  have h := C6_dict_add_strict (fun _ => 0) true (dictCreate ℕ) [7] 5 hwf
  have hok : (dictAdd (fun _ => 0) true (dictCreate ℕ) [7] 5).2 = true := by
    decide
  refine ⟨hok, (h.2.2 hok).1, ?_⟩
  rw [hok]
  exact Bool.noConfusion

theorem insertIdx_perm {α : Type} (l : List α) (n : ℕ) (a : α)
    (h : n ≤ l.length) : (l.insertIdx n a).Perm (a :: l) := by
  induction l generalizing n with
  | nil =>
    cases n with
    | zero => exact List.Perm.refl _
    | succ m => simp at h
  | cons x xs ih =>
    cases n with
    | zero => exact List.Perm.refl _
    | succ m =>
      rw [List.insertIdx_succ_cons]
      refine (List.Perm.cons x (ih m (by simpa using h))).trans ?_
      exact List.Perm.swap a x xs

theorem eraseIdx_cons_perm {α : Type} {l : List α} {j : ℕ} {x : α}
    (h : l.get? j = some x) : l.Perm (x :: l.eraseIdx j) := by
  induction l generalizing j with
  | nil => simp at h
  | cons b tl ih =>
    cases j with
    | zero =>
      injection h with h
      subst h
      exact List.Perm.refl _
    | succ m =>
      rw [List.get?_cons_succ] at h
      rw [List.eraseIdx_cons_succ]
      refine (List.Perm.cons b (ih h)).trans ?_
      exact List.Perm.swap x b _

theorem zslShrinkLevel_ge_one (ns : List ZslNode) :
    ∀ l, 1 ≤ l → 1 ≤ zslShrinkLevel ns l := by
  intro l
  induction l with
  | zero => omega
  | succ l ih =>
    intro _
    simp only [zslShrinkLevel]
    split_ifs with hc
    · exact ih (by omega)
    · omega

theorem zslDeleteNode_wf {zsl : ZSkipList} {idx : ℕ} (hwf : ZslWF zsl) :
    ZslWF (zslDeleteNode zsl idx) := by
  refine ⟨zslShrinkLevel_ge_one _ _ hwf.level_ge, ?_, ?_, ?_⟩
  · intro nd hnd
    exact hwf.heights nd ((zsl.nodes.eraseIdx_sublist idx).mem hnd)
  · exact hwf.sorted.sublist (zsl.nodes.eraseIdx_sublist idx)
  · exact hwf.distinct.sublist ((zsl.nodes.eraseIdx_sublist idx).map _)

theorem keyLtAt_dc {ns : List ZslNode} {s : NNDouble} {o : List ℕ}
    (hsort : ns.Pairwise (fun a b => zslKeyLt a.score a.obj b.score b.obj = true)) :
    ∀ a b, 1 ≤ a → a ≤ b → b ≤ ns.length →
      zslKeyLtAt ns s o b = true → zslKeyLtAt ns s o a = true := by
  intro a b h1 h2 h3 hb
  rcases eq_or_lt_of_le h2 with he | hl
  · exact he ▸ hb
  · have ha' : a - 1 < ns.length := by omega
    have hb' : b - 1 < ns.length := by omega
    have hna : ns.get? (a - 1) = some (ns.get ⟨a - 1, ha'⟩) := List.get?_eq_get ha'
    have hnb : ns.get? (b - 1) = some (ns.get ⟨b - 1, hb'⟩) := List.get?_eq_get hb'
    simp only [zslKeyLtAt, hna]
    simp only [zslKeyLtAt, hnb] at hb
    have hlt := sorted_get_lt hsort (show a - 1 < b - 1 by omega) hna hnb
    exact zslKeyLt_trans hlt hb

theorem keyLtAt_of_le_index {ns : List ZslNode}
    (hsort : ns.Pairwise (fun a b => zslKeyLt a.score a.obj b.score b.obj = true))
    {j : ℕ} {nd : ZslNode} (hj : ns.get? j = some nd) :
    ∀ q, 1 ≤ q → q ≤ j → zslKeyLtAt ns nd.score nd.obj q = true := by
  intro q h1 h2
  have hq' : q - 1 < ns.length := by
    obtain ⟨hlt, -⟩ := List.get?_eq_some.mp hj
    omega
  have hnq : ns.get? (q - 1) = some (ns.get ⟨q - 1, hq'⟩) := List.get?_eq_get hq'
  simp only [zslKeyLtAt, hnq]
  exact sorted_get_lt hsort (show q - 1 < j by omega) hnq hj

theorem keyLtAt_false_beyond {ns : List ZslNode}
    (hsort : ns.Pairwise (fun a b => zslKeyLt a.score a.obj b.score b.obj = true))
    {j : ℕ} {nd : ZslNode} (hj : ns.get? j = some nd) :
    ∀ q, j + 1 ≤ q → q ≤ ns.length → zslKeyLtAt ns nd.score nd.obj q = false := by
  intro q h1 h2
  have hq' : q - 1 < ns.length := by omega
  have hnq : ns.get? (q - 1) = some (ns.get ⟨q - 1, hq'⟩) := List.get?_eq_get hq'
  simp only [zslKeyLtAt, hnq]
  rcases Nat.eq_or_lt_of_le h1 with he | hl
  · have hq : q - 1 = j := by omega
    have hnd : ns.get? (q - 1) = some nd := by
      rw [hq]
      exact hj
    rw [hnq] at hnd
    injection hnd with hnd
    rw [hnd]
    exact zslKeyLt_irrefl _ _
  · cases hb : zslKeyLt (ns.get ⟨q - 1, hq'⟩).score (ns.get ⟨q - 1, hq'⟩).obj
      nd.score nd.obj
    · rfl
    · exfalso
      have hlt := sorted_get_lt hsort (show j < q - 1 by omega) hj hnq
      have := zslKeyLt_trans hlt hb
      rw [zslKeyLt_irrefl] at this
      exact Bool.noConfusion this

theorem zslDelete_present {zsl : ZSkipList} {j : ℕ} {nd : ZslNode}
    (hwf : ZslWF zsl) (hj : zsl.nodes.get? j = some nd) :
    (zslDelete zsl nd.score nd.obj).1 = zslDeleteNode zsl j ∧
    (zslDelete zsl nd.score nd.obj).2 = true := by
  obtain ⟨hjlt, -⟩ := List.get?_eq_some.mp hj
  have hp : walkDescent zsl.nodes (zslKeyLtAt zsl.nodes nd.score nd.obj)
      zsl.level 0 = j := by
    rw [walkDescent_findGreatest (keyLtAt_dc hwf.sorted) hwf.heights
      hwf.level_ge]
    apply le_antisymm
    · by_contra hgt
      push_neg at hgt
      have hg_le := Nat.findGreatest_le (P := fun q =>
        zslKeyLtAt zsl.nodes nd.score nd.obj q = true) zsl.nodes.length
      have hg_ne : Nat.findGreatest (fun q =>
          zslKeyLtAt zsl.nodes nd.score nd.obj q = true)
            zsl.nodes.length ≠ 0 := by omega
      have hg_pred : zslKeyLtAt zsl.nodes nd.score nd.obj
          (Nat.findGreatest (fun q =>
            zslKeyLtAt zsl.nodes nd.score nd.obj q = true)
            zsl.nodes.length) = true :=
        Nat.findGreatest_of_ne_zero rfl hg_ne
      have := keyLtAt_false_beyond hwf.sorted hj _ (by omega) hg_le
      rw [this] at hg_pred
      exact Bool.noConfusion hg_pred
    · rcases Nat.eq_zero_or_pos j with h0 | hpos
      · omega
      · exact Nat.le_findGreatest (by omega)
          (keyLtAt_of_le_index hwf.sorted hj j hpos (le_refl j))
  unfold zslDelete
  dsimp only
  rw [hp, hj]
  dsimp only
  rw [if_pos ⟨rfl, rfl⟩]
  exact ⟨rfl, rfl⟩

theorem zslInsert_pairs_perm (zsl : ZSkipList) (score : NNDouble)
    (obj : List ℕ) (draws : List ℕ) :
    (zslPairs (zslInsert zsl score obj draws)).Perm
      ((obj, score) :: zslPairs zsl) := by
  unfold zslInsert zslPairs
  dsimp only
  exact (insertIdx_perm zsl.nodes _ _ (walkDescent_le (Nat.zero_le _))).map _

theorem entries_val_unique {V : Type} {hash : List ℕ → ℕ} {d : Dict V}
    (hwf : DictWF hash d) {k : List ℕ} {v1 v2 : V}
    (h1 : (k, v1) ∈ dictEntries d) (h2 : (k, v2) ∈ dictEntries d) :
    v1 = v2 := by
  unfold dictEntries at h1 h2
  rw [List.mem_map] at h1 h2
  obtain ⟨e1, he1, hf1⟩ := h1
  obtain ⟨e2, he2, hf2⟩ := h2
  have hk1 : e1.key = k := congrArg Prod.fst hf1
  have hv1 : e1.val = v1 := congrArg Prod.snd hf1
  have hk2 : e2.key = k := congrArg Prod.fst hf2
  have hv2 : e2.val = v2 := congrArg Prod.snd hf2
  have heq := List.inj_on_of_nodup_map hwf.nodupKeys he1 he2
    (by rw [hk1, hk2])
  rw [← hv1, ← hv2, heq]

theorem bucketFind_some {V : Type} {b : List (DictEntry V)} {key : List ℕ}
    {v : V} (h : bucketFind b key = some v) :
    ∃ e ∈ b, e.key = key ∧ e.val = v := by
  unfold bucketFind at h
  obtain ⟨e, hfind, hval⟩ := Option.map_eq_some'.mp h
  have hmem := List.mem_of_find?_eq_some hfind
  have hkey := List.find?_some hfind
  exact ⟨e, hmem, by simpa using hkey, hval⟩

theorem bucketFind_none_contains {V : Type} {b : List (DictEntry V)}
    {key : List ℕ} (h : bucketFind b key = none) :
    bucketContains b key = false := by
  unfold bucketFind at h
  rw [Option.map_eq_none'] at h
  cases hb : bucketContains b key
  · rfl
  · exfalso
    obtain ⟨e, he, hk⟩ := (bucketContains_iff _ _).mp hb
    have := List.find?_eq_none.mp h e he
    simp [hk] at this

theorem dictFind_spec {V : Type} (hash : List ℕ → ℕ) (d : Dict V)
    (key : List ℕ) (hwf : DictWF hash d) :
    DictWF hash (dictFind hash d key).1 ∧
    (dictEntries (dictFind hash d key).1).Perm (dictEntries d) ∧
    (∀ v, (dictFind hash d key).2 = some v →
      (key, v) ∈ dictEntries (dictFind hash d key).1) ∧
    ((dictFind hash d key).2 = none →
      key ∉ (dictEntries d).map Prod.fst) := by
  unfold dictFind
  by_cases hsz : d.ht0.size = 0
  case pos =>
    rw [if_pos hsz]
    refine ⟨hwf, List.Perm.refl _, ?_, ?_⟩
    · intro v hv
      exact absurd hv (by simp)
    · intro _
      have h0tab : d.ht0.table = [] := ht_size_zero_table hsz
      have h1tab : d.ht1.table = [] := ht_size_zero_table (hwf.ht0_empty hsz)
      rw [dictEntries_keys, h0tab, h1tab]
      simp
  case neg =>
    rw [if_neg hsz]
    dsimp only
    have hD1wf : DictWF hash
        (if dictIsRehashing d then _dictRehashStep hash d else d) := by
      split_ifs with h
      · exact (rehashStep_spec hash d hwf).1
      · exact hwf
    have hD1perm : (dictEntries
        (if dictIsRehashing d then _dictRehashStep hash d else d)).Perm
        (dictEntries d) := by
      split_ifs with h
      · exact (rehashStep_spec hash d hwf).2
      · exact List.Perm.refl _
    generalize hD : (if dictIsRehashing d then _dictRehashStep hash d else d)
      = D1 at hD1wf hD1perm ⊢
    cases hb0 : bucketFind (D1.ht0.bucket (hash key &&& D1.ht0.sizemask)) key
      with
    | some v0 =>
      dsimp only
      refine ⟨hD1wf, hD1perm, ?_, fun hcon => absurd hcon (by simp)⟩
      intro v hv
      injection hv with hv
      subst hv
      obtain ⟨e, he, hk, hval⟩ := bucketFind_some hb0
      unfold dictEntries
      rw [List.mem_map]
      exact ⟨e, List.mem_append.mpr (Or.inl (bucket_mem_flatten he)),
        by rw [hk, hval]⟩
    | none =>
      dsimp only
      by_cases hrh : dictIsRehashing D1 = true
      · rw [if_neg (not_not_intro hrh)]
        cases hb1 : bucketFind (D1.ht1.bucket (hash key &&& D1.ht1.sizemask))
            key with
        | some v1 =>
          refine ⟨hD1wf, hD1perm, ?_, fun hcon => absurd hcon (by simp)⟩
          intro v hv
          injection hv with hv
          subst hv
          obtain ⟨e, he, hk, hval⟩ := bucketFind_some hb1
          unfold dictEntries
          rw [List.mem_map]
          exact ⟨e, List.mem_append.mpr (Or.inr (bucket_mem_flatten he)),
            by rw [hk, hval]⟩
        | none =>
          refine ⟨hD1wf, hD1perm, fun v hv => absurd hv (by simp), ?_⟩
          intro _ hmem
          have hmem1 : key ∈ (dictEntries D1).map Prod.fst :=
            ((hD1perm.map Prod.fst).mem_iff).mpr hmem
          rcases (keyPresent_iff hD1wf key).mp hmem1 with h | ⟨-, h⟩
          · rw [bucketFind_none_contains hb0] at h
            exact Bool.noConfusion h
          · rw [bucketFind_none_contains hb1] at h
            exact Bool.noConfusion h
      · rw [if_pos hrh]
        refine ⟨hD1wf, hD1perm, fun v hv => absurd hv (by simp), ?_⟩
        intro _ hmem
        have hmem1 : key ∈ (dictEntries D1).map Prod.fst :=
          ((hD1perm.map Prod.fst).mem_iff).mpr hmem
        rcases (keyPresent_iff hD1wf key).mp hmem1 with h | ⟨hr, -⟩
        · rw [bucketFind_none_contains hb0] at h
          exact Bool.noConfusion h
        · exact hrh hr

theorem flatten_set_sublist {α : Type} (t : List (List α)) (i : ℕ)
    (b' : List α) (hsub : List.Sublist b' (t.getD i [])) :
    List.Sublist (t.set i b').flatten t.flatten := by
  induction t generalizing i with
  | nil => simp [List.set]
  | cons b bs ih =>
    cases i with
    | zero => exact hsub.append (List.Sublist.refl _)
    | succ n => exact (List.Sublist.refl b).append (ih n hsub)

theorem flatten_set_perm {α : Type} (t : List (List α)) (i : ℕ) (b' : List α)
    (h : i < t.length) :
    ((t.set i b').flatten).Perm (b' ++ (t.set i []).flatten) := by
  have h1 := flatten_set_nil_perm (t.set i b') i (by simpa using h)
  rw [List.set_set, getD_set_eq _ _ _ _ h] at h1
  exact h1

theorem bucketContains_true_lt {V : Type} {ht : DictHt V} {i : ℕ}
    {key : List ℕ} (h : bucketContains (ht.bucket i) key = true) :
    i < ht.size := by
  by_contra hge
  push_neg at hge
  rw [DictHt.bucket, List.getD, List.get?_eq_none.mpr hge] at h
  simp [bucketContains] at h

theorem DictWF_erase_ht0 {V : Type} {hash : List ℕ → ℕ} {d : Dict V}
    (hwf : DictWF hash d) {i : ℕ} {b' : List (DictEntry V)}
    (hsub : List.Sublist b' (d.ht0.bucket i)) (hi : i < d.ht0.size) :
    DictWF hash ⟨d.ht0.setBucket i b', d.ht1, d.rehashidx, d.iterators⟩ := by
  refine ⟨?_, hwf.placement1, ?_, hwf.rehash_iff, hwf.rehashidx_nonneg, ?_,
    ?_, ?_⟩
  · intro j hj e he
    rw [DictHt.size_setBucket] at hj
    have hsm : (d.ht0.setBucket i b').sizemask = d.ht0.sizemask := by
      simp [DictHt.sizemask, DictHt.size_setBucket]
    rw [hsm]
    by_cases hij : i = j
    · rw [← hij] at he hj ⊢
      rw [DictHt.bucket_setBucket_eq _ _ _ hi] at he
      exact hwf.placement0 i hi e (hsub.subset he)
    · rw [DictHt.bucket_setBucket_ne _ _ _ _ hij] at he
      exact hwf.placement0 j hj e he
  · have hfl : List.Sublist (d.ht0.setBucket i b').table.flatten
        d.ht0.table.flatten :=
      flatten_set_sublist d.ht0.table i b' hsub
    exact hwf.nodupKeys.sublist ((hfl.append_right _).map _)
  · intro h
    rw [DictHt.size_setBucket]
    exact hwf.rehashidx_le h
  · intro j hj
    by_cases hij : i = j
    · rw [← hij]
      rw [DictHt.bucket_setBucket_eq _ _ _ hi]
      have hold : d.ht0.bucket i = [] := by
        rw [hij]
        exact hwf.skipped_empty j hj
      rw [hold] at hsub
      exact List.sublist_nil.mp hsub
    · rw [DictHt.bucket_setBucket_ne _ _ _ _ hij]
      exact hwf.skipped_empty j hj
  · intro h
    rw [DictHt.size_setBucket] at h
    exact hwf.ht0_empty h

theorem DictWF_erase_ht1 {V : Type} {hash : List ℕ → ℕ} {d : Dict V}
    (hwf : DictWF hash d) {i : ℕ} {b' : List (DictEntry V)}
    (hsub : List.Sublist b' (d.ht1.bucket i)) (hi : i < d.ht1.size) :
    DictWF hash ⟨d.ht0, d.ht1.setBucket i b', d.rehashidx, d.iterators⟩ := by
  refine ⟨hwf.placement0, ?_, ?_, ?_, hwf.rehashidx_nonneg,
    hwf.rehashidx_le, hwf.skipped_empty, ?_⟩
  · intro j hj e he
    rw [DictHt.size_setBucket] at hj
    have hsm : (d.ht1.setBucket i b').sizemask = d.ht1.sizemask := by
      simp [DictHt.sizemask, DictHt.size_setBucket]
    rw [hsm]
    by_cases hij : i = j
    · rw [← hij] at he hj ⊢
      rw [DictHt.bucket_setBucket_eq _ _ _ hi] at he
      exact hwf.placement1 i hi e (hsub.subset he)
    · rw [DictHt.bucket_setBucket_ne _ _ _ _ hij] at he
      exact hwf.placement1 j hj e he
  · have hfl : List.Sublist (d.ht1.setBucket i b').table.flatten
        d.ht1.table.flatten :=
      flatten_set_sublist d.ht1.table i b' hsub
    exact hwf.nodupKeys.sublist (((List.Sublist.refl _).append hfl).map _)
  · constructor
    · intro h
      rw [DictHt.size_setBucket]
      exact (hwf.rehash_iff).mp h
    · intro h
      rw [DictHt.size_setBucket] at h
      exact (hwf.rehash_iff).mpr h
  · intro h
    rw [DictHt.size_setBucket]
    exact hwf.ht0_empty h

theorem dictDelete_spec {V : Type} (hash : List ℕ → ℕ)
    (d : Dict V) (key : List ℕ) (hwf : DictWF hash d) :
    DictWF hash (dictDelete hash d key).1 ∧
    ((dictDelete hash d key).2 = false →
      (dictEntries (dictDelete hash d key).1).Perm (dictEntries d) ∧
      key ∉ (dictEntries d).map Prod.fst) ∧
    ((dictDelete hash d key).2 = true →
      ∃ v, (key, v) ∈ dictEntries d ∧
        (dictEntries d).Perm
          ((key, v) :: dictEntries (dictDelete hash d key).1)) := by
  unfold dictDelete
  by_cases hsz : d.ht0.size = 0
  case pos =>
    rw [if_pos hsz]
    refine ⟨hwf, fun _ => ⟨List.Perm.refl _, ?_⟩,
      fun hcon => absurd hcon (by simp)⟩
    have h0tab : d.ht0.table = [] := ht_size_zero_table hsz
    have h1tab : d.ht1.table = [] := ht_size_zero_table (hwf.ht0_empty hsz)
    rw [dictEntries_keys, h0tab, h1tab]
    simp
  case neg =>
    rw [if_neg hsz]
    dsimp only
    have hD1wf : DictWF hash
        (if dictIsRehashing d then _dictRehashStep hash d else d) := by
      split_ifs with h
      · exact (rehashStep_spec hash d hwf).1
      · exact hwf
    have hD1perm : (dictEntries
        (if dictIsRehashing d then _dictRehashStep hash d else d)).Perm
        (dictEntries d) := by
      split_ifs with h
      · exact (rehashStep_spec hash d hwf).2
      · exact List.Perm.refl _
    generalize hD : (if dictIsRehashing d then _dictRehashStep hash d else d)
      = D1 at hD1wf hD1perm ⊢
    by_cases hc0 : bucketContains
        (D1.ht0.bucket (hash key &&& D1.ht0.sizemask)) key = true
    · rw [if_pos hc0]
      have hBi : (hash key &&& D1.ht0.sizemask) < D1.ht0.size :=
        bucketContains_true_lt hc0
      obtain ⟨e0, he0, hk0⟩ := (bucketContains_iff _ _).mp hc0
      obtain ⟨a', l1, l2, hl1, hpa, hsplit, herase⟩ :=
        List.exists_of_eraseP (p := fun e : DictEntry V => e.key == key)
          he0 (by simp [hk0])
      have hka' : a'.key = key := by simpa using hpa
      have hperm1 : (D1.ht0.table.flatten).Perm
          (D1.ht0.bucket (hash key &&& D1.ht0.sizemask)
            ++ (D1.ht0.table.set (hash key &&& D1.ht0.sizemask) []).flatten) :=
        flatten_set_nil_perm _ _ hBi
      have pB : (D1.ht0.bucket (hash key &&& D1.ht0.sizemask)).Perm
          (a' :: (l1 ++ l2)) := by
        rw [hsplit]
        exact List.perm_middle
      have p2 : ((D1.ht0.setBucket (hash key &&& D1.ht0.sizemask)
            ((D1.ht0.bucket (hash key &&& D1.ht0.sizemask)).eraseP
              (fun e => e.key == key))).table.flatten).Perm
          ((l1 ++ l2)
            ++ (D1.ht0.table.set (hash key &&& D1.ht0.sizemask) []).flatten) := by
        rw [herase]
        exact flatten_set_perm _ _ _ hBi
      have hE0 : ((D1.ht0.table.flatten) ++ D1.ht1.table.flatten).Perm
          (a' :: (((D1.ht0.setBucket (hash key &&& D1.ht0.sizemask)
            ((D1.ht0.bucket (hash key &&& D1.ht0.sizemask)).eraseP
              (fun e => e.key == key))).table.flatten)
                ++ D1.ht1.table.flatten)) := by
        refine (hperm1.append_right _).trans ?_
        refine ((pB.append_right _).append_right _).trans ?_
        exact List.Perm.cons a' ((p2.append_right _).symm)
      have hEmap := hE0.map (fun e : DictEntry V => (e.key, e.val))
      simp only [List.map_cons] at hEmap
      rw [hka'] at hEmap
      refine ⟨?_, fun hcon => absurd hcon (by simp), fun _ => ⟨a'.val, ?_, ?_⟩⟩
      · exact DictWF_erase_ht0 hD1wf (List.eraseP_sublist _) hBi
      · have hmem : (key, a'.val) ∈ dictEntries D1 :=
          (hEmap.mem_iff).mpr (List.mem_cons_self _ _)
        exact (hD1perm.mem_iff).mp hmem
      · exact hD1perm.symm.trans hEmap
    · rw [if_neg hc0]
      by_cases hrh : dictIsRehashing D1 = true
      · rw [if_neg (not_not_intro hrh)]
        by_cases hc1 : bucketContains
            (D1.ht1.bucket (hash key &&& D1.ht1.sizemask)) key = true
        · rw [if_pos hc1]
          have hBi : (hash key &&& D1.ht1.sizemask) < D1.ht1.size :=
            bucketContains_true_lt hc1
          obtain ⟨e0, he0, hk0⟩ := (bucketContains_iff _ _).mp hc1
          obtain ⟨a', l1, l2, hl1, hpa, hsplit, herase⟩ :=
            List.exists_of_eraseP (p := fun e : DictEntry V => e.key == key)
              he0 (by simp [hk0])
          have hka' : a'.key = key := by simpa using hpa
          have hperm1 : (D1.ht1.table.flatten).Perm
              (D1.ht1.bucket (hash key &&& D1.ht1.sizemask)
                ++ (D1.ht1.table.set (hash key &&& D1.ht1.sizemask) []).flatten) :=
            flatten_set_nil_perm _ _ hBi
          have pB : (D1.ht1.bucket (hash key &&& D1.ht1.sizemask)).Perm
              (a' :: (l1 ++ l2)) := by
            rw [hsplit]
            exact List.perm_middle
          have p2 : ((D1.ht1.setBucket (hash key &&& D1.ht1.sizemask)
                ((D1.ht1.bucket (hash key &&& D1.ht1.sizemask)).eraseP
                  (fun e => e.key == key))).table.flatten).Perm
              ((l1 ++ l2)
                ++ (D1.ht1.table.set (hash key &&& D1.ht1.sizemask) []).flatten) := by
            rw [herase]
            exact flatten_set_perm _ _ _ hBi
          have hE0 : ((D1.ht0.table.flatten) ++ D1.ht1.table.flatten).Perm
              (a' :: ((D1.ht0.table.flatten)
                ++ ((D1.ht1.setBucket (hash key &&& D1.ht1.sizemask)
                  ((D1.ht1.bucket (hash key &&& D1.ht1.sizemask)).eraseP
                    (fun e => e.key == key))).table.flatten))) := by
            refine (List.Perm.append_left _ hperm1).trans ?_
            refine (List.Perm.append_left _ (pB.append_right _)).trans ?_
            refine (List.perm_middle).trans ?_
            exact List.Perm.cons a' (List.Perm.append_left _ p2.symm)
          have hEmap := hE0.map (fun e : DictEntry V => (e.key, e.val))
          simp only [List.map_cons] at hEmap
          rw [hka'] at hEmap
          refine ⟨?_, fun hcon => absurd hcon (by simp),
            fun _ => ⟨a'.val, ?_, ?_⟩⟩
          · exact DictWF_erase_ht1 hD1wf (List.eraseP_sublist _) hBi
          · have hmem : (key, a'.val) ∈ dictEntries D1 :=
              (hEmap.mem_iff).mpr (List.mem_cons_self _ _)
            exact (hD1perm.mem_iff).mp hmem
          · exact hD1perm.symm.trans hEmap
        · rw [if_neg hc1]
          refine ⟨hD1wf, fun _ => ⟨hD1perm, ?_⟩,
            fun hcon => absurd hcon (by simp)⟩
          intro hmem
          have hmem1 : key ∈ (dictEntries D1).map Prod.fst :=
            ((hD1perm.map Prod.fst).mem_iff).mpr hmem
          rcases (keyPresent_iff hD1wf key).mp hmem1 with h | ⟨-, h⟩
          · rw [h] at hc0
            exact hc0 rfl
          · rw [h] at hc1
            exact hc1 rfl
      · rw [if_pos hrh]
        refine ⟨hD1wf, fun _ => ⟨hD1perm, ?_⟩,
          fun hcon => absurd hcon (by simp)⟩
        intro hmem
        have hmem1 : key ∈ (dictEntries D1).map Prod.fst :=
          ((hD1perm.map Prod.fst).mem_iff).mpr hmem
        rcases (keyPresent_iff hD1wf key).mp hmem1 with h | ⟨hr, -⟩
        · rw [h] at hc0
          exact hc0 rfl
        · exact hrh hr

theorem flatten_map {α β : Type} (g : α → β) (t : List (List α)) :
    (t.map (List.map g)).flatten = t.flatten.map g := by
  induction t with
  | nil => rfl
  | cons b bs ih =>
    rw [List.map_cons, List.flatten_cons, List.flatten_cons, List.map_append,
      ih]

theorem dictSetValForKey_spec {V : Type} {hash : List ℕ → ℕ} {d : Dict V}
    (hwf : DictWF hash d) {key : List ℕ} {old : V}
    (hmem : (key, old) ∈ dictEntries d) (new : V) :
    ∃ rest, (dictEntries d).Perm ((key, old) :: rest) ∧
      (dictEntries (dictSetValForKey d key new)).Perm ((key, new) :: rest) := by
  unfold dictEntries at hmem
  rw [List.mem_map] at hmem
  obtain ⟨e0, he0, hf0⟩ := hmem
  have hk0 : e0.key = key := congrArg Prod.fst hf0
  have hv0 : e0.val = old := congrArg Prod.snd hf0
  obtain ⟨s, t, hst⟩ := List.append_of_mem he0
  have hnd := hwf.nodupKeys
  rw [hst, List.map_append, List.map_cons, List.nodup_append] at hnd
  obtain ⟨-, hconsnd, hdisj⟩ := hnd
  have hts : e0.key ∉ t.map (fun e => e.key) := (List.nodup_cons.mp hconsnd).1
  have hss : e0.key ∉ s.map (fun e => e.key) := fun hin =>
    hdisj hin (List.mem_cons_self _ _)
  have hsne : ∀ x ∈ s, ¬(x.key = key) := by
    intro x hx hke
    exact hss (by rw [List.mem_map]; exact ⟨x, hx, by rw [hke, hk0]⟩)
  have htne : ∀ x ∈ t, ¬(x.key = key) := by
    intro x hx hke
    exact hts (by rw [List.mem_map]; exact ⟨x, hx, by rw [hke, hk0]⟩)
  refine ⟨(s.map fun e => (e.key, e.val)) ++ (t.map fun e => (e.key, e.val)),
    ?_, ?_⟩
  · unfold dictEntries
    rw [hst, List.map_append, List.map_cons]
    rw [hk0, hv0]
    exact List.perm_middle
  · unfold dictSetValForKey dictEntries
    dsimp only
    rw [flatten_map, flatten_map, ← List.map_append, List.map_map]
    rw [hst, List.map_append, List.map_cons]
    have hs_eq : s.map ((fun e : DictEntry V => (e.key, e.val))
          ∘ fun e => if e.key == key then (⟨e.key, new⟩ : DictEntry V) else e)
        = s.map (fun e => (e.key, e.val)) := by
      apply List.map_congr_left
      intro x hx
      simp [Function.comp, hsne x hx]
    have ht_eq : t.map ((fun e : DictEntry V => (e.key, e.val))
          ∘ fun e => if e.key == key then (⟨e.key, new⟩ : DictEntry V) else e)
        = t.map (fun e => (e.key, e.val)) := by
      apply List.map_congr_left
      intro x hx
      simp [Function.comp, htne x hx]
    have he_eq : (((fun e : DictEntry V => (e.key, e.val))
          ∘ fun e => if e.key == key then (⟨e.key, new⟩ : DictEntry V) else e)
            e0) = (key, new) := by
      simp [Function.comp, hk0]
    rw [hs_eq, ht_eq, he_eq]
    exact List.perm_middle

theorem dictEntries_length {V : Type} (d : Dict V) :
    (dictEntries d).length = dictUsed d := by
  unfold dictEntries dictUsed
  rw [List.length_map, List.length_append, List.length_flatten,
    List.length_flatten]
  rfl

theorem dictCreate_wf {V : Type} (hash : List ℕ → ℕ) :
    DictWF hash (dictCreate V) := by
  refine ⟨?_, ?_, ?_, ?_, ?_, ?_, ?_, ?_⟩
  · intro i hi
    simp [dictCreate, DictHt.reset, DictHt.size] at hi
  · intro i hi
    simp [dictCreate, DictHt.reset, DictHt.size] at hi
  · simp [dictCreate, DictHt.reset]
  · simp [dictCreate, DictHt.reset, DictHt.size]
  · intro h
    exact absurd rfl h
  · intro h
    exact absurd rfl h
  · intro j hj
    simp [dictCreate] at hj
  · intro _
    rfl

theorem zslDeleteWhile_inv (hash : List ℕ → ℕ) (cond : ZslNode → Bool)
    (idx : ℕ) :
    ∀ (fuel : ℕ) (zsl : ZSkipList) (d : Dict NNDouble) (removed : ℕ),
      ZslWF zsl → DictWF hash d → (zslPairs zsl).Perm (dictEntries d) →
      (zslPairs (zslDeleteWhile hash cond idx fuel zsl d removed).1).Perm
        (dictEntries (zslDeleteWhile hash cond idx fuel zsl d removed).2.1) := by
  intro fuel
  induction fuel with
  | zero =>
    intro zsl d removed _ _ hinv
    exact hinv
  | succ fuel ih =>
    intro zsl d removed hzwf hdwf hinv
    simp only [zslDeleteWhile]
    cases hnd : zsl.nodes.get? idx with
    | none => exact hinv
    | some nd =>
      dsimp only
      split_ifs with hcond
      · have hpairs : (zslPairs zsl).Perm
            ((nd.obj, nd.score) :: zslPairs (zslDeleteNode zsl idx)) :=
          (eraseIdx_cons_perm hnd).map (fun x : ZslNode => (x.obj, x.score))
        obtain ⟨hdwf', hfalse', htrue'⟩ := dictDelete_spec hash d nd.obj hdwf
        have hmemz : (nd.obj, nd.score) ∈ zslPairs zsl := by
          rw [zslPairs, List.mem_map]
          exact ⟨nd, List.get?_mem hnd, rfl⟩
        have hmemd : (nd.obj, nd.score) ∈ dictEntries d := hinv.mem_iff.mp hmemz
        cases hok : (dictDelete hash d nd.obj).2 with
        | false =>
          exfalso
          obtain ⟨-, hnot⟩ := hfalse' hok
          exact hnot (by rw [List.mem_map]; exact ⟨(nd.obj, nd.score), hmemd, rfl⟩)
        | true =>
          obtain ⟨v, hvmem, hperm⟩ := htrue' hok
          have hv : v = nd.score := entries_val_unique hdwf hvmem hmemd
          subst hv
          have hinv' : (zslPairs (zslDeleteNode zsl idx)).Perm
              (dictEntries (dictDelete hash d nd.obj).1) :=
            ((hpairs.symm.trans hinv).trans hperm).cons_inv
          exact ih _ _ _ (zslDeleteNode_wf hzwf) hdwf' hinv'
      · exact hinv

theorem zslDeleteWhileCount_inv (hash : List ℕ → ℕ) (endRank idx : ℕ) :
    ∀ (fuel traversed : ℕ) (zsl : ZSkipList) (d : Dict NNDouble)
      (removed : ℕ),
      ZslWF zsl → DictWF hash d → (zslPairs zsl).Perm (dictEntries d) →
      (zslPairs
        (zslDeleteWhileCount hash endRank idx fuel traversed zsl d
          removed).1).Perm
        (dictEntries
          (zslDeleteWhileCount hash endRank idx fuel traversed zsl d
            removed).2.1) := by
  intro fuel
  induction fuel with
  | zero =>
    intro traversed zsl d removed _ _ hinv
    exact hinv
  | succ fuel ih =>
    intro traversed zsl d removed hzwf hdwf hinv
    simp only [zslDeleteWhileCount]
    cases hnd : zsl.nodes.get? idx with
    | none => exact hinv
    | some nd =>
      dsimp only
      split_ifs with hcond
      · have hpairs : (zslPairs zsl).Perm
            ((nd.obj, nd.score) :: zslPairs (zslDeleteNode zsl idx)) :=
          (eraseIdx_cons_perm hnd).map (fun x : ZslNode => (x.obj, x.score))
        obtain ⟨hdwf', hfalse', htrue'⟩ := dictDelete_spec hash d nd.obj hdwf
        have hmemz : (nd.obj, nd.score) ∈ zslPairs zsl := by
          rw [zslPairs, List.mem_map]
          exact ⟨nd, List.get?_mem hnd, rfl⟩
        have hmemd : (nd.obj, nd.score) ∈ dictEntries d := hinv.mem_iff.mp hmemz
        cases hok : (dictDelete hash d nd.obj).2 with
        | false =>
          exfalso
          obtain ⟨-, hnot⟩ := hfalse' hok
          exact hnot (by rw [List.mem_map]; exact ⟨(nd.obj, nd.score), hmemd, rfl⟩)
        | true =>
          obtain ⟨v, hvmem, hperm⟩ := htrue' hok
          have hv : v = nd.score := entries_val_unique hdwf hvmem hmemd
          subst hv
          have hinv' : (zslPairs (zslDeleteNode zsl idx)).Perm
              (dictEntries (dictDelete hash d nd.obj).1) :=
            ((hpairs.symm.trans hinv).trans hperm).cons_inv
          exact ih _ _ _ _ (zslDeleteNode_wf hzwf) hdwf' hinv'
      · exact hinv

theorem zsetConvertLoop_inv (hash : List ℕ → ℕ) (canResize : Bool) :
    ∀ (pairs : ZZList) (draws : List (List ℕ)) (zs : ZSetL),
      DictWF hash zs.dict →
      (zslPairs zs.zsl).Perm (dictEntries zs.dict) →
      (pairs.map Prod.fst).Nodup →
      (∀ e ∈ pairs.map Prod.fst, e ∉ (dictEntries zs.dict).map Prod.fst) →
      (zslPairs (zsetConvertLoop hash canResize pairs draws zs).zsl).Perm
        (dictEntries (zsetConvertLoop hash canResize pairs draws zs).dict) ∧
      (zslPairs (zsetConvertLoop hash canResize pairs draws zs).zsl).Perm
        (pairs ++ zslPairs zs.zsl) := by
  intro pairs
  induction pairs with
  | nil =>
    intro draws zs _ hinv _ _
    exact ⟨hinv, List.Perm.refl _⟩
  | cons pr rest ih =>
    rcases pr with ⟨e, s⟩
    intro draws zs hdwf hinv hnodup hdisj
    simp only [zsetConvertLoop]
    have habs : e ∉ (dictEntries zs.dict).map Prod.fst :=
      hdisj e (by simp)
    obtain ⟨hiff, hf, ht⟩ := dictAdd_spec hash canResize zs.dict e s hdwf
    cases hok : (dictAdd hash canResize zs.dict e s).2 with
    | false => exact absurd (hiff.mp hok) habs
    | true =>
      obtain ⟨hperm_add, -, -, hwf'⟩ := ht hok
      have hpi := zslInsert_pairs_perm zs.zsl s e (draws.headD [])
      have hinv' : (zslPairs (zslInsert zs.zsl s e (draws.headD []))).Perm
          (dictEntries (dictAdd hash canResize zs.dict e s).1) :=
        hpi.trans ((List.Perm.cons _ hinv).trans hperm_add.symm)
      have hkeys' : ((dictEntries (dictAdd hash canResize zs.dict e s).1).map
          Prod.fst).Perm (e :: (dictEntries zs.dict).map Prod.fst) := by
        have := hperm_add.map Prod.fst
        simpa using this
      have hnodup' : (rest.map Prod.fst).Nodup := by
        rw [List.map_cons, List.nodup_cons] at hnodup
        exact hnodup.2
      have hne : e ∉ rest.map Prod.fst := by
        rw [List.map_cons, List.nodup_cons] at hnodup
        exact hnodup.1
      have hdisj' : ∀ e' ∈ rest.map Prod.fst,
          e' ∉ (dictEntries (dictAdd hash canResize zs.dict e s).1).map
            Prod.fst := by
        intro e' he' hin
        rcases List.mem_cons.mp (hkeys'.mem_iff.mp hin) with he | he
        · rw [he] at he'
          exact hne he'
        · exact hdisj e' (by simp [he']) he
      obtain ⟨hfin, hacc⟩ := ih draws.tail
        ⟨zslInsert zs.zsl s e (draws.headD []),
          (dictAdd hash canResize zs.dict e s).1⟩
        hwf' hinv' hnodup' hdisj'
      refine ⟨hfin, ?_⟩
      refine hacc.trans ?_
      refine (List.Perm.append_left rest hpi).trans ?_
      exact List.perm_middle

/-- C1: for a well-formed large-form ordered set (skip list + dictionary)
satisfying the pairing invariant — the multiset of (element, score) pairs
of the skip list coincides with the entries of the dictionary, whose
values carry the score each entry's pointer dereferences to — the
invariant yields the length/used-count equality and the per-element
score agreement, and it is preserved by every core mutation: ZADD's
skiplist branch (fresh insert, score update, and the no-op path), ZREM's
skiplist branch, the three range deletions (by score, by lex, by rank),
and it is established from scratch by the packed-to-skiplist conversion
applied to a packed list with distinct elements. -/
theorem C1_large_zset_invariant (hash : List ℕ → ℕ) (canResize : Bool)
    (zs : ZSetL) (hz : ZslWF zs.zsl) (hd : DictWF hash zs.dict)
    (hinv : (zslPairs zs.zsl).Perm (dictEntries zs.dict)) :
    (zs.zsl.nodes.length = dictUsed zs.dict ∧
      ∀ ele sc, (ele, sc) ∈ zslPairs zs.zsl ↔ (ele, sc) ∈ dictEntries zs.dict) ∧
    (∀ score ele draws,
      (zslPairs (zsetAdd hash canResize zs score ele draws).1.zsl).Perm
        (dictEntries (zsetAdd hash canResize zs score ele draws).1.dict)) ∧
    (∀ ele,
      (zslPairs (zsetRemove hash zs ele).1.zsl).Perm
        (dictEntries (zsetRemove hash zs ele).1.dict)) ∧
    (∀ range,
      (zslPairs (zslDeleteRangeByScore hash zs.zsl range zs.dict).1).Perm
        (dictEntries (zslDeleteRangeByScore hash zs.zsl range zs.dict).2.1)) ∧
    (∀ range,
      (zslPairs (zslDeleteRangeByLex hash zs.zsl range zs.dict).1).Perm
        (dictEntries (zslDeleteRangeByLex hash zs.zsl range zs.dict).2.1)) ∧
    (∀ start endRank,
      (zslPairs (zslDeleteRangeByRank hash zs.zsl start endRank
        zs.dict).1).Perm
        (dictEntries (zslDeleteRangeByRank hash zs.zsl start endRank
          zs.dict).2.1)) ∧
    (∀ (pairs : ZZList) (draws : List (List ℕ)), (pairs.map Prod.fst).Nodup →
      (zslPairs (zsetConvert hash canResize pairs draws).zsl).Perm
        (dictEntries (zsetConvert hash canResize pairs draws).dict) ∧
      (zslPairs (zsetConvert hash canResize pairs draws).zsl).Perm pairs) := by
  refine ⟨⟨?_, fun ele sc => hinv.mem_iff⟩, ?_, ?_, ?_, ?_, ?_, ?_⟩
  · have h1 := hinv.length_eq
    rw [dictEntries_length] at h1
    rw [← h1, zslPairs, List.length_map]
  · intro score ele draws
    unfold zsetAdd
    obtain ⟨hfwf, hfperm, hsome, hnone⟩ := dictFind_spec hash zs.dict ele hd
    rcases hF : dictFind hash zs.dict ele with ⟨d1, res⟩
    rw [hF] at hfwf hfperm hsome hnone
    dsimp only at hfwf hfperm hsome hnone ⊢
    cases res with
    | some curscore =>
      dsimp only
      split_ifs with hne
      · dsimp only
        have hmem1 : (ele, curscore) ∈ dictEntries d1 := hsome curscore rfl
        have hmemz : (ele, curscore) ∈ zslPairs zs.zsl :=
          hinv.mem_iff.mpr ((hfperm.mem_iff).mp hmem1)
        rw [zslPairs, List.mem_map] at hmemz
        obtain ⟨nd, hndmem, hndeq⟩ := hmemz
        have hobj : nd.obj = ele := congrArg Prod.fst hndeq
        have hsc : nd.score = curscore := congrArg Prod.snd hndeq
        obtain ⟨⟨j, hjlt⟩, hget⟩ := List.mem_iff_get.mp hndmem
        have hj : zs.zsl.nodes.get? j = some nd := by
          rw [List.get?_eq_get hjlt, hget]
        have hdel := zslDelete_present hz hj
        rw [hsc, hobj] at hdel
        have hpairs_del : (zslPairs zs.zsl).Perm
            ((ele, curscore) :: zslPairs (zslDelete zs.zsl curscore ele).1) := by
          rw [hdel.1]
          have h1 := (eraseIdx_cons_perm hj).map
            (fun x : ZslNode => (x.obj, x.score))
          simp only [List.map_cons] at h1
          rw [hobj, hsc] at h1
          exact h1
        have hpairs_ins := zslInsert_pairs_perm
          (zslDelete zs.zsl curscore ele).1 score ele draws
        obtain ⟨rest, hrest1, hrest2⟩ := dictSetValForKey_spec hfwf hmem1 score
        have hpd : (zslPairs (zslDelete zs.zsl curscore ele).1).Perm rest :=
          ((hpairs_del.symm.trans (hinv.trans hfperm.symm)).trans
            hrest1).cons_inv
        exact hpairs_ins.trans ((List.Perm.cons _ hpd).trans hrest2.symm)
      · exact hinv.trans hfperm.symm
    | none =>
      dsimp only
      have habs : ele ∉ (dictEntries zs.dict).map Prod.fst := hnone rfl
      have habs1 : ele ∉ (dictEntries d1).map Prod.fst := fun h =>
        habs ((hfperm.map Prod.fst).mem_iff.mp h)
      obtain ⟨hiff, hf, ht⟩ := dictAdd_spec hash canResize d1 ele score hfwf
      cases hok : (dictAdd hash canResize d1 ele score).2 with
      | false => exact absurd (hiff.mp hok) habs1
      | true =>
        obtain ⟨hperm_add, -, -, -⟩ := ht hok
        have hpi := zslInsert_pairs_perm zs.zsl score ele draws
        exact hpi.trans ((List.Perm.cons _ (hinv.trans hfperm.symm)).trans
          hperm_add.symm)
  · intro ele
    unfold zsetRemove
    obtain ⟨hfwf, hfperm, hsome, hnone⟩ := dictFind_spec hash zs.dict ele hd
    rcases hF : dictFind hash zs.dict ele with ⟨d1, res⟩
    rw [hF] at hfwf hfperm hsome hnone
    dsimp only at hfwf hfperm hsome hnone ⊢
    cases res with
    | some score =>
      dsimp only
      have hmem1 : (ele, score) ∈ dictEntries d1 := hsome score rfl
      have hmemz : (ele, score) ∈ zslPairs zs.zsl :=
        hinv.mem_iff.mpr ((hfperm.mem_iff).mp hmem1)
      rw [zslPairs, List.mem_map] at hmemz
      obtain ⟨nd, hndmem, hndeq⟩ := hmemz
      have hobj : nd.obj = ele := congrArg Prod.fst hndeq
      have hsc : nd.score = score := congrArg Prod.snd hndeq
      obtain ⟨⟨j, hjlt⟩, hget⟩ := List.mem_iff_get.mp hndmem
      have hj : zs.zsl.nodes.get? j = some nd := by
        rw [List.get?_eq_get hjlt, hget]
      have hdel := zslDelete_present hz hj
      rw [hsc, hobj] at hdel
      have hpairs_del : (zslPairs zs.zsl).Perm
          ((ele, score) :: zslPairs (zslDelete zs.zsl score ele).1) := by
        rw [hdel.1]
        have h1 := (eraseIdx_cons_perm hj).map
          (fun x : ZslNode => (x.obj, x.score))
        simp only [List.map_cons] at h1
        rw [hobj, hsc] at h1
        exact h1
      obtain ⟨hdwf2, hfalse2, htrue2⟩ := dictDelete_spec hash d1 ele hfwf
      cases hok : (dictDelete hash d1 ele).2 with
      | false =>
        exfalso
        obtain ⟨-, hnot⟩ := hfalse2 hok
        exact hnot (by rw [List.mem_map]; exact ⟨(ele, score), hmem1, rfl⟩)
      | true =>
        obtain ⟨v, hvmem, hperm⟩ := htrue2 hok
        have hv : v = score := entries_val_unique hfwf hvmem hmem1
        subst hv
        exact ((hpairs_del.symm.trans (hinv.trans hfperm.symm)).trans
          hperm).cons_inv
    | none =>
      dsimp only
      exact hinv.trans hfperm.symm
  · intro range
    unfold zslDeleteRangeByScore
    dsimp only
    exact zslDeleteWhile_inv hash _ _ _ _ _ _ hz hd hinv
  · intro range
    unfold zslDeleteRangeByLex
    dsimp only
    exact zslDeleteWhile_inv hash _ _ _ _ _ _ hz hd hinv
  · intro start endRank
    unfold zslDeleteRangeByRank
    dsimp only
    exact zslDeleteWhileCount_inv hash _ _ _ _ _ _ _ hz hd hinv
  · intro pairs draws hnodup
    have h0 : DictWF hash (dictCreate NNDouble) := dictCreate_wf hash
    have hinv0 : (zslPairs zslEmpty).Perm
        (dictEntries (dictCreate NNDouble)) := List.Perm.refl _
    have hdisj0 : ∀ e ∈ pairs.map Prod.fst,
        e ∉ (dictEntries (dictCreate NNDouble)).map Prod.fst := by
      intro e _ hin
      simp [dictCreate, dictEntries, DictHt.reset] at hin
    obtain ⟨hfin, hacc⟩ := zsetConvertLoop_inv hash canResize pairs draws
      ⟨zslEmpty, dictCreate NNDouble⟩ h0 hinv0 hnodup hdisj0
    refine ⟨hfin, ?_⟩
    have : (pairs ++ zslPairs zslEmpty) = pairs := by
      simp [zslPairs, zslEmpty]
    rw [this] at hacc
    exact hacc

theorem C1_large_zset_invariant_witness :
    (zslPairs (zsetAdd (fun _ => 0) true ⟨zslEmpty, dictCreate NNDouble⟩
        NNDouble.negInf [97] []).1.zsl).Perm
      (dictEntries (zsetAdd (fun _ => 0) true ⟨zslEmpty, dictCreate NNDouble⟩
        NNDouble.negInf [97] []).1.dict) ∧
    zslEmpty.nodes.length = dictUsed (dictCreate NNDouble) := by
  have h := C1_large_zset_invariant (fun _ => 0) true
    ⟨zslEmpty, dictCreate NNDouble⟩
    ⟨by decide, by decide, by decide, by decide⟩ (dictCreate_wf _)
    (List.Perm.refl _)
  exact ⟨h.2.1 NNDouble.negInf [97] [], h.1.1⟩

theorem zzlInsert_perm (zl : ZZList) (ele : List ℕ) (score : NNDouble) :
    (zzlInsert zl ele score).Perm ((ele, score) :: zl) := by
  induction zl with
  | nil => exact List.Perm.refl _
  | cons pr rest ih =>
    rcases pr with ⟨e, s⟩
    simp only [zzlInsert]
    split_ifs with h1 h2
    · exact List.Perm.refl _
    · exact List.Perm.refl _
    · exact (List.Perm.cons _ ih).trans (List.Perm.swap _ _ _)

theorem zzlInsert_length (zl : ZZList) (ele : List ℕ) (score : NNDouble) :
    (zzlInsert zl ele score).length = zl.length + 1 :=
  (zzlInsert_perm zl ele score).length_eq

/-- C2: adding a not-yet-present element to a packed (ziplist) sorted set
promotes the value to the skiplist + dictionary representation exactly
when the resulting entry count exceeds `server.zset_max_ziplist_entries`
or the new element's byte length exceeds `server.zset_max_ziplist_value`;
in both the promoted and the still-packed outcome the stored
(element, score) pairs are exactly the old ones plus the new pair, so the
element-to-score mapping is preserved across the transition. -/
theorem C2_packed_add_promotion (hash : List ℕ → ℕ) (canResize : Bool)
    (maxEntries maxValue : ℕ) (zl : ZZList) (ele : List ℕ)
    (score : NNDouble) (draws : List (List ℕ))
    (hnotin : ele ∉ zl.map Prod.fst) (hnodup : (zl.map Prod.fst).Nodup) :
    ((zaddZiplistNew hash canResize maxEntries maxValue zl ele score
        draws).isSkiplist = true ↔
      (maxEntries < zl.length + 1 ∨ maxValue < ele.length)) ∧
    ((zaddZiplistNew hash canResize maxEntries maxValue zl ele score
        draws).pairs).Perm ((ele, score) :: zl) := by
  have hperm := zzlInsert_perm zl ele score
  have hlen := zzlInsert_length zl ele score
  have hnodup1 : ((zzlInsert zl ele score).map Prod.fst).Nodup :=
    ((hperm.map Prod.fst).nodup_iff).mpr
      (List.nodup_cons.mpr ⟨hnotin, hnodup⟩)
  have hconv : (zslPairs (zsetConvert hash canResize
      (zzlInsert zl ele score) draws).zsl).Perm ((ele, score) :: zl) := by
    obtain ⟨-, hacc⟩ := zsetConvertLoop_inv hash canResize
      (zzlInsert zl ele score) draws ⟨zslEmpty, dictCreate NNDouble⟩
      (dictCreate_wf _) (List.Perm.refl _) hnodup1
      (by intro e _ hin; simp [dictEntries, dictCreate, DictHt.reset] at hin)
    have hnil : (zzlInsert zl ele score ++ zslPairs zslEmpty)
        = zzlInsert zl ele score := by
      simp [zslPairs, zslEmpty]
    rw [hnil] at hacc
    exact hacc.trans hperm
  unfold zaddZiplistNew
  dsimp only
  split_ifs with h1 h2
  · refine ⟨⟨fun _ => Or.inl ?_, fun _ => rfl⟩, hconv⟩
    rw [zzlLength, hlen] at h1
    exact h1
  · exact ⟨⟨fun _ => Or.inr h2, fun _ => rfl⟩, hconv⟩
  · refine ⟨⟨fun hcon => Bool.noConfusion hcon, ?_⟩, hperm⟩
    intro hdisj
    exfalso
    rcases hdisj with hl | hl
    · rw [zzlLength, hlen] at h1
      exact h1 hl
    · exact h2 hl

theorem C2_packed_add_promotion_witness :
    (zaddZiplistNew (fun _ => 0) true 0 0 [] [97] NNDouble.negInf
      []).isSkiplist = true ∧
    ((zaddZiplistNew (fun _ => 0) true 0 0 [] [97] NNDouble.negInf
      []).pairs).Perm [([97], NNDouble.negInf)] := by
  have h := C2_packed_add_promotion (fun _ => 0) true 0 0 [] [97]
    NNDouble.negInf [] (by decide) (by decide)
  exact ⟨h.1.mpr (Or.inl (by decide)), h.2⟩

theorem zlGet_set_eq {α : Type} : ∀ (l : List α) (i : ℕ) (a : α), i < l.length →
    (l.set i a).get? i = some a
  | _ :: _, 0, _, _ => rfl
  | _ :: tl, i + 1, a, h => zlGet_set_eq tl i a (by simpa using h)

theorem zlTake_set_of_le {α : Type} : ∀ (l : List α) (i j : ℕ) (a : α), j ≤ i →
    (l.set i a).take j = l.take j
  | [], _, _, _, _ => rfl
  | _ :: _, _, 0, _, _ => rfl
  | x :: tl, i + 1, j + 1, a, h => by
    simp only [List.set, List.take]
    rw [zlTake_set_of_le tl i j a (by omega)]

theorem zlOffset_succ (es : List ZlEntry) (i : ℕ) (e : ZlEntry)
    (h : es.get? i = some e) :
    zlOffset es (i + 1) = zlOffset es i + zlEntrySize e := by
  have ht : es.take (i + 1) = es.take i ++ [e] := by
    rw [List.take_succ]
    have : es[i]? = some e := by rw [← List.get?_eq_getElem?]; exact h
    rw [this]
    rfl
  simp only [zlOffset, ht, List.map_append, List.sum_append]
  simp [zlEntrySize]
  omega

theorem zlOffset_add (es : List ZlEntry) (m t : ℕ) :
    zlOffset es (m + t) = zlOffset es m + (((es.drop m).take t).map zlEntrySize).sum := by
  simp only [zlOffset]
  rw [List.take_add]
  simp [List.sum_append]
  omega

theorem zlSizes_ge_one (es : List ZlEntry)
    (hw : ∀ e ∈ es, (e.pw = 1 ∧ e.pv < ZIP_BIGLEN) ∨ e.pw = 5) :
    ∀ e ∈ es, 1 ≤ zlEntrySize e := by
  intro e he
  rcases hw e he with ⟨h1, -⟩ | h5 <;> simp [zlEntrySize] <;> omega

theorem zlOffset_lt (es : List ZlEntry)
    (hs : ∀ e ∈ es, 1 ≤ zlEntrySize e) (i j : ℕ) (hij : i < j)
    (hj : j ≤ es.length) : zlOffset es i < zlOffset es j := by
  obtain ⟨t, rfl⟩ : ∃ t, j = i + (t + 1) := ⟨j - i - 1, by omega⟩
  rw [zlOffset_add]
  have hne : (es.drop i).take (t + 1) ≠ [] := by
    have hlen : ((es.drop i).take (t + 1)).length = min (t + 1) (es.length - i) := by
      simp
    intro hnil
    rw [hnil] at hlen
    simp at hlen
    omega
  obtain ⟨x, hx⟩ := List.exists_mem_of_ne_nil _ hne
  have hxes : x ∈ es := List.mem_of_mem_drop (List.mem_of_mem_take hx)
  have h1 : 1 ≤ zlEntrySize x := hs x hxes
  have hsum : zlEntrySize x ≤ (((es.drop i).take (t + 1)).map zlEntrySize).sum :=
    List.single_le_sum (by intro y hy; omega) _ (List.mem_map_of_mem _ hx)
  omega

theorem zlSum_set : ∀ (es : List ZlEntry) (j : ℕ) (a b : ZlEntry),
    es.get? j = some a →
    ((es.set j b).map zlEntrySize).sum + zlEntrySize a
      = (es.map zlEntrySize).sum + zlEntrySize b
  | e :: tl, 0, a, b, h => by
    obtain rfl : e = a := by injection h
    simp [List.set]
    omega
  | e :: tl, j + 1, a, b, h => by
    have ih := zlSum_set tl j a b h
    simp only [List.set, List.map_cons, List.sum_cons]
    omega

theorem zlSum_take_set : ∀ (es : List ZlEntry) (j i : ℕ) (a b : ZlEntry),
    es.get? j = some a → j < i →
    (((es.set j b).take i).map zlEntrySize).sum + zlEntrySize a
      = ((es.take i).map zlEntrySize).sum + zlEntrySize b
  | e :: tl, 0, i + 1, a, b, h, _ => by
    obtain rfl : e = a := by injection h
    simp [List.set, List.take]
    omega
  | e :: tl, j + 1, i + 1, a, b, h, hji => by
    have ih := zlSum_take_set tl j i a b h (by omega)
    simp only [List.set, List.take, List.map_cons, List.sum_cons]
    omega

theorem zlOffset_set_le (es : List ZlEntry) (j j' : ℕ) (a : ZlEntry) (h : j' ≤ j) :
    zlOffset (es.set j a) j' = zlOffset es j' := by
  simp only [zlOffset]
  rw [zlTake_set_of_le es j j' a h]

theorem zlOffset_set_gt (es : List ZlEntry) (j i : ℕ) (a b : ZlEntry)
    (hj : es.get? j = some a) (hji : j < i) :
    zlOffset (es.set j b) i + zlEntrySize a = zlOffset es i + zlEntrySize b := by
  simp only [zlOffset]
  have := zlSum_take_set es j i a b hj hji
  omega

theorem zlTailTarget_of_ne_nil (es : List ZlEntry) (h : es ≠ []) :
    zlTailTarget es = zlOffset es (es.length - 1) := by
  rw [zlTailTarget, if_neg]
  simpa using h

theorem cascade_terminal_wf (z : Ziplist) (j : ℕ) (cur next : ZlEntry) (pw' : ℕ)
    (hc : z.entries.get? j = some cur) (hn : z.entries.get? (j + 1) = some next)
    (hpw : pw' = next.pw)
    (h0 : ∀ e, z.entries.get? 0 = some e → e.pv = 0)
    (hlink : ∀ i e1 e2, z.entries.get? i = some e1 →
      z.entries.get? (i + 1) = some e2 → i ≠ j → e2.pv = zlEntrySize e1)
    (hw : ∀ e ∈ z.entries, (e.pw = 1 ∧ e.pv < ZIP_BIGLEN) ∨ e.pw = 5)
    (ht : z.tailOff = zlTailTarget z.entries)
    (hwnew : (pw' = 1 ∧ zlEntrySize cur < ZIP_BIGLEN) ∨ pw' = 5) :
    ZiplistWF ⟨z.tailOff, z.entries.set (j + 1) ⟨pw', zlEntrySize cur, next.body⟩⟩ := by
  have hn1 : j + 1 < z.entries.length := (List.get?_eq_some.mp hn).1
  have hnn : z.entries ≠ [] := by
    intro hnil
    rw [hnil] at hn1
    simp at hn1
  have hsize : zlEntrySize (⟨pw', zlEntrySize cur, next.body⟩ : ZlEntry)
      = zlEntrySize next := by
    simp [zlEntrySize, hpw]
  refine ⟨?_, ?_, ?_, ?_⟩
  · intro e he
    rw [List.get?_set_ne _ _ (by omega)] at he
    exact h0 e he
  · intro i e1 e2 h1 h2
    by_cases hij : i = j
    · subst hij
      rw [List.get?_set_ne _ _ (by omega), hc] at h1
      rw [zlGet_set_eq _ _ _ hn1] at h2
      have he1 : cur = e1 := by injection h1
      have he2 : (⟨pw', zlEntrySize cur, next.body⟩ : ZlEntry) = e2 := by injection h2
      rw [← he2, he1]
    · by_cases hij1 : i = j + 1
      · subst hij1
        rw [zlGet_set_eq _ _ _ hn1] at h1
        rw [List.get?_set_ne _ _ (by omega)] at h2
        have he1 : (⟨pw', zlEntrySize cur, next.body⟩ : ZlEntry) = e1 := by injection h1
        rw [← he1, hsize]
        exact hlink (j + 1) next e2 hn h2 (by omega)
      · rw [List.get?_set_ne _ _ (by omega)] at h1
        rw [List.get?_set_ne _ _ (by omega)] at h2
        exact hlink i e1 e2 h1 h2 hij
  · intro e he
    rcases List.mem_or_eq_of_mem_set he with hmem | rfl
    · exact hw e hmem
    · exact hwnew
  · show z.tailOff = zlTailTarget (z.entries.set (j + 1) ⟨pw', zlEntrySize cur, next.body⟩)
    have hsn : z.entries.set (j + 1) ⟨pw', zlEntrySize cur, next.body⟩ ≠ [] := by
      intro hnil
      have hl0 := congrArg List.length hnil
      rw [List.length_set, List.length_nil] at hl0
      omega
    rw [zlTailTarget_of_ne_nil _ hsn, List.length_set]
    rw [zlTailTarget_of_ne_nil _ hnn] at ht
    by_cases hba : z.entries.length - 1 ≤ j + 1
    · rw [zlOffset_set_le _ _ _ _ hba]
      exact ht
    · have hadd := zlOffset_set_gt z.entries (j + 1) (z.entries.length - 1)
        next ⟨pw', zlEntrySize cur, next.body⟩ hn (by omega)
      rw [hsize] at hadd
      omega

theorem cascadeLoop_wf (fuel : ℕ) : ∀ (z : Ziplist) (j : ℕ),
    z.entries.length ≤ fuel + (j + 1) →
    (∀ e, z.entries.get? 0 = some e → e.pv = 0) →
    (∀ i e1 e2, z.entries.get? i = some e1 →
      z.entries.get? (i + 1) = some e2 → i ≠ j → e2.pv = zlEntrySize e1) →
    (∀ e ∈ z.entries, (e.pw = 1 ∧ e.pv < ZIP_BIGLEN) ∨ e.pw = 5) →
    z.tailOff = zlTailTarget z.entries →
    ZiplistWF (ziplistCascadeUpdateLoop fuel z j) := by
  induction fuel with
  | zero =>
    intro z j hfu h0 hlink hw ht
    show ZiplistWF z
    refine ⟨h0, ?_, hw, ht⟩
    intro i e1 e2 h1 h2
    by_cases hij : i = j
    · subst hij
      have := (List.get?_eq_some.mp h2).1
      omega
    · exact hlink i e1 e2 h1 h2 hij
  | succ fuel ih =>
    intro z j hfu h0 hlink hw ht
    cases hc : z.entries.get? j with
    | none =>
      have hred : ziplistCascadeUpdateLoop (fuel + 1) z j = z := by
        simp only [ziplistCascadeUpdateLoop, hc]
      rw [hred]
      refine ⟨h0, ?_, hw, ht⟩
      intro i e1 e2 h1 h2
      by_cases hij : i = j
      · subst hij
        rw [hc] at h1
        exact absurd h1 (by simp)
      · exact hlink i e1 e2 h1 h2 hij
    | some cur =>
      cases hn : z.entries.get? (j + 1) with
      | none =>
        have hred : ziplistCascadeUpdateLoop (fuel + 1) z j = z := by
          simp only [ziplistCascadeUpdateLoop, hc, hn]
        rw [hred]
        refine ⟨h0, ?_, hw, ht⟩
        intro i e1 e2 h1 h2
        by_cases hij : i = j
        · subst hij
          rw [hn] at h2
          exact absurd h2 (by simp)
        · exact hlink i e1 e2 h1 h2 hij
      | some next =>
        have hjlt : j < z.entries.length := (List.get?_eq_some.mp hc).1
        have hn1 : j + 1 < z.entries.length := (List.get?_eq_some.mp hn).1
        have hnn : z.entries ≠ [] := by
          intro hnil
          rw [hnil] at hjlt
          simp at hjlt
        simp only [ziplistCascadeUpdateLoop, hc, hn]
        by_cases hpv : next.pv = zlEntrySize cur
        · rw [if_pos hpv]
          refine ⟨h0, ?_, hw, ht⟩
          intro i e1 e2 h1 h2
          by_cases hij : i = j
          · subst hij
            rw [hc] at h1
            rw [hn] at h2
            have he1 : cur = e1 := by injection h1
            have he2 : next = e2 := by injection h2
            rw [← he1, ← he2]
            exact hpv
          · exact hlink i e1 e2 h1 h2 hij
        · rw [if_neg hpv]
          by_cases hgrow : next.pw < zipPrevEncodeLengthSize (zlEntrySize cur)
          · rw [if_pos hgrow]
            apply ih
            · rw [List.length_set]
              omega
            · intro e he
              rw [List.get?_set_ne _ _ (by omega)] at he
              exact h0 e he
            · intro i e1 e2 h1 h2 hij1
              by_cases hij : i = j
              · subst hij
                rw [List.get?_set_ne _ _ (by omega), hc] at h1
                rw [zlGet_set_eq _ _ _ hn1] at h2
                have he1 : cur = e1 := by injection h1
                have he2 : (⟨zipPrevEncodeLengthSize (zlEntrySize cur), zlEntrySize cur,
                    next.body⟩ : ZlEntry) = e2 := by injection h2
                rw [← he2, he1]
              · rw [List.get?_set_ne _ _ (by omega)] at h1
                rw [List.get?_set_ne _ _ (by omega)] at h2
                exact hlink i e1 e2 h1 h2 hij
            · intro e he
              rcases List.mem_or_eq_of_mem_set he with hmem | rfl
              · exact hw e hmem
              · by_cases hsm : zlEntrySize cur < ZIP_BIGLEN
                · exact Or.inl ⟨by simp [zipPrevEncodeLengthSize, if_pos hsm], by
                    simpa [zipPrevEncodeLengthSize] using hsm⟩
                · exact Or.inr (by simp [zipPrevEncodeLengthSize, if_neg hsm])
            · show (if z.tailOff = zlOffset z.entries (j + 1) then z.tailOff
                  else z.tailOff + (zipPrevEncodeLengthSize (zlEntrySize cur) - next.pw))
                = zlTailTarget (z.entries.set (j + 1)
                    ⟨zipPrevEncodeLengthSize (zlEntrySize cur), zlEntrySize cur, next.body⟩)
              have hsn : z.entries.set (j + 1)
                  ⟨zipPrevEncodeLengthSize (zlEntrySize cur), zlEntrySize cur, next.body⟩ ≠ [] := by
                intro hnil
                have hl0 := congrArg List.length hnil
                rw [List.length_set, List.length_nil] at hl0
                omega
              rw [zlTailTarget_of_ne_nil _ hsn, List.length_set]
              rw [zlTailTarget_of_ne_nil _ hnn] at ht
              by_cases hlast : j + 1 = z.entries.length - 1
              · rw [if_pos (by rw [ht, hlast])]
                rw [zlOffset_set_le _ _ _ _ (by omega)]
                exact ht
              · have hlt2 : j + 1 < z.entries.length - 1 := by omega
                have hne : z.tailOff ≠ zlOffset z.entries (j + 1) := by
                  rw [ht]
                  have := zlOffset_lt z.entries (zlSizes_ge_one z.entries hw)
                    (j + 1) (z.entries.length - 1) hlt2 (by omega)
                  omega
                rw [if_neg hne]
                have hadd := zlOffset_set_gt z.entries (j + 1) (z.entries.length - 1)
                  next ⟨zipPrevEncodeLengthSize (zlEntrySize cur), zlEntrySize cur, next.body⟩
                  hn hlt2
                have hs2 : zlEntrySize (⟨zipPrevEncodeLengthSize (zlEntrySize cur),
                    zlEntrySize cur, next.body⟩ : ZlEntry)
                    = zipPrevEncodeLengthSize (zlEntrySize cur) + next.body.length := rfl
                have hs3 : zlEntrySize next = next.pw + next.body.length := rfl
                rw [hs2, hs3] at hadd
                rw [ht]
                omega
          · rw [if_neg hgrow]
            by_cases hforce : zipPrevEncodeLengthSize (zlEntrySize cur) < next.pw
            · rw [if_pos hforce]
              apply cascade_terminal_wf z j cur next next.pw hc hn rfl h0 hlink hw ht
              have h5 : next.pw = 5 := by
                rcases hw next (List.get?_mem hn) with ⟨h1, -⟩ | h5
                · exfalso
                  have : 1 ≤ zipPrevEncodeLengthSize (zlEntrySize cur) := by
                    simp only [zipPrevEncodeLengthSize]
                    split <;> omega
                  omega
                · exact h5
              exact Or.inr h5
            · rw [if_neg hforce]
              have heq : zipPrevEncodeLengthSize (zlEntrySize cur) = next.pw := by omega
              rw [heq]
              apply cascade_terminal_wf z j cur next next.pw hc hn rfl h0 hlink hw ht
              by_cases hsm : zlEntrySize cur < ZIP_BIGLEN
              · refine Or.inl ⟨?_, hsm⟩
                rw [← heq]
                simp [zipPrevEncodeLengthSize, if_pos hsm]
              · refine Or.inr ?_
                rw [← heq]
                simp [zipPrevEncodeLengthSize, if_neg hsm]

theorem cascadeUpdate_wf (z : Ziplist) (j : ℕ)
    (h0 : ∀ e, z.entries.get? 0 = some e → e.pv = 0)
    (hlink : ∀ i e1 e2, z.entries.get? i = some e1 →
      z.entries.get? (i + 1) = some e2 → i ≠ j → e2.pv = zlEntrySize e1)
    (hw : ∀ e ∈ z.entries, (e.pw = 1 ∧ e.pv < ZIP_BIGLEN) ∨ e.pw = 5)
    (ht : z.tailOff = zlTailTarget z.entries) :
    ZiplistWF (__ziplistCascadeUpdate z j) :=
  cascadeLoop_wf z.entries.length z j (by omega) h0 hlink hw ht

theorem zipPrevEncodeLengthSize_spec (pv : ℕ) :
    (zipPrevEncodeLengthSize pv = 1 ∧ pv < ZIP_BIGLEN) ∨ zipPrevEncodeLengthSize pv = 5 := by
  by_cases h : pv < ZIP_BIGLEN
  · exact Or.inl ⟨by simp [zipPrevEncodeLengthSize, if_pos h], h⟩
  · exact Or.inr (by simp [zipPrevEncodeLengthSize, if_neg h])

theorem zlSpliceGet (es : List ZlEntry) (k : ℕ) (mid : List ZlEntry)
    (hk : k ≤ es.length) (i : ℕ) :
    (es.take k ++ mid).get? i = if i < k then es.get? i else mid.get? (i - k) := by
  by_cases h : i < k
  · rw [if_pos h, List.get?_append (by rw [List.length_take_of_le hk]; omega)]
    exact List.get?_take h
  · rw [if_neg h, List.get?_append_right (by rw [List.length_take_of_le hk]; omega)]
    rw [List.length_take_of_le hk]

theorem zlDrop_eq_cons (es : List ZlEntry) (k : ℕ) (e : ZlEntry)
    (h : es.get? k = some e) : es.drop k = e :: es.drop (k + 1) := by
  obtain ⟨hlt, hg⟩ := List.get?_eq_some.mp h
  rw [List.drop_eq_get_cons hlt, hg]

theorem zlGetLast_eq (es : List ZlEntry) : es.getLast? = es.get? (es.length - 1) := by
  cases es with
  | nil => rfl
  | cons x tl =>
    rw [List.getLast?_eq_get? (x :: tl)]

theorem zlOffset_append_le (A R : List ZlEntry) (i : ℕ) (h : i ≤ A.length) :
    zlOffset (A ++ R) i = ZIPLIST_HEADER_SIZE + ((A.take i).map zlEntrySize).sum := by
  simp only [zlOffset]
  rw [List.take_append_of_le_length h]

theorem zlOffset_append_add (A R : List ZlEntry) (t : ℕ) :
    zlOffset (A ++ R) (A.length + t)
      = ZIPLIST_HEADER_SIZE + (A.map zlEntrySize).sum + ((R.take t).map zlEntrySize).sum := by
  simp only [zlOffset]
  rw [List.take_append]
  rw [List.map_append, List.sum_append]
  omega

theorem ziplistInsert_wf (z : Ziplist) (k : ℕ) (body : List ℕ)
    (hwf : ZiplistWF z) : ZiplistWF (__ziplistInsert z k body) := by
  obtain ⟨h0, hlink, hw, ht⟩ := hwf
  cases hk : z.entries.get? k with
  | none =>
    simp only [__ziplistInsert, hk]
    by_cases hes : z.entries = []
    · rw [hes]
      show ZiplistWF ⟨ZIPLIST_HEADER_SIZE, [⟨1, 0, body⟩]⟩
      refine ⟨?_, ?_, ?_, ?_⟩
      · intro e he
        rw [List.get?_cons_zero] at he
        have he' : (⟨1, 0, body⟩ : ZlEntry) = e := by injection he
        rw [← he']
      · intro i e1 e2 h1 h2
        cases i with
        | zero =>
          rw [List.get?_cons_succ, List.get?_nil] at h2
          exact absurd h2 (by simp)
        | succ n =>
          rw [List.get?_cons_succ, List.get?_nil] at h1
          exact absurd h1 (by simp)
      · intro e he
        rw [List.mem_singleton] at he
        subst he
        refine Or.inl ⟨rfl, ?_⟩
        show (0 : ℕ) < ZIP_BIGLEN
        decide
      · rfl
    · have hlpos : 0 < z.entries.length := List.length_pos.mpr hes
      obtain ⟨last, hlast⟩ : ∃ last, z.entries.getLast? = some last := by
        rw [zlGetLast_eq]
        rcases h : z.entries.get? (z.entries.length - 1) with _ | e
        · have := List.get?_eq_none.mp h
          omega
        · exact ⟨e, rfl⟩
      rw [hlast]
      refine ⟨?_, ?_, ?_, ?_⟩
      · intro e he
        rw [List.get?_append hlpos] at he
        exact h0 e he
      · intro i e1 e2 h1 h2
        have hi2 : i + 1 < z.entries.length + 1 := by
          have := (List.get?_eq_some.mp h2).1
          simpa using this
        have h1' : z.entries.get? i = some e1 := by
          rw [List.get?_append (by omega)] at h1
          exact h1
        by_cases hiend : i + 1 < z.entries.length
        · rw [List.get?_append hiend] at h2
          exact hlink i e1 e2 h1' h2
        · have hieq : i + 1 = z.entries.length := by omega
          rw [List.get?_append_right (by omega)] at h2
          rw [hieq, Nat.sub_self] at h2
          have he2 : (⟨zipPrevEncodeLengthSize (zlEntrySize last), zlEntrySize last,
              body⟩ : ZlEntry) = e2 := by
            simpa using h2
          have hl1 : z.entries.get? (z.entries.length - 1) = some e1 := by
            rw [show z.entries.length - 1 = i by omega]
            exact h1'
          have hle : e1 = last := by
            rw [zlGetLast_eq, hl1] at hlast
            injection hlast
          rw [← he2, hle]
      · intro e he
        rcases List.mem_append.mp he with hmem | hmem
        · exact hw e hmem
        · rw [List.mem_singleton] at hmem
          subst hmem
          exact zipPrevEncodeLengthSize_spec (zlEntrySize last)
      · show zlOffset z.entries z.entries.length = zlTailTarget _
        have hne : z.entries ++ [(⟨zipPrevEncodeLengthSize (zlEntrySize last),
            zlEntrySize last, body⟩ : ZlEntry)] ≠ [] := by
          simp
        rw [zlTailTarget_of_ne_nil _ hne]
        rw [List.length_append, List.length_singleton,
          Nat.add_sub_cancel]
        rw [zlOffset_append_le _ _ _ (le_refl _), List.take_length]
        simp only [zlOffset, List.take_length]
  | some next =>
    have hklt : k < z.entries.length := (List.get?_eq_some.mp hk).1
    simp only [__ziplistInsert, hk]
    set es := z.entries with hes
    set pw := zipPrevEncodeLengthSize next.pv with hpw
    set reqlen := pw + body.length with hreq
    set npw := zipPrevEncodeLengthSize reqlen with hnpw
    set newE : ZlEntry := ⟨pw, next.pv, body⟩ with hnewE
    set newN : ZlEntry := ⟨npw, reqlen, next.body⟩ with hnewN
    set E2 : List ZlEntry := es.take k ++ newE :: newN :: es.drop (k + 1) with hE2
    have hlenE2 : E2.length = es.length + 1 := by
      rw [hE2]
      simp
      omega
    have hget : ∀ i, E2.get? i = if i < k then es.get? i
        else (newE :: newN :: es.drop (k + 1)).get? (i - k) := by
      intro i
      rw [hE2]
      exact zlSpliceGet es k _ (by omega) i
    have hgetk : E2.get? k = some newE := by
      rw [hget k, if_neg (by omega), Nat.sub_self]
      rfl
    have hgetk1 : E2.get? (k + 1) = some newN := by
      rw [hget (k + 1), if_neg (by omega), Nat.add_sub_cancel_left]
      rfl
    have hgetlo : ∀ i, i < k → E2.get? i = es.get? i := by
      intro i hi
      rw [hget i, if_pos hi]
    have hgethi : ∀ t, E2.get? (k + 2 + t) = es.get? (k + 1 + t) := by
      intro t
      rw [hget (k + 2 + t), if_neg (by omega)]
      have : k + 2 + t - k = t + 2 := by omega
      rw [this]
      show (es.drop (k + 1)).get? t = es.get? (k + 1 + t)
      rw [List.get?_drop]
    have h0' : ∀ e, E2.get? 0 = some e → e.pv = 0 := by
      intro e he
      by_cases hk0 : k = 0
      · subst hk0
        rw [hgetk] at he
        have : newE = e := by injection he
        rw [← this]
        show next.pv = 0
        exact h0 next hk
      · rw [hgetlo 0 (by omega)] at he
        exact h0 e he
    have hlink' : ∀ i e1 e2, E2.get? i = some e1 → E2.get? (i + 1) = some e2 →
        i ≠ k + 1 → e2.pv = zlEntrySize e1 := by
      intro i e1 e2 h1 h2 hik1
      by_cases hilo : i + 1 < k
      · rw [hgetlo i (by omega)] at h1
        rw [hgetlo (i + 1) hilo] at h2
        exact hlink i e1 e2 h1 h2
      · by_cases hieq : i + 1 = k
        · rw [hgetlo i (by omega)] at h1
          rw [hieq, hgetk] at h2
          have he2 : newE = e2 := by injection h2
          rw [← he2]
          show next.pv = zlEntrySize e1
          have hlk : es.get? (i + 1) = some next := by rw [hieq]; exact hk
          exact hlink i e1 next h1 hlk
        · by_cases hik : i = k
          · subst hik
            rw [hgetk] at h1
            rw [hgetk1] at h2
            have he1 : newE = e1 := by injection h1
            have he2 : newN = e2 := by injection h2
            rw [← he1, ← he2]
            show reqlen = pw + body.length
            rfl
          · obtain ⟨t, rfl⟩ : ∃ t, i = k + 2 + t := ⟨i - k - 2, by omega⟩
            rw [hgethi t] at h1
            have : k + 2 + t + 1 = k + 2 + (t + 1) := by omega
            rw [this, hgethi (t + 1)] at h2
            have : k + 1 + t + 1 = k + 1 + (t + 1) := by omega
            rw [← this] at h2
            exact hlink (k + 1 + t) e1 e2 h1 h2
    have hw' : ∀ e ∈ E2, (e.pw = 1 ∧ e.pv < ZIP_BIGLEN) ∨ e.pw = 5 := by
      intro e he
      rw [hE2] at he
      rcases List.mem_append.mp he with hmem | hmem
      · exact hw e (List.mem_of_mem_take hmem)
      · rcases hmem with _ | ⟨_, hmem⟩
        · exact zipPrevEncodeLengthSize_spec next.pv
        · rcases hmem with _ | ⟨_, hmem⟩
          · exact zipPrevEncodeLengthSize_spec reqlen
          · exact hw e (List.mem_of_mem_drop hmem)
    have hA : (es.take k).length = k := List.length_take_of_le (by omega)
    have hdecomp : es = es.take k ++ next :: es.drop (k + 1) := by
      conv_lhs => rw [← List.take_append_drop k es]
      rw [zlDrop_eq_cons es k next hk]
    have hE2ne : E2 ≠ [] := by
      intro hnil
      have := congrArg List.length hnil
      rw [hlenE2] at this
      simp at this
    have htail' : ∀ tOff : ℕ, tOff = (if k = es.length - 1 then (z.tailOff : ℤ) + reqlen
        else (z.tailOff : ℤ) + reqlen + zipPrevLenByteDiff next.pw reqlen).toNat →
        tOff = zlTailTarget E2 := by
      intro tOff htOff
      rw [zlTailTarget_of_ne_nil _ hE2ne, hlenE2, Nat.add_sub_cancel]
      rw [zlTailTarget_of_ne_nil _ (by intro h; rw [h] at hklt; simp at hklt)] at ht
      by_cases hlastk : k = es.length - 1
      · rw [if_pos hlastk] at htOff
        have hdrop : es.drop (k + 1) = [] := by
          apply List.drop_eq_nil_of_le
          omega
        have : zlOffset E2 es.length
            = ZIPLIST_HEADER_SIZE + ((es.take k).map zlEntrySize).sum + reqlen := by
          rw [hE2, hdrop]
          have hlen2 : es.length = (es.take k).length + 1 := by omega
          rw [hlen2, zlOffset_append_add]
          rfl
        rw [this]
        have hoff : z.tailOff = ZIPLIST_HEADER_SIZE + ((es.take k).map zlEntrySize).sum := by
          rw [ht, ← hlastk]
          rfl
        omega
      · rw [if_neg hlastk] at htOff
        have hklt1 : k < es.length - 1 := by omega
        set t := es.length - 1 - (k + 1) with htdef
        have hofftail : z.tailOff = ZIPLIST_HEADER_SIZE + ((es.take k).map zlEntrySize).sum
            + zlEntrySize next + (((es.drop (k + 1)).take t).map zlEntrySize).sum := by
          have h1 : zlOffset (es.take k ++ next :: es.drop (k + 1))
              ((es.take k).length + (1 + t))
              = ZIPLIST_HEADER_SIZE + ((es.take k).map zlEntrySize).sum
                + zlEntrySize next + (((es.drop (k + 1)).take t).map zlEntrySize).sum := by
            rw [zlOffset_append_add]
            have h2 : ((next :: es.drop (k + 1)).take (1 + t)).map zlEntrySize
                = zlEntrySize next :: ((es.drop (k + 1)).take t).map zlEntrySize := by
              rw [show 1 + t = t + 1 from by omega]
              rfl
            rw [h2, List.sum_cons]
            omega
          rw [hdecomp.symm] at h1
          rw [ht, show es.length - 1 = (es.take k).length + (1 + t) from by rw [hA]; omega]
          exact h1
        have hofftail2 : zlOffset E2 es.length
            = ZIPLIST_HEADER_SIZE + ((es.take k).map zlEntrySize).sum
              + zlEntrySize newE + zlEntrySize newN
              + (((es.drop (k + 1)).take t).map zlEntrySize).sum := by
          rw [hE2]
          have hlen3 : es.length = (es.take k).length + (2 + t) := by
            rw [hA]; omega
          rw [hlen3, zlOffset_append_add]
          have : ((newE :: newN :: es.drop (k + 1)).take (2 + t)).map zlEntrySize
              = zlEntrySize newE :: zlEntrySize newN
                :: ((es.drop (k + 1)).take t).map zlEntrySize := by
            rw [show 2 + t = t + 1 + 1 from by omega]
            rfl
          rw [this, List.sum_cons, List.sum_cons]
          omega
        rw [hofftail2]
        have hsE : zlEntrySize newE = reqlen := rfl
        have hsN : zlEntrySize newN = npw + next.body.length := rfl
        have hsnext : zlEntrySize next = next.pw + next.body.length := rfl
        rw [zipPrevLenByteDiff, ← hnpw] at htOff
        omega
    by_cases hnd : zipPrevLenByteDiff next.pw reqlen = 0
    · rw [if_pos hnd]
      refine ⟨h0', ?_, hw', ?_⟩
      · intro i e1 e2 h1 h2
        by_cases hik1 : i = k + 1
        · subst hik1
          rw [hgetk1] at h1
          have : k + 1 + 1 = k + 2 + 0 := by omega
          rw [this, hgethi 0] at h2
          have he1 : newN = e1 := by injection h1
          rw [← he1]
          show e2.pv = zlEntrySize newN
          have hnpweq : npw = next.pw := by
            rw [zipPrevLenByteDiff, ← hnpw] at hnd
            omega
          have : zlEntrySize newN = zlEntrySize next := by
            rw [hnewN]
            show npw + next.body.length = next.pw + next.body.length
            omega
          rw [this]
          have : k + 1 + 0 = k + 1 := by omega
          rw [this] at h2
          exact hlink k next e2 hk h2
        · exact hlink' i e1 e2 h1 h2 hik1
      · exact htail' _ rfl
    · rw [if_neg hnd]
      apply cascadeUpdate_wf
      · exact h0'
      · exact hlink'
      · exact hw'
      · exact htail' _ rfl

theorem ziplistDelete_wf (z : Ziplist) (k num : ℕ)
    (hwf : ZiplistWF z) : ZiplistWF (__ziplistDelete z k num) := by
  obtain ⟨h0, hlink, hw, ht⟩ := hwf
  simp only [__ziplistDelete]
  by_cases htot : (((z.entries.drop k).take (min num (z.entries.length - k))).map
      zlEntrySize).sum = 0
  · rw [if_pos htot]
    exact ⟨h0, hlink, hw, ht⟩
  · rw [if_neg htot]
    set es := z.entries with hes
    set D := min num (es.length - k) with hD
    have hkl : k < es.length := by
      by_contra hcon
      apply htot
      rw [List.drop_eq_nil_of_le (by omega)]
      simp
    have hD1 : 1 ≤ D := by
      by_contra hcon
      apply htot
      rw [show D = 0 from by omega]
      simp
    obtain ⟨ek, hfk⟩ : ∃ ek, es.get? k = some ek := by
      rcases hg : es.get? k with _ | e
      · have := List.get?_eq_none.mp hg
        omega
      · exact ⟨e, rfl⟩
    cases hs : es.get? (k + D) with
    | some survivor =>
      simp only [hs, hfk]
      have hkD : k + D < es.length := (List.get?_eq_some.mp hs).1
      set newpw := zipPrevEncodeLengthSize ek.pv with hnewpw
      set surv : ZlEntry := ⟨newpw, ek.pv, survivor.body⟩ with hsurv
      set E2 : List ZlEntry := es.take k ++ surv :: es.drop (k + D + 1) with hE2
      have hlenE2 : E2.length = es.length - D := by
        rw [hE2]
        simp
        omega
      have hget : ∀ i, E2.get? i = if i < k then es.get? i
          else (surv :: es.drop (k + D + 1)).get? (i - k) := by
        intro i
        rw [hE2]
        exact zlSpliceGet es k _ (by omega) i
      have hgetk : E2.get? k = some surv := by
        rw [hget k, if_neg (by omega), Nat.sub_self]
        rfl
      have hgetlo : ∀ i, i < k → E2.get? i = es.get? i := by
        intro i hi
        rw [hget i, if_pos hi]
      have hgethi : ∀ t, E2.get? (k + 1 + t) = es.get? (k + D + 1 + t) := by
        intro t
        rw [hget (k + 1 + t), if_neg (by omega)]
        have h1 : k + 1 + t - k = t + 1 := by omega
        rw [h1]
        show (es.drop (k + D + 1)).get? t = es.get? (k + D + 1 + t)
        rw [List.get?_drop]
      have h0' : ∀ e, E2.get? 0 = some e → e.pv = 0 := by
        intro e he
        by_cases hk0 : k = 0
        · subst hk0
          rw [hgetk] at he
          have he' : surv = e := by injection he
          rw [← he']
          show ek.pv = 0
          exact h0 ek hfk
        · rw [hgetlo 0 (by omega)] at he
          exact h0 e he
      have hlink' : ∀ i e1 e2, E2.get? i = some e1 → E2.get? (i + 1) = some e2 →
          i ≠ k → e2.pv = zlEntrySize e1 := by
        intro i e1 e2 h1 h2 hik
        by_cases hilo : i + 1 < k
        · rw [hgetlo i (by omega)] at h1
          rw [hgetlo (i + 1) hilo] at h2
          exact hlink i e1 e2 h1 h2
        · by_cases hieq : i + 1 = k
          · rw [hgetlo i (by omega)] at h1
            rw [hieq, hgetk] at h2
            have he2 : surv = e2 := by injection h2
            rw [← he2]
            show ek.pv = zlEntrySize e1
            have hlk : es.get? (i + 1) = some ek := by rw [hieq]; exact hfk
            exact hlink i e1 ek h1 hlk
          · obtain ⟨t, rfl⟩ : ∃ t, i = k + 1 + t := ⟨i - k - 1, by omega⟩
            rw [hgethi t] at h1
            have hsh : k + 1 + t + 1 = k + 1 + (t + 1) := by omega
            rw [hsh, hgethi (t + 1)] at h2
            have hsh2 : k + D + 1 + (t + 1) = k + D + 1 + t + 1 := by omega
            rw [hsh2] at h2
            exact hlink (k + D + 1 + t) e1 e2 h1 h2
      have hw' : ∀ e ∈ E2, (e.pw = 1 ∧ e.pv < ZIP_BIGLEN) ∨ e.pw = 5 := by
        intro e he
        rw [hE2] at he
        rcases List.mem_append.mp he with hmem | hmem
        · exact hw e (List.mem_of_mem_take hmem)
        · rcases hmem with _ | ⟨_, hmem⟩
          · exact zipPrevEncodeLengthSize_spec ek.pv
          · exact hw e (List.mem_of_mem_drop hmem)
      have hA : (es.take k).length = k := List.length_take_of_le (by omega)
      have hE2ne : E2 ≠ [] := by
        intro hnil
        have := congrArg List.length hnil
        rw [hlenE2] at this
        simp at this
        omega
      have hoffkD : zlOffset es (k + D) = zlOffset es k
          + (((es.drop k).take D).map zlEntrySize).sum := zlOffset_add es k D
      have htnn : z.tailOff = zlOffset es (es.length - 1) := by
        rw [ht, zlTailTarget_of_ne_nil]
        intro hnil
        rw [hnil] at hkl
        simp at hkl
      have htail' : ∀ tOff : ℕ,
          tOff = (if k + D = es.length - 1
            then (z.tailOff : ℤ) - ((((es.drop k).take D).map zlEntrySize).sum : ℤ)
            else (z.tailOff : ℤ) - ((((es.drop k).take D).map zlEntrySize).sum : ℤ)
              + zipPrevLenByteDiff survivor.pw ek.pv).toNat →
          tOff = zlTailTarget E2 := by
        intro tOff htOff
        rw [zlTailTarget_of_ne_nil _ hE2ne, hlenE2]
        by_cases hlast : k + D = es.length - 1
        · rw [if_pos hlast] at htOff
          have hdrop : es.drop (k + D + 1) = [] := by
            apply List.drop_eq_nil_of_le
            omega
          have hidx : es.length - D - 1 = k := by omega
          rw [hidx]
          have htg : zlOffset E2 k
              = ZIPLIST_HEADER_SIZE + ((es.take k).map zlEntrySize).sum := by
            rw [hE2, zlOffset_append_le _ _ _ (by omega), List.take_take,
              min_eq_left (le_refl k)]
          rw [htg]
          have hoff : zlOffset es (k + D)
              = ZIPLIST_HEADER_SIZE + ((es.take k).map zlEntrySize).sum
                + (((es.drop k).take D).map zlEntrySize).sum := by
            rw [hoffkD]
            rfl
          rw [← hlast] at htnn
          omega
        · rw [if_neg hlast] at htOff
          set t := es.length - 1 - (k + D + 1) with htdef
          have hidx : es.length - D - 1 = k + 1 + t := by omega
          rw [hidx]
          have htg : zlOffset E2 (k + 1 + t)
              = ZIPLIST_HEADER_SIZE + ((es.take k).map zlEntrySize).sum
                + zlEntrySize surv
                + (((es.drop (k + D + 1)).take t).map zlEntrySize).sum := by
            have h1 : zlOffset (es.take k ++ surv :: es.drop (k + D + 1))
                ((es.take k).length + (1 + t))
                = ZIPLIST_HEADER_SIZE + ((es.take k).map zlEntrySize).sum
                  + zlEntrySize surv
                  + (((es.drop (k + D + 1)).take t).map zlEntrySize).sum := by
              rw [zlOffset_append_add]
              have h2 : ((surv :: es.drop (k + D + 1)).take (1 + t)).map zlEntrySize
                  = zlEntrySize surv
                    :: ((es.drop (k + D + 1)).take t).map zlEntrySize := by
                rw [show 1 + t = t + 1 from by omega]
                rfl
              rw [h2, List.sum_cons]
              omega
            rw [← hE2] at h1
            rw [← h1, hA, show k + (1 + t) = k + 1 + t from by omega]
          rw [htg]
          have hofftail : z.tailOff
              = zlOffset es k + (((es.drop k).take D).map zlEntrySize).sum
                + zlEntrySize survivor
                + (((es.drop (k + D + 1)).take t).map zlEntrySize).sum := by
            rw [htnn, show es.length - 1 = (k + D) + (1 + t) from by omega,
              zlOffset_add es (k + D) (1 + t), hoffkD]
            have h2 : (es.drop (k + D)).take (1 + t)
                = survivor :: (es.drop (k + D + 1)).take t := by
              rw [zlDrop_eq_cons es (k + D) survivor hs,
                show 1 + t = t + 1 from by omega]
              rfl
            rw [h2, List.map_cons, List.sum_cons]
            omega
          have hok : zlOffset es k
              = ZIPLIST_HEADER_SIZE + ((es.take k).map zlEntrySize).sum := rfl
          have hsS : zlEntrySize surv = newpw + survivor.body.length := rfl
          have hsV : zlEntrySize survivor = survivor.pw + survivor.body.length := rfl
          rw [zipPrevLenByteDiff, ← hnewpw] at htOff
          omega
      by_cases hnd : zipPrevLenByteDiff survivor.pw ek.pv = 0
      · rw [if_pos hnd]
        refine ⟨h0', ?_, hw', ?_⟩
        · intro i e1 e2 h1 h2
          by_cases hik : i = k
          · rw [hik] at h1 h2
            rw [hgetk] at h1
            have hsh : k + 1 = k + 1 + 0 := by omega
            rw [hsh, hgethi 0] at h2
            have he1 : surv = e1 := by injection h1
            rw [← he1]
            show e2.pv = zlEntrySize surv
            have hpweq : newpw = survivor.pw := by
              rw [zipPrevLenByteDiff, ← hnewpw] at hnd
              omega
            have hsz : zlEntrySize surv = zlEntrySize survivor := by
              rw [hsurv]
              show newpw + survivor.body.length = survivor.pw + survivor.body.length
              omega
            rw [hsz]
            have hsh2 : k + D + 1 + 0 = k + D + 1 := by omega
            rw [hsh2] at h2
            exact hlink (k + D) survivor e2 hs h2
          · exact hlink' i e1 e2 h1 h2 hik
        · exact htail' _ rfl
      · rw [if_neg hnd]
        apply cascadeUpdate_wf
        · exact h0'
        · exact hlink'
        · exact hw'
        · exact htail' _ rfl
    | none =>
      simp only [hs, hfk]
      have hDlen : es.length ≤ k + D := by
        by_contra hcon
        obtain ⟨e, hce⟩ : ∃ e, es.get? (k + D) = some e := by
          rcases hg : es.get? (k + D) with _ | e
          · have := List.get?_eq_none.mp hg
            omega
          · exact ⟨e, rfl⟩
        rw [hs] at hce
        exact absurd hce (by simp)
      refine ⟨?_, ?_, ?_, ?_⟩
      · intro e he
        by_cases hk0 : k = 0
        · subst hk0
          rw [List.take_zero] at he
          exact absurd he (by simp)
        · rw [List.get?_take (by omega)] at he
          exact h0 e he
      · intro i e1 e2 h1 h2
        have hi1 : i + 1 < k := by
          have := (List.get?_eq_some.mp h2).1
          rw [List.length_take] at this
          omega
        rw [List.get?_take (by omega)] at h1
        rw [List.get?_take hi1] at h2
        exact hlink i e1 e2 h1 h2
      · intro e he
        exact hw e (List.mem_of_mem_take he)
      · show zlOffset es k - ek.pv = zlTailTarget (es.take k)
        by_cases hk0 : k = 0
        · subst hk0
          have hpv0 : ek.pv = 0 := h0 ek hfk
          rw [List.take_zero]
          show zlOffset es 0 - ek.pv = ZIPLIST_HEADER_SIZE
          rw [hpv0]
          rfl
        · have hkne : es.take k ≠ [] := by
            intro hnil
            have := congrArg List.length hnil
            rw [List.length_take_of_le (by omega)] at this
            simp at this
            omega
          rw [zlTailTarget_of_ne_nil _ hkne, List.length_take_of_le (by omega)]
          obtain ⟨ep, hfp⟩ : ∃ ep, es.get? (k - 1) = some ep := by
            rcases hg : es.get? (k - 1) with _ | e
            · have := List.get?_eq_none.mp hg
              omega
            · exact ⟨e, rfl⟩
          have hpv : ek.pv = zlEntrySize ep := by
            apply hlink (k - 1) ep ek hfp
            rw [show k - 1 + 1 = k from by omega]
            exact hfk
          have hsucc : zlOffset es k = zlOffset es (k - 1) + zlEntrySize ep := by
            rw [show k = (k - 1) + 1 from by omega] at hfk ⊢
            exact zlOffset_succ es (k - 1) ep hfp
          have htk : zlOffset (es.take k) (k - 1) = zlOffset es (k - 1) := by
            simp only [zlOffset]
            rw [List.take_take, min_eq_left (by omega)]
          rw [htk]
          omega

theorem cascadeLoop_pw_mono (fuel : ℕ) : ∀ (z : Ziplist) (k i : ℕ) (e e' : ZlEntry),
    z.entries.get? i = some e →
    (ziplistCascadeUpdateLoop fuel z k).entries.get? i = some e' →
    e.pw ≤ e'.pw ∧ e'.body = e.body := by
  induction fuel with
  | zero =>
    intro z k i e e' h1 h2
    rw [show ziplistCascadeUpdateLoop 0 z k = z from rfl, h1] at h2
    have he : e = e' := by injection h2
    exact ⟨by rw [he], by rw [he]⟩
  | succ fuel ih =>
    intro z k i e e' h1 h2
    cases hc : z.entries.get? k with
    | none =>
      rw [show ziplistCascadeUpdateLoop (fuel + 1) z k = z from by
        simp only [ziplistCascadeUpdateLoop, hc], h1] at h2
      have he : e = e' := by injection h2
      exact ⟨by rw [he], by rw [he]⟩
    | some cur =>
      cases hn : z.entries.get? (k + 1) with
      | none =>
        rw [show ziplistCascadeUpdateLoop (fuel + 1) z k = z from by
          simp only [ziplistCascadeUpdateLoop, hc, hn], h1] at h2
        have he : e = e' := by injection h2
        exact ⟨by rw [he], by rw [he]⟩
      | some next =>
        have hn1 : k + 1 < z.entries.length := (List.get?_eq_some.mp hn).1
        simp only [ziplistCascadeUpdateLoop, hc, hn] at h2
        by_cases hpv : next.pv = zlEntrySize cur
        · rw [if_pos hpv, h1] at h2
          have he : e = e' := by injection h2
          exact ⟨by rw [he], by rw [he]⟩
        · rw [if_neg hpv] at h2
          by_cases hgrow : next.pw < zipPrevEncodeLengthSize (zlEntrySize cur)
          · rw [if_pos hgrow] at h2
            by_cases hik : i = k + 1
            · subst hik
              have hz1 : (z.entries.set (k + 1)
                  (⟨zipPrevEncodeLengthSize (zlEntrySize cur), zlEntrySize cur,
                    next.body⟩ : ZlEntry)).get? (k + 1)
                  = some ⟨zipPrevEncodeLengthSize (zlEntrySize cur), zlEntrySize cur,
                    next.body⟩ := zlGet_set_eq _ _ _ (by omega)
              obtain ⟨hle, hbody⟩ := ih _ (k + 1) (k + 1) _ e' hz1 h2
              have he : next = e := by rw [hn] at h1; injection h1
              refine ⟨?_, ?_⟩
              · rw [← he]
                exact le_trans (le_of_lt hgrow) hle
              · rw [hbody, ← he]
            · have h1' : (z.entries.set (k + 1)
                  (⟨zipPrevEncodeLengthSize (zlEntrySize cur), zlEntrySize cur,
                    next.body⟩ : ZlEntry)).get? i = some e := by
                rw [List.get?_set_ne _ _ (fun h => hik h.symm)]
                exact h1
              exact ih _ (k + 1) i e e' h1' h2
          · rw [if_neg hgrow] at h2
            by_cases hforce : zipPrevEncodeLengthSize (zlEntrySize cur) < next.pw
            · rw [if_pos hforce] at h2
              by_cases hik : i = k + 1
              · subst hik
                rw [zlGet_set_eq _ _ _ (by omega)] at h2
                have he' : (⟨next.pw, zlEntrySize cur, next.body⟩ : ZlEntry) = e' := by
                  injection h2
                have he : next = e := by rw [hn] at h1; injection h1
                rw [← he', ← he]
                exact ⟨le_refl _, rfl⟩
              · rw [List.get?_set_ne _ _ (fun h => hik h.symm), h1] at h2
                have he : e = e' := by injection h2
                exact ⟨by rw [he], by rw [he]⟩
            · rw [if_neg hforce] at h2
              have heq : zipPrevEncodeLengthSize (zlEntrySize cur) = next.pw := by omega
              by_cases hik : i = k + 1
              · subst hik
                rw [zlGet_set_eq _ _ _ (by omega)] at h2
                have he' : (⟨zipPrevEncodeLengthSize (zlEntrySize cur), zlEntrySize cur,
                    next.body⟩ : ZlEntry) = e' := by injection h2
                have he : next = e := by rw [hn] at h1; injection h1
                rw [← he', ← he]
                exact ⟨by rw [heq], rfl⟩
              · rw [List.get?_set_ne _ _ (fun h => hik h.symm), h1] at h2
                have he : e = e' := by injection h2
                exact ⟨by rw [he], by rw [he]⟩

theorem ziplistNew_wf : ZiplistWF ziplistNew := by
  refine ⟨?_, ?_, ?_, rfl⟩
  · intro e he
    exact absurd he (by simp [ziplistNew])
  · intro i e1 e2 h1 h2
    exact absurd h1 (by simp [ziplistNew])
  · intro e he
    exact absurd he (by simp [ziplistNew])

/-- C3: every packed-list mutation — push at head or tail, insert before a
cursor, single delete, and range delete — preserves well-formedness of the
blob: every entry's `prev_entry_length` field stores exactly its
predecessor's total byte length (0 for the first entry), and the stored
tail offset is the offset of the first byte of the last entry, or of the
terminator when the list is empty. This includes the cascade cases: the
proof goes through `__ziplistCascadeUpdate`, which repairs the successor
headers (growing them as needed) whenever an insertion or deletion changes
a predecessor's length across the `ZIP_BIGLEN` boundary. -/
theorem C3_packed_list_header_invariant (z : Ziplist) (k index num : ℕ)
    (body : List ℕ) (atHead : Bool) (hwf : ZiplistWF z) :
    ZiplistWF (ziplistPush z body atHead) ∧
    ZiplistWF (__ziplistInsert z k body) ∧
    ZiplistWF (ziplistDelete z k) ∧
    ZiplistWF (ziplistDeleteRange z index num) := by
  refine ⟨?_, ziplistInsert_wf z k body hwf, ziplistDelete_wf z k 1 hwf, ?_⟩
  · cases atHead with
    | true => exact ziplistInsert_wf z 0 body hwf
    | false => exact ziplistInsert_wf z z.entries.length body hwf
  · show ZiplistWF (if index < z.entries.length then __ziplistDelete z index num else z)
    by_cases hidx : index < z.entries.length
    · rw [if_pos hidx]
      exact ziplistDelete_wf z index num hwf
    · rw [if_neg hidx]
      exact hwf

theorem C3_packed_list_header_invariant_witness :
    ZiplistWF ziplistNew ∧
    (ZiplistWF (ziplistPush ziplistNew [0xf1] true) ∧
     ZiplistWF (__ziplistInsert ziplistNew 0 [0xf1]) ∧
     ZiplistWF (ziplistDelete ziplistNew 0) ∧
     ZiplistWF (ziplistDeleteRange ziplistNew 0 1)) :=
  ⟨ziplistNew_wf,
   C3_packed_list_header_invariant ziplistNew 0 0 1 [0xf1] true ziplistNew_wf⟩

/-- C7: the no-shrink asymmetry of `__ziplistCascadeUpdate`. When a
deletion (or any header rewrite) leaves some entry's predecessor shorter
than `ZIP_BIGLEN = 254` bytes while that entry's `prev_entry_length` field
occupies 5 bytes, the cascade's `zipPrevEncodeLengthForceLarge` branch
fires: the field keeps its 5-byte width and only the stored length value
is rewritten — the entry's remaining bytes and every other entry are
untouched, the tail offset is unchanged, and the cascade stops there.
Moreover no cascade run ever shrinks any entry's `prev_entry_length`
field back to the 1-byte form (widths are monotone), and entry bodies are
never rewritten. -/
theorem C7_prevlen_force_large (z : Ziplist) (j : ℕ) (cur next : ZlEntry)
    (hc : z.entries.get? j = some cur)
    (hn : z.entries.get? (j + 1) = some next)
    (hch : next.pv ≠ zlEntrySize cur)
    (hw5 : next.pw = 5)
    (hsmall : zlEntrySize cur < ZIP_BIGLEN) :
    __ziplistCascadeUpdate z j
      = ⟨z.tailOff, z.entries.set (j + 1) ⟨5, zlEntrySize cur, next.body⟩⟩ ∧
    ∀ (fuel k i : ℕ) (e e' : ZlEntry),
      z.entries.get? i = some e →
      (ziplistCascadeUpdateLoop fuel z k).entries.get? i = some e' →
      e.pw ≤ e'.pw ∧ e'.body = e.body := by
  constructor
  · have hn1 : j + 1 < z.entries.length := (List.get?_eq_some.mp hn).1
    show ziplistCascadeUpdateLoop z.entries.length z j = _
    obtain ⟨m, hm⟩ : ∃ m, z.entries.length = m + 1 := ⟨z.entries.length - 1, by omega⟩
    rw [hm]
    simp only [ziplistCascadeUpdateLoop, hc, hn]
    rw [if_neg hch]
    have hrls : zipPrevEncodeLengthSize (zlEntrySize cur) = 1 := by
      simp [zipPrevEncodeLengthSize, if_pos hsmall]
    rw [hrls]
    rw [if_neg (by omega : ¬ next.pw < 1)]
    rw [if_pos (by omega : 1 < next.pw)]
    rw [hw5]
  · intro fuel k i e e' h1 h2
    exact cascadeLoop_pw_mono fuel z k i e e' h1 h2

theorem C7_prevlen_force_large_witness :
    ((⟨20, [⟨1, 0, [7]⟩, ⟨5, 99, [8]⟩]⟩ : Ziplist).entries.get? 0 = some ⟨1, 0, [7]⟩ ∧
     (⟨20, [⟨1, 0, [7]⟩, ⟨5, 99, [8]⟩]⟩ : Ziplist).entries.get? (0 + 1) = some ⟨5, 99, [8]⟩ ∧
     (⟨5, 99, [8]⟩ : ZlEntry).pv ≠ zlEntrySize ⟨1, 0, [7]⟩ ∧
     (⟨5, 99, [8]⟩ : ZlEntry).pw = 5 ∧
     zlEntrySize ⟨1, 0, [7]⟩ < ZIP_BIGLEN) ∧
    __ziplistCascadeUpdate ⟨20, [⟨1, 0, [7]⟩, ⟨5, 99, [8]⟩]⟩ 0
      = ⟨20, [⟨1, 0, [7]⟩, ⟨5, 2, [8]⟩]⟩ ∧
    (∀ (fuel k i : ℕ) (e e' : ZlEntry),
      (⟨20, [⟨1, 0, [7]⟩, ⟨5, 99, [8]⟩]⟩ : Ziplist).entries.get? i = some e →
      (ziplistCascadeUpdateLoop fuel ⟨20, [⟨1, 0, [7]⟩, ⟨5, 99, [8]⟩]⟩ k).entries.get? i
        = some e' →
      e.pw ≤ e'.pw ∧ e'.body = e.body) := by
  have h := C7_prevlen_force_large ⟨20, [⟨1, 0, [7]⟩, ⟨5, 99, [8]⟩]⟩ 0
    ⟨1, 0, [7]⟩ ⟨5, 99, [8]⟩ rfl rfl (by decide) rfl (by decide)
  exact ⟨⟨rfl, rfl, by decide, rfl, by decide⟩, h.1.trans (by decide), h.2⟩
